import Mathlib

/-!
Verification of the BeautifulSoup 4 tree model (`bs4/element.py`) and match
engine (`bs4/strainer.py`) against its natural-language specification.

The mutable pointer structure of the Python code is shallowly embedded as a
heap: a total function from node identifiers (`Nat`, standing for Python
object identity) to node records.  Pointer mutation becomes functional update
of that function.  Loops whose termination depends on the heap being an
actual tree take an explicit fuel argument; running out of fuel yields
`none` / an error, never a wrong success.
-/

namespace BS4

/-! ## List helpers (Python list semantics and successor-in-list lookups) -/

/-- Successor of the first occurrence of `j` in a list (the element directly
after `j`), `none` if `j` is absent or last. -/
def succIn : List Nat → Nat → Option Nat
  | [], _ => none
  | [_], _ => none
  | x :: y :: rest, j => if x = j then some y else succIn (y :: rest) j

/-- Predecessor of the last occurrence of `j`: the element directly before
`j`, `none` if `j` is absent or first.  Defined via `succIn` on the
reversed list. -/
def predIn (l : List Nat) (j : Nat) : Option Nat :=
  succIn l.reverse j

/-- Index of the first occurrence of `n` in a list of ids; this models
`Tag.index`, which compares by object identity. -/
def idxOfId (n : Nat) : List Nat → Option Nat
  | [] => none
  | x :: xs => if x = n then some 0 else (idxOfId n xs).map (· + 1)

/-- Insertion at a nonnegative index, appending when the index is beyond the
end (the clamping behaviour of Python `list.insert` after its index has been
normalised to a nonnegative number). -/
def insAt : Nat → Nat → List Nat → List Nat
  | 0, x, l => x :: l
  | _ + 1, x, [] => [x]
  | k + 1, x, a :: l => a :: insAt k x l

/-- Python `l[i]` for a possibly negative index `i`: negative indices count
from the end; out-of-range gives `none` (an `IndexError`). -/
def pyGet (l : List Nat) (i : Int) : Option Nat :=
  if 0 ≤ i then l.get? i.toNat
  else if 0 ≤ i + l.length then l.get? (i + l.length).toNat
  else none

/-- Python `l.insert(i, x)`: a negative index counts from the end and is
clamped to 0; a large index appends. -/
def pyInsertAt (l : List Nat) (i : Int) (x : Nat) : List Nat :=
  if 0 ≤ i then insAt i.toNat x l else insAt (i + l.length).toNat x l

/-- Boolean duplicate-freedom check for id lists. -/
def nodupB : List Nat → Bool
  | [] => true
  | x :: xs => (!xs.contains x) && nodupB xs

/-! ## The heap model of `PageElement` / `Tag`

Every Python `PageElement` carries `parent`, `previous_sibling`,
`next_sibling`, `previous_element`, `next_element`; a `Tag` additionally has
`name`, `attrs` and `contents`; a `NavigableString` has its string value
(intrinsic to the object, surviving `__dict__.clear()`).  The `isTag` flag
models the Python class of the object (also not stored in `__dict__`). -/

structure HNode where
  isTag : Bool
  name : String
  attrs : List (String × String)
  text : String
  contents : List Nat
  parent : Option Nat
  prevSib : Option Nat
  nextSib : Option Nat
  prevEl : Option Nat
  nextEl : Option Nat
  decomposed : Bool
deriving DecidableEq

/-- A heap: object identity (a `Nat`) to node record. -/
def Heap := Nat → HNode

/-- Heap update of a single node (a Python attribute assignment). -/
def setF (h : Heap) (i : Nat) (f : HNode → HNode) : Heap :=
  fun j => if j = i then f (h j) else h j

/-- The record an identifier that is bound to no object maps to. -/
def defaultHNode : HNode :=
  { isTag := false, name := "", attrs := [], text := "", contents := [],
    parent := none, prevSib := none, nextSib := none,
    prevEl := none, nextEl := none, decomposed := false }

/-- Pointwise property of a heap, used to state per-field behaviour of the
translated mutation steps without applying the heap expression (which keeps
case analysis on its branches available to the proofs). -/
def Pointwise (g : Heap) (P : Nat → HNode → Prop) : Prop :=
  ∀ j, P j (g j)

/-- Two heaps agreeing on every node's intrinsic data and `contents` list
(they may differ in navigation links and the `decomposed` flag). -/
def DataEq (g h : Heap) : Prop :=
  ∀ j, (g j).isTag = (h j).isTag ∧ (g j).name = (h j).name ∧
    (g j).attrs = (h j).attrs ∧ (g j).text = (h j).text ∧
    (g j).contents = (h j).contents

/-! ## Traversal helpers translated from `element.py` -/

/-- Walk of `PageElement._last_descendant(is_initialized=False,
accept_self=True)`: repeatedly take the last child while the current node is
a `Tag` with nonempty `contents` (element.py:466-469).  Fuel-bounded; fuel
exhaustion gives `none`. -/
def lastDescDown (h : Heap) : Nat → Nat → Option Nat
  | 0, _ => none
  | fuel + 1, i =>
    match (h i).contents.getLast? with
    | some c => if (h i).isTag then lastDescDown h fuel c else some i
    | none => some i

/-- Ancestor walk of `Tag.insert` (element.py:1511-1518): starting at the
tag itself, look for the first ancestor-or-self that has a `next_sibling`;
`some none` means the end of the document was reached. -/
def upNextSib (h : Heap) : Nat → Nat → Option (Option Nat)
  | 0, _ => none
  | fuel + 1, p =>
    match (h p).nextSib with
    | some x => some (some x)
    | none =>
      match (h p).parent with
      | some q => upNextSib h fuel q
      | none => some none

/-- Chain walk following a chosen pointer field (`next_element` or
`previous_element`), collecting the ids visited, stopping at `none`.  Fuel
bounds the number of visited nodes. -/
def walkF (f : HNode → Option Nat) (h : Heap) : Nat → Option Nat → List Nat
  | 0, _ => []
  | _, none => []
  | fuel + 1, some i => i :: walkF f h fuel (f (h i))

/-- Walk of the `next_element` chain starting at a given node. -/
def walkNexts (h : Heap) (fuel : Nat) (o : Option Nat) : List Nat :=
  walkF (fun nd => nd.nextEl) h fuel o

/-- Walk of the `previous_element` chain starting at a given node. -/
def walkPrevs (h : Heap) (fuel : Nat) (o : Option Nat) : List Nat :=
  walkF (fun nd => nd.prevEl) h fuel o

/-- Direct pre-order walk of the `contents` lists, with an explicit work
stack and one unit of fuel consumed per visited node. -/
def heapPre (h : Heap) : Nat → List Nat → List Nat
  | 0, _ => []
  | _, [] => []
  | fuel + 1, i :: rest => i :: heapPre h fuel ((h i).contents ++ rest)

/-! ## Mutation operations translated from `element.py` -/

/-- Step of `PageElement.extract` (element.py:418-420): if
`self.previous_element` exists and is not `next_element`, point its
`next_element` past the subtree. -/
def exBridgeA (h1 : Heap) (self : Nat) (nextE : Option Nat) : Heap :=
  match (h1 self).prevEl with
  | some pe =>
    if some pe ≠ nextE then setF h1 pe (fun nd => { nd with nextEl := nextE }) else h1
  | none => h1

/-- Step of `PageElement.extract` (element.py:421-422): if `next_element`
exists and is not `self.previous_element`, point its `previous_element`
back past the subtree. -/
def exBridgeB (h2 : Heap) (self : Nat) (nextE : Option Nat) : Heap :=
  match nextE with
  | some ne =>
    if some ne ≠ (h2 self).prevEl then
      setF h2 ne (fun nd => { nd with prevEl := (h2 self).prevEl })
    else h2
  | none => h2

/-- Step of `PageElement.extract` (element.py:423-424):
`self.previous_element = None; last_child.next_element = None`. -/
def exClearOrder (h3 : Heap) (self last : Nat) : Heap :=
  setF (setF h3 self (fun nd => { nd with prevEl := none })) last
    (fun nd => { nd with nextEl := none })

/-- Step of `PageElement.extract` (element.py:426): `self.parent = None`. -/
def exClearParent (h5 : Heap) (self : Nat) : Heap :=
  setF h5 self (fun nd => { nd with parent := none })

/-- Step of `PageElement.extract` (element.py:427-429): guarded
`self.previous_sibling.next_sibling = self.next_sibling`. -/
def exSibA (h6 : Heap) (self : Nat) : Heap :=
  match (h6 self).prevSib with
  | some ps =>
    if some ps ≠ (h6 self).nextSib then
      setF h6 ps (fun nd => { nd with nextSib := (h6 self).nextSib })
    else h6
  | none => h6

/-- Step of `PageElement.extract` (element.py:430-432): guarded
`self.next_sibling.previous_sibling = self.previous_sibling`. -/
def exSibB (h7 : Heap) (self : Nat) : Heap :=
  match (h7 self).nextSib with
  | some ns =>
    if some ns ≠ (h7 self).prevSib then
      setF h7 ns (fun nd => { nd with prevSib := (h7 self).prevSib })
    else h7
  | none => h7

/-- Step of `PageElement.extract` (element.py:433):
`self.previous_sibling = self.next_sibling = None`. -/
def exClearSibs (h8 : Heap) (self : Nat) : Heap :=
  setF h8 self (fun nd => { nd with prevSib := none, nextSib := none })

/-- Link surgery of `PageElement.extract` (element.py:416-433), composed of
the steps above in the order of the Python statements, after the removal
from the parent's `contents` and the computation of `last_child`. -/
def extractLinks (h1 : Heap) (self last : Nat) : Heap :=
  exClearSibs
    (exSibB
      (exSibA
        (exClearParent
          (exClearOrder
            (exBridgeB (exBridgeA h1 self ((h1 last).nextEl)) self ((h1 last).nextEl))
            self last)
          self)
        self)
      self)
    self

/-- Translation of `PageElement.extract` (element.py:392-434).  `selfIdx`
models the `_self_index` argument.  `none` arises only from fuel exhaustion
or from `Tag.index` failing to find the element (its `ValueError`). -/
def hExtract (fuel : Nat) (h : Heap) (self : Nat) (selfIdx : Option Nat := none) :
    Option Heap := do
  -- del self.parent.contents[_self_index]
  let h1 ←
    match (h self).parent with
    | some p =>
      match (match selfIdx with | some i => some i | none => idxOfId self (h p).contents) with
      | some i => some (setF h p (fun nd => { nd with contents := nd.contents.eraseIdx i }))
      | none => none
    | none => some h
  -- last_child = self._last_descendant()
  let last ←
    match (h1 self).nextSib with
    | some ns => (h1 ns).prevEl
    | none => lastDescDown h1 fuel self
  some (extractLinks h1 self last)

/-- Error outcomes of `Tag.insert`.  `valueNone` and `valueSelf` are the two
explicit `ValueError`s; `indexErr` is the `IndexError` a too-negative
position raises inside `self.contents[position - 1]`; `notInTag` is the
`ValueError` of `Tag.index`; `stuck` marks fuel exhaustion of the model (no
Python counterpart: the corresponding Python loop would not have finished).
Each error carries the heap at the moment the exception is raised. -/
inductive InsErr where
  | valueNone
  | valueSelf
  | indexErr
  | notInTag
  | stuck
deriving DecidableEq

/-- Attachment phase of `Tag.insert` (element.py:1485-1534), entered after
the error checks, position clamping, same-parent position adjustment and
the extraction of an attached `new_child`. -/
def hAttach (fuel : Nat) (h : Heap) (self : Nat) (pos : Int) (n : Nat) :
    Except (InsErr × Heap) Heap := do
  -- new_child.parent = self
  let h2 := setF h n (fun nd => { nd with parent := some self })
  -- previous sibling / previous element of new_child
  let h3 ←
    if pos = 0 then
      pure (setF h2 n (fun nd => { nd with prevSib := none, prevEl := some self }))
    else
      match pyGet (h2 self).contents (pos - 1) with
      | none => throw (InsErr.indexErr, h2)
      | some pc =>
        let ha := setF h2 n (fun nd => { nd with prevSib := some pc })
        let hb := setF ha pc (fun nd => { nd with nextSib := some n })
        match lastDescDown hb fuel pc with
        | none => throw (InsErr.stuck, hb)
        | some ld => pure (setF hb n (fun nd => { nd with prevEl := some ld }))
  -- if new_child.previous_element is not None: its next_element = new_child
  let h4 :=
    match (h3 n).prevEl with
    | some pe => setF h3 pe (fun nd => { nd with nextEl := some n })
    | none => h3
  -- new_childs_last_element = new_child._last_descendant(False, True)
  let lastE ←
    match lastDescDown h4 fuel n with
    | some l => pure l
    | none => throw (InsErr.stuck, h4)
  let h6 ←
    if ((h4 self).contents.length : Int) ≤ pos then do
      -- new_child.next_sibling = None, then the ancestor walk
      let h5 := setF h4 n (fun nd => { nd with nextSib := none })
      match upNextSib h5 fuel self with
      | none => throw (InsErr.stuck, h5)
      | some pns => pure (setF h5 lastE (fun nd => { nd with nextEl := pns }))
    else
      match pyGet (h4 self).contents pos with
      | none => throw (InsErr.indexErr, h4)
      | some nc =>
        let h5 := setF h4 n (fun nd => { nd with nextSib := some nc })
        let h5' := setF h5 nc (fun nd => { nd with prevSib := some n })
        pure (setF h5' lastE (fun nd => { nd with nextEl := some nc }))
  -- if new_childs_last_element.next_element is not None: back pointer
  let h7 :=
    match (h6 lastE).nextEl with
    | some ne => setF h6 ne (fun nd => { nd with prevEl := some lastE })
    | none => h6
  -- self.contents.insert(position, new_child)
  pure (setF h7 self (fun nd => { nd with contents := pyInsertAt nd.contents pos n }))

/-- Translation of `Tag.insert` (element.py:1447-1534).  The `newChild`
argument is an `Option` so that passing Python `None` is representable.  Two
parts of the original are outside this model: the coercion of a bare `str`
to a `NavigableString` (our nodes are already page elements) and the
splicing of a `BeautifulSoup` object child by child (the `BeautifulSoup`
class is not part of the modelled sources). -/
def hInsert (fuel : Nat) (h : Heap) (self : Nat) (position : Int)
    (newChild : Option Nat) : Except (InsErr × Heap) Heap := do
  match newChild with
  | none => throw (InsErr.valueNone, h)
  | some n =>
    if n = self then throw (InsErr.valueSelf, h)
    else
      -- position = min(position, len(self.contents))
      let pos1 : Int := min position ((h self).contents.length : Int)
      let (h1, pos2) ←
        match (h n).parent with
        | some par =>
          if par = self then
            match idxOfId n (h self).contents with
            | none => throw (InsErr.notInTag, h)
            | some ci =>
              let p2 := if (ci : Int) < pos1 then pos1 - 1 else pos1
              match hExtract fuel h n with
              | some hx => pure (hx, p2)
              | none => throw (InsErr.stuck, h)
          else
            match hExtract fuel h n with
            | some hx => pure (hx, pos1)
            | none => throw (InsErr.stuck, h)
        | none => pure (h, pos1)
      hAttach fuel h1 self pos2 n

/-- Blanked state of a node after `decompose`'s `i.__dict__.clear()` plus
`i.contents = []` and `i._decomposed = True` (element.py:449-454).  The
`isTag` flag and the string value of a text node are intrinsic to the
Python object and survive; the attributes stored in `__dict__` are gone
(modelled as their blank defaults). -/
def blankNode (nd : HNode) : HNode :=
  { isTag := nd.isTag, name := "", attrs := [], text := nd.text,
    contents := if nd.isTag then [] else nd.contents,
    parent := none, prevSib := none, nextSib := none,
    prevEl := none, nextEl := none, decomposed := true }

/-- Clearing loop of `PageElement.decompose` (element.py:448-455): follow
`next_element`, blanking every node visited. -/
def decomposeLoop (h : Heap) : Nat → Option Nat → Option Heap
  | _, none => some h
  | 0, some _ => none
  | fuel + 1, some i =>
    let nx := (h i).nextEl
    decomposeLoop (setF h i blankNode) fuel nx

/-- Translation of `PageElement.decompose` (element.py:436-455). -/
def hDecompose (fuel : Nat) (h : Heap) (self : Nat) : Option Heap := do
  let h1 ← hExtract fuel h self
  decomposeLoop h1 fuel (some self)

/-- Error outcomes of `PageElement.replace_with`. -/
inductive RwErr where
  | noParent
  | parentCycle
  | notInTag
  | insertFailed
deriving DecidableEq

/-- Loop of `replace_with`: `for idx, replace_with in enumerate(args,
start=my_index): old_parent.insert(idx, replace_with)`. -/
def rwInsertLoop (fuel : Nat) (h : Heap) (oldParent : Nat) :
    Nat → List Nat → Except (RwErr × Heap) Heap
  | _, [] => pure h
  | idx, a :: rest =>
    match hInsert fuel h oldParent (idx : Int) (some a) with
    | Except.ok h' => rwInsertLoop fuel h' oldParent (idx + 1) rest
    | Except.error (_, he) => throw (RwErr.insertFailed, he)

/-- Translation of `PageElement.replace_with` (element.py:341-361). -/
def hReplaceWith (fuel : Nat) (h : Heap) (self : Nat) (args : List Nat) :
    Except (RwErr × Heap) Heap := do
  match (h self).parent with
  | none => throw (RwErr.noParent, h)
  | some p =>
    if args.length = 1 ∧ args.head? = some self then
      -- replacing an element with itself is a no-op
      pure h
    else if args.any (fun x => x = p) then
      throw (RwErr.parentCycle, h)
    else
      match idxOfId self (h p).contents with
      | none => throw (RwErr.notInTag, h)
      | some myIndex =>
        match hExtract fuel h self (some myIndex) with
        | none => throw (RwErr.insertFailed, h)
        | some h1 => rwInsertLoop fuel h1 p myIndex args

/-- Structural equality of `Tag.__eq__` (element.py:1727-1742): same name,
same attributes, same contents, recursively; a text node compares by its
string value (`NavigableString` inherits `str.__eq__`).  The two heap
arguments let a tree be compared across two states of the world.  Fuel
exhaustion yields `false`. -/
def structEqF : Nat → Heap → Nat → Heap → Nat → Bool
  | 0, _, _, _, _ => false
  | fuel + 1, h1, a, h2, b =>
    let n1 := h1 a
    let n2 := h2 b
    if n1.isTag then
      n2.isTag && n1.name == n2.name && decide (n1.attrs = n2.attrs) &&
      n1.contents.length == n2.contents.length &&
      (n1.contents.zip n2.contents).all (fun xy => structEqF fuel h1 xy.1 h2 xy.2)
    else
      !n2.isTag && n1.text == n2.text

/-! ## Abstract forest states

A well-formed heap is the image of a forest of node trees.  The forest is
the specification-side view used to state and prove the document-order
invariant; every heap operation is proved against heaps of the form
`reprH F`. -/

/-- Intrinsic data of a node: Python class (tag or text), name, attributes
and string payload. -/
structure NodeData where
  isTag : Bool
  name : String
  attrs : List (String × String)
  text : String
deriving DecidableEq

/-- A rooted tree of nodes, identified by their object ids. -/
inductive ATree where
  | mk (id : Nat) (d : NodeData) (cs : List ATree)

/-- Root id of a tree. -/
def aid : ATree → Nat
  | .mk i _ _ => i

/-- Data at the root of a tree. -/
def adata : ATree → NodeData
  | .mk _ d _ => d

/-- Child list of the root of a tree. -/
def akids : ATree → List ATree
  | .mk _ _ cs => cs

mutual
/-- Pre-order id list of a tree. -/
def preT : ATree → List Nat
  | .mk i _ cs => i :: preF cs
/-- Pre-order id list of a forest. -/
def preF : List ATree → List Nat
  | [] => []
  | t :: ts => preT t ++ preF ts
end

mutual
/-- Subtree of a tree rooted at the node with id `n`. -/
def findT (n : Nat) : ATree → Option ATree
  | .mk i d cs => if i = n then some (.mk i d cs) else findF n cs
/-- Subtree of a forest rooted at the node with id `n` (first match). -/
def findF (n : Nat) : List ATree → Option ATree
  | [] => none
  | t :: ts =>
    match findT n t with
    | some r => some r
    | none => findF n ts
end

mutual
/-- Parent id of the node with id `n` inside a tree. -/
def parT (n : Nat) : ATree → Option Nat
  | .mk i _ cs => if cs.any (fun c => aid c = n) then some i else parF n cs
/-- Parent id of the node with id `n` inside a forest. -/
def parF (n : Nat) : List ATree → Option Nat
  | [] => none
  | t :: ts =>
    match parT n t with
    | some r => some r
    | none => parF n ts
end

/-- Root tree of the forest containing the id `n`. -/
def rootF (n : Nat) (F : List ATree) : Option ATree :=
  F.find? (fun t => n ∈ preT t)

/-- Last node of a tree in pre-order (its last descendant). -/
def lastA (t : ATree) : Nat :=
  (preT t).getLastD (aid t)

/-- Child ids of the node `n` of forest `F` (empty when `n` is unknown). -/
def childIds (F : List ATree) (n : Nat) : List Nat :=
  match findF n F with
  | some t => (akids t).map aid
  | none => []

/-- Heap image of a forest.  The document-order pointers of a node are its
neighbours in the pre-order of its root tree; the sibling pointers are its
neighbours in its parent's child list; roots have no parent, siblings, or
order neighbours outside their tree. -/
def reprH (F : List ATree) : Heap := fun n =>
  match findF n F with
  | none => defaultHNode
  | some t =>
    { isTag := (adata t).isTag, name := (adata t).name,
      attrs := (adata t).attrs, text := (adata t).text,
      contents := (akids t).map aid,
      parent := parF n F,
      prevSib := (parF n F).bind (fun p => predIn (childIds F p) n),
      nextSib := (parF n F).bind (fun p => succIn (childIds F p) n),
      prevEl := (rootF n F).bind (fun r => predIn (preT r) n),
      nextEl := (rootF n F).bind (fun r => succIn (preT r) n),
      decomposed := false }

mutual
/-- Well-formedness of the data of a tree: only tags have children. -/
def tagOkT : ATree → Bool
  | .mk _ d cs => (d.isTag || cs.isEmpty) && tagOkF cs
/-- Well-formedness of the data of each tree of a forest. -/
def tagOkF : List ATree → Bool
  | [] => true
  | t :: ts => tagOkT t && tagOkF ts
end

/-- Well-formed forest: globally duplicate-free ids, children only on
tags. -/
def wfForest (F : List ATree) : Bool :=
  nodupB (preF F) && tagOkF F

/-! ## Abstract counterparts of the mutation operations -/

/-- Insertion of a tree at index `k` of a child list. -/
def insATree : Nat → ATree → List ATree → List ATree
  | 0, s, l => s :: l
  | _ + 1, s, [] => [s]
  | k + 1, s, a :: l => a :: insATree k s l

mutual
/-- Attach the tree `S` as the `k`-th child of the node with id `p`. -/
def attachT (p k : Nat) (S : ATree) : ATree → ATree
  | .mk i d cs => if i = p then .mk i d (insATree k S cs) else .mk i d (attachF p k S cs)
/-- Attach inside each tree of a list. -/
def attachF (p k : Nat) (S : ATree) : List ATree → List ATree
  | [] => []
  | t :: ts => attachT p k S t :: attachF p k S ts
end

mutual
/-- Remove the child subtree rooted at id `n` wherever it occurs. -/
def removeT (n : Nat) : ATree → ATree
  | .mk i d cs => .mk i d (removeF n cs)
/-- Remove the subtree rooted at id `n` from a list of trees. -/
def removeF (n : Nat) : List ATree → List ATree
  | [] => []
  | t :: ts => if aid t = n then removeF n ts else removeT n t :: removeF n ts
end

/-- Abstract extract: the subtree rooted at `n` becomes a detached root
(appended at the end of the forest); extracting a root changes nothing. -/
def aExtract (F : List ATree) (n : Nat) : List ATree :=
  if F.any (fun t => aid t = n) then F
  else
    match findF n F with
    | some S => removeF n F ++ [S]
    | none => F

/-- Abstract attach: the root tree with id `n` is removed from the root list
and attached as the `k`-th child of the node `p`. -/
def aAttach (F : List ATree) (p k n : Nat) : List ATree :=
  match F.find? (fun t => aid t = n) with
  | some S => attachF p k S (F.filter (fun t => aid t ≠ n))
  | none => F

/-! ## Operation sequences and the order invariant -/

/-- A tree operation as issued by a caller: `Tag.insert` or
`PageElement.extract`, each with the fuel its internal walks may use. -/
inductive TreeOp where
  | ins (fuel : Nat) (self : Nat) (pos : Int) (child : Option Nat)
  | ext (fuel : Nat) (self : Nat)

/-- Run one operation; an operation that raises aborts the run. -/
def runOp (h : Heap) : TreeOp → Option Heap
  | .ins f s p c => (hInsert f h s p c).toOption
  | .ext f s => hExtract f h s

/-- Run a sequence of operations. -/
def runOps : List TreeOp → Heap → Option Heap
  | [], h => some h
  | op :: ops, h => (runOp h op).bind (runOps ops)

/-- Document-order invariant, as claimed: every node belongs to the tree of
some parentless root; walking `next_element` from that root lists the tree
in exactly the order of a direct pre-order walk of the `contents` lists,
with no repetition, and walking `previous_element` from the last node of the
tree yields exactly the reverse. -/
def OrderInvB (h : Heap) (ids : List Nat) (fuel : Nat) : Bool :=
  ids.all fun i =>
    ids.any fun r =>
      let L := heapPre h fuel [r]
      ((h r).parent == none) && L.contains i && nodupB L &&
      (walkNexts h fuel (some r) == L) &&
      (walkPrevs h fuel L.getLast? == L.reverse)

/-- Heaps reachable from a starting heap by successful `insert`/`extract`
operations on existing nodes, where no insert places a node inside its own
subtree (the code rejects `new_child is self` but not a proper descendant;
the unguarded case is the subject of the C1 counterexample). -/
inductive ReachG (ids : List Nat) (fuel0 : Nat) : Heap → Heap → Prop where
  | refl (h : Heap) : ReachG ids fuel0 h h
  | ins {h0 h h' : Heap} {f s : Nat} {pos : Int} {c : Nat} :
      ReachG ids fuel0 h0 h → s ∈ ids → c ∈ ids →
      s ∉ heapPre h fuel0 [c] →
      hInsert f h s pos (some c) = Except.ok h' →
      ReachG ids fuel0 h0 h'
  | ext {h0 h h' : Heap} {f s : Nat} :
      ReachG ids fuel0 h0 h → s ∈ ids →
      hExtract f h s = some h' →
      ReachG ids fuel0 h0 h'

/-! ## The match engine (`strainer.py`) -/

/-- A compiled regular expression, modelled by its `search` behaviour: does
the pattern occur somewhere in the candidate string?  (The `re` module is
outside the sources; rule evaluation only ever calls `pattern.search`.) -/
structure Patt where
  search : String → Bool

/-- The substring-search behaviour of a regular expression whose pattern
text contains no metacharacters, such as `re.compile("a b")`. -/
def literalPatt (lit : String) : Patt :=
  ⟨fun s => decide (lit.toList <:+: s.toList)⟩

/-- Value of a tag attribute: a plain string or a multi-valued token
list. -/
inductive AttrVal where
  | s (v : String)
  | ls (vs : List String)
deriving DecidableEq

/-- The view of a `Tag` consumed by `SoupStrainer.matches_tag`: its
namespace prefix (`tag.prefix`, possibly `None` or empty), name, attribute
dictionary, and its `Tag.string` convenience value. -/
structure STag where
  pfx : Option String
  name : String
  attrs : List (String × AttrVal)
  str : Option String

/-- Python truthiness of `tag.prefix`: `None` and `""` are falsy. -/
def pfxTruthy : Option String → Bool
  | none => false
  | some s => !(s == "")

/-- Dictionary lookup `tag.get(attr)`. -/
def tagGet (tag : STag) (attr : String) : Option AttrVal :=
  (tag.attrs.find? (fun e => e.1 == attr)).map (fun e => e.2)

/-- A Python callable supplied as a tag-name rule.  `matches_tag` applies it
to the `Tag` object itself while `matches_string` applies the same callable
to a string, so the model records its behaviour on both argument kinds. -/
structure NameFn where
  onTag : STag → Bool
  onStr : Option String → Bool

/-- Candidate-value test functions of attribute and string rules. -/
def AttrFn : Type := Option String → Bool

/-- A `MatchRule` (strainer.py:82-117): at most one of the four evaluation
modes is populated, `α` being the type of the predicate function. -/
structure MatchRule (α : Type) where
  string : Option String
  pattern : Option Patt
  function : Option α
  present : Option Bool

/-- Number of evaluation modes populated, as counted by
`MatchRule.__init__` (`[x for x in ... if x is not None]`). -/
def countModes {α : Type} (r : MatchRule α) : Nat :=
  (if r.string.isSome then 1 else 0) + (if r.pattern.isSome then 1 else 0) +
  (if r.function.isSome then 1 else 0) + (if r.present.isSome then 1 else 0)

/-- Translation of `MatchRule.__init__` (strainer.py:88-117): store the
modes, then reject unless exactly one is populated.  The UTF-8 decoding of
a `bytes` string and the compilation of a textual pattern are outside the
model (their results are the stored values). -/
def mkMatchRule {α : Type} (s : Option String) (p : Option Patt) (f : Option α)
    (b : Option Bool) : Except Unit (MatchRule α) :=
  let r : MatchRule α := ⟨s, p, f, b⟩
  if countModes r = 0 then Except.error ()
  else if 1 < countModes r then Except.error ()
  else Except.ok r

/-- Translation of `MatchRule._base_match` (strainer.py:119-140): the
definite answer of the canonical mode, or `none` when only a predicate
could decide. -/
def baseMatch {α : Type} (r : MatchRule α) (s : Option String) : Option Bool :=
  match r.present with
  | some true => some s.isSome
  | some false => some s.isNone
  | none =>
    match r.string with
    | some str => some (some str == s)
    | none =>
      match r.pattern with
      | some p =>
        some (match s with
              | none => false
              | some v => p.search v)
      | none => none

/-- Translation of `MatchRule.matches_string` (strainer.py:142-150) for
attribute and string rules, whose predicate receives the candidate value. -/
def matchesStr (r : MatchRule AttrFn) (s : Option String) : Bool :=
  match baseMatch r s with
  | some b => b
  | none =>
    match r.function with
    | some f => f s
    | none => true

/-- Translation of `MatchRule.matches_string` for tag-name rules: when the
general matcher feeds it the prefixed name, the stored callable is applied
to that string. -/
def nameMatchesStr (r : MatchRule NameFn) (s : Option String) : Bool :=
  match baseMatch r s with
  | some b => b
  | none =>
    match r.function with
    | some f => f.onStr s
    | none => true

/-- Translation of `TagNameMatchRule.matches_tag` (strainer.py:168-178).
The `assert self.function is not None` of the dead fall-through (only
reachable for a rule with no mode at all, which the constructor rejects) is
modelled as `false`. -/
def nameMatchesTag (r : MatchRule NameFn) (tag : STag) : Bool :=
  match baseMatch r (some tag.name) with
  | some b => b
  | none =>
    match r.function with
    | some f => f.onTag tag
    | none => false

/-- Caller-supplied shapes accepted by `SoupStrainer._make_match_rules`. -/
inductive RuleArg (α : Type) where
  | null
  | str (v : String)
  | bool (v : Bool)
  | fn (f : α)
  | pat (p : Patt)
  | lst (l : List (RuleArg α))
  | other (asString : String)

/-- Did the caller supply an iterable (and not a string)? -/
def RuleArg.isLst {α : Type} : RuleArg α → Bool
  | .lst _ => true
  | _ => false

mutual
/-- Translation of `SoupStrainer._make_match_rules` (strainer.py:264-300):
strings become exact rules, booleans presence rules, callables predicate
rules, compiled patterns pattern rules; an iterable is expanded element by
element, except that a nested iterable is dropped (with a warning) instead
of recursed into; anything else matches as its string form. -/
def makeRules {α : Type} : RuleArg α → List (MatchRule α)
  | .null => []
  | .str v => [⟨some v, none, none, none⟩]
  | .bool b => [⟨none, none, none, some b⟩]
  | .fn f => [⟨none, none, some f, none⟩]
  | .pat p => [⟨none, some p, none, none⟩]
  | .lst l => makeRulesF l
  | .other s => [⟨some s, none, none, none⟩]
/-- Expansion of an iterable argument, skipping nested iterables. -/
def makeRulesF {α : Type} : List (RuleArg α) → List (MatchRule α)
  | [] => []
  | o :: os => (if o.isLst then [] else makeRules o) ++ makeRulesF os
end

/-- A `SoupStrainer` (strainer.py:186-259): rule lists for the tag name,
for each constrained attribute, and for the string content. -/
structure SoupStrainer where
  name_rules : List (MatchRule NameFn)
  attribute_rules : List (String × List (MatchRule AttrFn))
  string_rules : List (MatchRule AttrFn)

/-- Appending rules to one attribute's entry of the rule dictionary
(`defaultdict(list)` behaviour: a fresh key is appended at the end). -/
def addRules (m : List (String × List (MatchRule AttrFn))) (k : String)
    (rs : List (MatchRule AttrFn)) : List (String × List (MatchRule AttrFn)) :=
  if m.any (fun e => e.1 == k) then
    m.map (fun e => if e.1 == k then (e.1, e.2 ++ rs) else e)
  else m ++ [(k, rs)]

/-- One pass of the attribute-rule accumulation loop of
`SoupStrainer.__init__` (strainer.py:234-248): renaming `class_` to `class`
(for the keyword dictionary only), converting a `None` constraint into a
`present=False` rule, then normalising. -/
def addAttrArgs (isKwargs : Bool) (m : List (String × List (MatchRule AttrFn))) :
    List (String × RuleArg AttrFn) → List (String × List (MatchRule AttrFn))
  | [] => m
  | (attr, value) :: rest =>
    let attr := if attr == "class_" && isKwargs then "class" else attr
    let value := match value with
      | .null => RuleArg.bool false
      | v => v
    addAttrArgs isKwargs (addRules m attr (makeRules value)) rest

/-- Translation of `SoupStrainer.__init__` (strainer.py:212-259) for a
dictionary-shaped `attrs` argument (the non-dictionary sugar rewrites
`attrs` into `{"class": attrs}` before this point). -/
def mkSoupStrainer (name : RuleArg NameFn) (attrs : List (String × RuleArg AttrFn))
    (string : RuleArg AttrFn) (kwargs : List (String × RuleArg AttrFn)) :
    SoupStrainer :=
  { name_rules := makeRules name,
    attribute_rules := addAttrArgs true (addAttrArgs false [] attrs) kwargs,
    string_rules := makeRules string }

/-- Translation of `SoupStrainer._attribute_match` (strainer.py:363-383):
each rule is tried against each candidate token; only if nothing matched
and the value is multi-valued is the match retried once against the tokens
joined by a single space. -/
def attribute_match (rules : List (MatchRule AttrFn)) (attrVal : Option AttrVal) : Bool :=
  let attrValues : List (Option String) :=
    match attrVal with
    | some (.ls vs) => vs.map some
    | some (.s v) => [some v]
    | none => [none]
  let helper : List (Option String) → Bool := fun vals =>
    rules.any (fun r => vals.any (fun v => matchesStr r v))
  let firstTry := helper attrValues
  if !firstTry && attrValues.length > 1 then
    helper [some (String.intercalate " " (attrValues.map (fun o => o.getD "")))]
  else firstTry

/-- Translation of `SoupStrainer.matches_any_string_rule`
(strainer.py:430-440). -/
def matchesAnyStringRule (S : SoupStrainer) (s : Option String) : Bool :=
  if S.string_rules.isEmpty then true
  else S.string_rules.any (fun r => matchesStr r s)

/-- The single-exact-name optimization short-circuit of
`SoupStrainer.matches_tag` (strainer.py:320-325): reject immediately when
the strainer has exactly one name rule, that rule is a plain string, and an
unprefixed tag's name differs from it. -/
def scRejects (S : SoupStrainer) (tag : STag) : Bool :=
  match S.name_rules with
  | [r] =>
    (!pfxTruthy tag.pfx) &&
    (match r.string with
     | some s => !(tag.name == s)
     | none => false)
  | _ => false

/-- General name/attribute/string path of `SoupStrainer.matches_tag`
(strainer.py:333-361). -/
def matchesTagGeneral (S : SoupStrainer) (tag : STag) : Bool :=
  let prefixed_name : Option String :=
    if pfxTruthy tag.pfx then some (tag.pfx.getD "" ++ ":" ++ tag.name) else none
  (if S.name_rules.isEmpty then true
   else S.name_rules.any (fun r =>
     nameMatchesTag r tag ||
     (prefixed_name.isSome && nameMatchesStr r prefixed_name))) &&
  S.attribute_rules.all (fun e => attribute_match e.2 (tagGet tag e.1)) &&
  (if S.string_rules.isEmpty then true else matchesAnyStringRule S tag.str)

/-- Translation of `SoupStrainer.matches_tag` (strainer.py:302-361): a
strainer with neither name nor attribute rules never matches a tag; then
the optimization short-circuit; then the general path. -/
def matches_tag (S : SoupStrainer) (tag : STag) : Bool :=
  if S.name_rules.isEmpty && S.attribute_rules.isEmpty then false
  else if scRejects S tag then false
  else matchesTagGeneral S tag

/-- Modelled from the spec: `matches_tag` with the optimization
short-circuit removed, used as the reference side of the refinement claim
that the short-circuit "must produce results identical to the general
path". -/
def matchesTagNoShortcut (S : SoupStrainer) (tag : STag) : Bool :=
  if S.name_rules.isEmpty && S.attribute_rules.isEmpty then false
  else matchesTagGeneral S tag

/-- Normalised insertion index of `Tag.insert`: the position is first capped
above by the current length; a nonnegative result is used directly; a
negative result selects `length + position` when that is at least 1 and
raises `IndexError` otherwise. -/
def pyNormIdx (pos : Int) (len : Nat) : Option Nat :=
  let q : Int := min pos (len : Int)
  if 0 ≤ q then some q.toNat
  else if 1 ≤ q + len then some (q + len).toNat
  else none

/-! ## Concrete example states used by witnesses -/

/-- Forest: a `div` with two children, plus a detached node 3. -/
def wForest1 : List ATree :=
  [ATree.mk 0 ⟨true, "div", [], ""⟩
     [ATree.mk 1 ⟨true, "a", [], ""⟩ [], ATree.mk 2 ⟨true, "b", [], ""⟩ []],
   ATree.mk 3 ⟨true, "c", [], ""⟩ []]

/-- Heap image of `wForest1`. -/
def wHeap1 : Heap := reprH wForest1

/-- Result of appending node 3 to the `div` of `wHeap1` at position 5. -/
def wIns1 : Heap := (hInsert 9 wHeap1 0 5 (some 3)).toOption.getD wHeap1

/-- Forest: a `div` with two children. -/
def wForest2 : List ATree :=
  [ATree.mk 0 ⟨true, "div", [], ""⟩
     [ATree.mk 1 ⟨true, "p", [("k", "v")], ""⟩ [ATree.mk 3 ⟨false, "", [], "hi"⟩ []],
      ATree.mk 2 ⟨false, "", [], "tail"⟩ []]]

/-- Heap image of `wForest2`. -/
def wHeap2 : Heap := reprH wForest2

/-- Result of extracting node 1 from `wHeap2`. -/
def wExt2 : Heap := (hExtract 9 wHeap2 1 none).getD wHeap2

/-- Result of re-inserting node 1 at its old index 0. -/
def wIns2 : Heap := (hInsert 9 wExt2 0 0 (some 1)).toOption.getD wHeap2

/-- A sample attribute predicate (matches present values). -/
def wAttrFn : AttrFn := fun o => o.isSome

/-- The pattern rule `re.compile("a b")` of the C7 scenario. -/
def wPattRule : MatchRule AttrFn := ⟨none, some (literalPatt "a b"), none, none⟩

/-- A sample tag for the strainer witnesses. -/
def wTag : STag := ⟨none, "q", [("class", AttrVal.s "x")], none⟩

/-- Forest for the decompose witness: an `html` root whose first child `b`
holds a text node. -/
def wForest5 : List ATree :=
  [ATree.mk 0 ⟨true, "html", [], ""⟩
     [ATree.mk 1 ⟨true, "b", [], ""⟩ [ATree.mk 3 ⟨false, "", [], "t"⟩ []],
      ATree.mk 2 ⟨true, "i", [], ""⟩ []]]

/-- The subtree decomposed in the witness. -/
def wSt5 : ATree :=
  ATree.mk 1 ⟨true, "b", [], ""⟩ [ATree.mk 3 ⟨false, "", [], "t"⟩ []]

/-- Result of decomposing node 1 of `wForest5`. -/
def wH5 : Heap := (hDecompose 9 (reprH wForest5) 1).getD (reprH wForest5)

/-- Forest for the C1 counterexample: a single chain `a > b > c`. -/
def wForest1c : List ATree :=
  [ATree.mk 0 ⟨true, "a", [], ""⟩ [ATree.mk 1 ⟨true, "b", [], ""⟩ [ATree.mk 2 ⟨true, "c", [], ""⟩ []]]]

/-! ## Basic lemmas about heap updates -/

/-- Back-pointer fix-up step shared by the attachment phase: if the
element after the inserted subtree exists, point its `previous_element` at
the subtree's last node. -/
def bridgeBack (h6 : Heap) (o : Option Nat) (lastE : Nat) : Heap :=
  match o with
  | some ne => setF h6 ne (fun nd => { nd with prevEl := some lastE })
  | none => h6

/-- Field-level outcome of the attachment phase of `Tag.insert` on the heap
image of a forest: `p` the target parent, `c` the attached root, `S` its
tree, `stp` the parent's subtree, `u` the parent's root tree, `k` the
effective insertion index, `pe` the new previous element of `c`, `nxt` the
new next element of the subtree's last node. -/
def AttachTable (G : List ATree) (p c : Nat) (S stp u : ATree)
    (k : Nat) (pe : Nat) (nxt : Option Nat) (h' : Heap) : Prop :=
  k ≤ (childIds G p).length ∧
  ((k = 0 ∧ pe = p) ∨ ∃ pc stpc, ((childIds G p).take k).getLast? = some pc ∧
      findF pc G = some stpc ∧ pe = lastA stpc) ∧
  (((childIds G p).drop k = [] ∧ nxt = succIn (preT u) (lastA stp)) ∨
      ∃ nc, ((childIds G p).drop k).head? = some nc ∧ nxt = some nc) ∧
  (∀ j, (h' j).contents
      = if j = p then (childIds G p).take k ++ c :: (childIds G p).drop k
        else ((reprH G) j).contents) ∧
  (∀ j, (h' j).isTag = ((reprH G) j).isTag ∧ (h' j).name = ((reprH G) j).name ∧
      (h' j).attrs = ((reprH G) j).attrs ∧ (h' j).text = ((reprH G) j).text ∧
      (h' j).decomposed = ((reprH G) j).decomposed) ∧
  (∀ j, (h' j).parent = if j = c then some p else ((reprH G) j).parent) ∧
  (∀ j, (h' j).prevSib = if j = c then ((childIds G p).take k).getLast?
      else if some j = ((childIds G p).drop k).head? then some c
      else ((reprH G) j).prevSib) ∧
  (∀ j, (h' j).nextSib = if j = c then ((childIds G p).drop k).head?
      else if some j = ((childIds G p).take k).getLast? then some c
      else ((reprH G) j).nextSib) ∧
  (∀ j, (h' j).prevEl = if j = c then some pe
      else if some j = nxt then some (lastA S) else ((reprH G) j).prevEl) ∧
  (∀ j, (h' j).nextEl = if j = pe then some c
      else if j = lastA S then nxt else ((reprH G) j).nextEl)

theorem setF_apply_self (h : Heap) (i : Nat) (f : HNode → HNode) :
    setF h i f i = f (h i) := by
  simp [setF]

theorem setF_apply_ne (h : Heap) (i : Nat) (f : HNode → HNode) (j : Nat)
    (hne : j ≠ i) : setF h i f j = h j := by
  simp [setF, hne]

/-- C3. `Tag.insert` raises `ValueError` when the node to insert is `None`
and when it is the parent tag itself; both checks come before any mutation,
so the heap carried by the error (the state at the moment the exception is
raised) is exactly the entry heap. -/
theorem c3_insert_error_checks (fuel : Nat) (h : Heap) (self : Nat) (pos : Int) :
    hInsert fuel h self pos none = Except.error (InsErr.valueNone, h) ∧
    hInsert fuel h self pos (some self) = Except.error (InsErr.valueSelf, h) := by
  constructor
  · rfl
  · simp [hInsert, throw, throwThe, MonadExceptOf.throw]

/-- C10. Calling `replace_with` with exactly one argument that is the node
itself is a no-op for a node that has a parent: no error, and the heap is
returned unchanged. -/
theorem c10_replace_with_self_noop (fuel : Nat) (h : Heap) (self p : Nat)
    (hpar : (h self).parent = some p) :
    hReplaceWith fuel h self [self] = Except.ok h := by
  simp [hReplaceWith, hpar, pure, Except.pure]

theorem contents_setF (h : Heap) (i : Nat) (f : HNode → HNode)
    (hf : ∀ nd, (f nd).contents = nd.contents) (j : Nat) :
    ((setF h i f) j).contents = (h j).contents := by
  by_cases hj : j = i <;> simp [setF, hj, hf]

theorem parent_setF (h : Heap) (i : Nat) (f : HNode → HNode)
    (hf : ∀ nd, (f nd).parent = nd.parent) (j : Nat) :
    ((setF h i f) j).parent = (h j).parent := by
  by_cases hj : j = i <;> simp [setF, hj, hf]

theorem dataq_setF (h : Heap) (i : Nat) (f : HNode → HNode)
    (hf : ∀ nd, (f nd).isTag = nd.isTag ∧ (f nd).name = nd.name ∧
      (f nd).attrs = nd.attrs ∧ (f nd).text = nd.text) (j : Nat) :
    ((setF h i f) j).isTag = (h j).isTag ∧ ((setF h i f) j).name = (h j).name ∧
    ((setF h i f) j).attrs = (h j).attrs ∧ ((setF h i f) j).text = (h j).text := by
  by_cases hj : j = i <;> simp [setF, hj, hf]

theorem isTag_setF (h : Heap) (i : Nat) (f : HNode → HNode)
    (hf : ∀ nd, (f nd).isTag = nd.isTag) (j : Nat) :
    ((setF h i f) j).isTag = (h j).isTag := by
  by_cases hj : j = i <;> simp [setF, hj, hf]

theorem name_setF (h : Heap) (i : Nat) (f : HNode → HNode)
    (hf : ∀ nd, (f nd).name = nd.name) (j : Nat) :
    ((setF h i f) j).name = (h j).name := by
  by_cases hj : j = i <;> simp [setF, hj, hf]

theorem attrs_setF (h : Heap) (i : Nat) (f : HNode → HNode)
    (hf : ∀ nd, (f nd).attrs = nd.attrs) (j : Nat) :
    ((setF h i f) j).attrs = (h j).attrs := by
  by_cases hj : j = i <;> simp [setF, hj, hf]

theorem text_setF (h : Heap) (i : Nat) (f : HNode → HNode)
    (hf : ∀ nd, (f nd).text = nd.text) (j : Nat) :
    ((setF h i f) j).text = (h j).text := by
  by_cases hj : j = i <;> simp [setF, hj, hf]

theorem dataEqRefl (h : Heap) : DataEq h h :=
  fun _ => ⟨rfl, rfl, rfl, rfl, rfl⟩

theorem DataEq.trans {g h k : Heap} (h1 : DataEq g h) (h2 : DataEq h k) : DataEq g k := by
  intro j
  obtain ⟨a1, b1, c1, d1, e1⟩ := h1 j
  obtain ⟨a2, b2, c2, d2, e2⟩ := h2 j
  exact ⟨a1.trans a2, b1.trans b2, c1.trans c2, d1.trans d2, e1.trans e2⟩

theorem dataEq_setF (h : Heap) (i : Nat) (f : HNode → HNode)
    (hf : ∀ nd, (f nd).isTag = nd.isTag ∧ (f nd).name = nd.name ∧
      (f nd).attrs = nd.attrs ∧ (f nd).text = nd.text ∧
      (f nd).contents = nd.contents) :
    DataEq (setF h i f) h := by
  intro j
  by_cases hj : j = i <;> simp [setF, hj, hf]

theorem exBridgeA_dataEq (h1 : Heap) (self : Nat) (nextE : Option Nat) :
    DataEq (exBridgeA h1 self nextE) h1 := by
  unfold exBridgeA
  split
  · split
    · exact dataEq_setF _ _ _ (fun nd => by simp)
    · exact dataEqRefl h1
  · exact dataEqRefl h1

theorem exBridgeB_dataEq (h2 : Heap) (self : Nat) (nextE : Option Nat) :
    DataEq (exBridgeB h2 self nextE) h2 := by
  unfold exBridgeB
  split
  · split
    · exact dataEq_setF _ _ _ (fun nd => by simp)
    · exact dataEqRefl h2
  · exact dataEqRefl h2

theorem exClearOrder_dataEq (h3 : Heap) (self last : Nat) :
    DataEq (exClearOrder h3 self last) h3 := by
  unfold exClearOrder
  exact (dataEq_setF _ _ _ (fun nd => by simp)).trans
    (dataEq_setF _ _ _ (fun nd => by simp))

theorem exClearParent_dataEq (h5 : Heap) (self : Nat) :
    DataEq (exClearParent h5 self) h5 :=
  dataEq_setF _ _ _ (fun nd => by simp)

theorem exSibA_dataEq (h6 : Heap) (self : Nat) : DataEq (exSibA h6 self) h6 := by
  unfold exSibA
  split
  · split
    · exact dataEq_setF _ _ _ (fun nd => by simp)
    · exact dataEqRefl h6
  · exact dataEqRefl h6

theorem exSibB_dataEq (h7 : Heap) (self : Nat) : DataEq (exSibB h7 self) h7 := by
  unfold exSibB
  split
  · split
    · exact dataEq_setF _ _ _ (fun nd => by simp)
    · exact dataEqRefl h7
  · exact dataEqRefl h7

theorem exClearSibs_dataEq (h8 : Heap) (self : Nat) :
    DataEq (exClearSibs h8 self) h8 :=
  dataEq_setF _ _ _ (fun nd => by simp)

/-- The link surgery of `extract` changes no node's data or contents. -/
theorem extractLinks_dataEq (h1 : Heap) (self last : Nat) :
    DataEq (extractLinks h1 self last) h1 := by
  unfold extractLinks
  exact ((exClearSibs_dataEq _ _).trans
    ((exSibB_dataEq _ _).trans
      ((exSibA_dataEq _ _).trans
        ((exClearParent_dataEq _ _).trans
          ((exClearOrder_dataEq _ _ _).trans
            ((exBridgeB_dataEq _ _ _).trans (exBridgeA_dataEq _ _ _)))))))

theorem exBridgeA_parent (h1 : Heap) (self : Nat) (nextE : Option Nat) :
    Pointwise (exBridgeA h1 self nextE) (fun j nd => nd.parent = (h1 j).parent) := by
  unfold exBridgeA
  split
  · split
    · exact fun j => parent_setF _ _ (fun nd => { nd with nextEl := nextE }) (fun nd => rfl) j
    · exact fun j => rfl
  · exact fun j => rfl

theorem exBridgeB_parent (h2 : Heap) (self : Nat) (nextE : Option Nat) :
    Pointwise (exBridgeB h2 self nextE) (fun j nd => nd.parent = (h2 j).parent) := by
  unfold exBridgeB
  split
  · split
    · exact fun j =>
        parent_setF _ _ (fun nd => { nd with prevEl := (h2 self).prevEl }) (fun nd => rfl) j
    · exact fun j => rfl
  · exact fun j => rfl

theorem exClearOrder_parent (h3 : Heap) (self last j : Nat) :
    (exClearOrder h3 self last j).parent = (h3 j).parent := by
  unfold exClearOrder
  rw [parent_setF _ last (fun nd => { nd with nextEl := none }) (fun nd => rfl) j,
    parent_setF _ self (fun nd => { nd with prevEl := none }) (fun nd => rfl) j]

theorem exClearParent_parent (h5 : Heap) (self j : Nat) :
    (exClearParent h5 self j).parent = if j = self then none else (h5 j).parent := by
  unfold exClearParent
  by_cases hj : j = self <;> simp [hj, setF_apply_self, setF_apply_ne]

theorem exSibA_parent (h6 : Heap) (self : Nat) :
    Pointwise (exSibA h6 self) (fun j nd => nd.parent = (h6 j).parent) := by
  unfold exSibA
  split
  · split
    · exact fun j =>
        parent_setF _ _ (fun nd => { nd with nextSib := (h6 self).nextSib }) (fun nd => rfl) j
    · exact fun j => rfl
  · exact fun j => rfl

theorem exSibB_parent (h7 : Heap) (self : Nat) :
    Pointwise (exSibB h7 self) (fun j nd => nd.parent = (h7 j).parent) := by
  unfold exSibB
  split
  · split
    · exact fun j =>
        parent_setF _ _ (fun nd => { nd with prevSib := (h7 self).prevSib }) (fun nd => rfl) j
    · exact fun j => rfl
  · exact fun j => rfl

theorem exClearSibs_parent (h8 : Heap) (self j : Nat) :
    (exClearSibs h8 self j).parent = (h8 j).parent :=
  parent_setF _ _ (fun nd => { nd with prevSib := none, nextSib := none }) (fun _ => rfl) j

/-- The link surgery of `extract` clears the node's parent and no other. -/
theorem extractLinks_parent (h1 : Heap) (self last j : Nat) :
    (extractLinks h1 self last j).parent = if j = self then none else (h1 j).parent := by
  unfold extractLinks
  rw [exClearSibs_parent, exSibB_parent _ _ j, exSibA_parent _ _ j, exClearParent_parent]
  by_cases hj : j = self <;>
    simp [hj, exClearOrder_parent, exBridgeB_parent _ _ _ j, exBridgeA_parent _ _ _ j]

/-- The attachment phase of `Tag.insert` touches, among `contents` lists,
only that of the target parent, which gains the new child at the Python
insertion index. -/
theorem hAttach_ok_contents {fuel : Nat} {h : Heap} {self : Nat} {pos : Int} {n : Nat}
    {h' : Heap} (hok : hAttach fuel h self pos n = Except.ok h') (j : Nat) :
    (h' j).contents =
      if j = self then pyInsertAt ((h self).contents) pos n else (h j).contents := by
  unfold hAttach at hok
  simp only [bind, Except.bind, pure, Except.pure, throw, throwThe,
    MonadExceptOf.throw] at hok
  repeat' split at hok
  all_goals
    first
    | exact (Except.noConfusion hok)
    | (injection hok with hok; subst hok;
       by_cases hj : j = self <;>
         simp [hj, setF_apply_self, setF_apply_ne, contents_setF])

/-- The attachment phase changes no node's intrinsic data. -/
theorem hAttach_ok_dataq {fuel : Nat} {h : Heap} {self : Nat} {pos : Int} {n : Nat}
    {h' : Heap} (hok : hAttach fuel h self pos n = Except.ok h') (j : Nat) :
    (h' j).isTag = (h j).isTag ∧ (h' j).name = (h j).name ∧
    (h' j).attrs = (h j).attrs ∧ (h' j).text = (h j).text := by
  unfold hAttach at hok
  simp only [bind, Except.bind, pure, Except.pure, throw, throwThe,
    MonadExceptOf.throw] at hok
  repeat' split at hok
  all_goals
    first
    | exact (Except.noConfusion hok)
    | (injection hok with hok; subst hok;
       simp [setF, apply_ite (HNode.isTag), apply_ite (HNode.name),
         apply_ite (HNode.attrs), apply_ite (HNode.text)])

/-- A too-negative position makes the attachment phase raise `IndexError`
(in `self.contents[position - 1]`). -/
theorem hAttach_neg_fail {fuel : Nat} {h : Heap} {self : Nat} {pos : Int} {n : Nat}
    (hneg : pos < 0) (hlow : pos + ((h self).contents.length : Int) < 1) (h' : Heap) :
    hAttach fuel h self pos n ≠ Except.ok h' := by
  intro hok
  unfold hAttach at hok
  simp only [bind, Except.bind, pure, Except.pure, throw, throwThe,
    MonadExceptOf.throw] at hok
  rw [if_neg (by omega)] at hok
  have hc : ((setF h n (fun nd => { nd with parent := some self }) self).contents)
      = (h self).contents := by
    exact contents_setF h n (fun nd => { nd with parent := some self }) (fun nd => rfl) self
  have hg : pyGet ((setF h n (fun nd => { nd with parent := some self }) self).contents)
      (pos - 1) = none := by
    rw [hc]
    unfold pyGet
    rw [if_neg (by omega), if_neg (by omega)]
  rw [hg] at hok
  exact Except.noConfusion hok

/-- Behaviour of `Tag.insert` on `contents` lists for a detached node: only
the target parent's list changes, receiving the node at the clamped
position. -/
theorem hInsert_detached_ok_contents {fuel : Nat} {h : Heap} {p : Nat} {pos : Int}
    {n : Nat} {h' : Heap} (hnp : n ≠ p) (hdet : (h n).parent = none)
    (hok : hInsert fuel h p pos (some n) = Except.ok h') (j : Nat) :
    (h' j).contents =
      if j = p then pyInsertAt ((h p).contents) (min pos ((h p).contents.length : Int)) n
      else (h j).contents := by
  simp only [hInsert] at hok
  rw [if_neg hnp] at hok
  simp only [hdet, bind, Except.bind, pure, Except.pure] at hok
  exact hAttach_ok_contents hok j

/-- Witness for C10 at a concrete two-node tree. -/
theorem c10_witness :
    (reprH [ATree.mk 0 ⟨true, "div", [], ""⟩ [ATree.mk 1 ⟨true, "p", [], ""⟩ []]] 1).parent
      = some 0 ∧
    hReplaceWith 5 (reprH [ATree.mk 0 ⟨true, "div", [], ""⟩ [ATree.mk 1 ⟨true, "p", [], ""⟩ []]]) 1 [1]
      = Except.ok (reprH [ATree.mk 0 ⟨true, "div", [], ""⟩ [ATree.mk 1 ⟨true, "p", [], ""⟩ []]]) :=
  ⟨by decide, c10_replace_with_self_noop 5 _ 1 0 (by decide)⟩

/-! ## List lemmas for the insert/extract inverse -/

theorem idxOfId_get {n : Nat} : ∀ {l : List Nat} {i : Nat},
    idxOfId n l = some i → l[i]? = some n := by
  intro l
  induction l with
  | nil => intro i hx; simp [idxOfId] at hx
  | cons x xs ih =>
    intro i hx
    by_cases hxn : x = n
    · subst hxn
      simp [idxOfId] at hx
      subst hx
      simp
    · simp [idxOfId, hxn] at hx
      rcases hx with ⟨i', hi', rfl⟩
      simpa using ih hi'

theorem idxOfId_lt {n : Nat} {l : List Nat} {i : Nat}
    (hx : idxOfId n l = some i) : i < l.length := by
  have hg := idxOfId_get hx
  by_contra hge
  rw [List.getElem?_eq_none (by omega)] at hg
  exact Option.noConfusion hg

theorem insAt_eraseIdx : ∀ {l : List Nat} {i : Nat} {n : Nat},
    l[i]? = some n → insAt i n (l.eraseIdx i) = l := by
  intro l
  induction l with
  | nil => intro i n hx; simp at hx
  | cons x xs ih =>
    intro i n hx
    cases i with
    | zero =>
      simp at hx
      subst hx
      simp [List.eraseIdx, insAt]
    | succ i =>
      simp at hx
      simpa [List.eraseIdx, insAt] using ih hx

/-- Tag structural equality depends only on the intrinsic data and the
`contents` lists of the left heap; link fields are irrelevant. -/
theorem structEqF_congr (g h : Heap)
    (hd : ∀ j, (g j).isTag = (h j).isTag ∧ (g j).name = (h j).name ∧
      (g j).attrs = (h j).attrs ∧ (g j).text = (h j).text ∧
      (g j).contents = (h j).contents) :
    ∀ (sf : Nat) (a b : Nat), structEqF sf g a h b = structEqF sf h a h b := by
  intro sf
  induction sf with
  | zero => intro a b; rfl
  | succ sf ih =>
    intro a b
    have hfun : (fun xy : Nat × Nat => structEqF sf g xy.1 h xy.2)
        = fun xy : Nat × Nat => structEqF sf h xy.1 h xy.2 := by
      funext xy
      exact ih xy.1 xy.2
    simp only [structEqF, (hd a).1, (hd a).2.1, (hd a).2.2.1, (hd a).2.2.2.1,
      (hd a).2.2.2.2, hfun]

/-! ## Effect of `extract` on contents, parent and data -/

/-- Extraction removes the node from its parent's `contents` and changes no
other `contents` list. -/
theorem hExtract_ok_contents {fuel : Nat} {h : Heap} {self : Nat} {h' : Heap}
    {p i : Nat} (hpar : (h self).parent = some p)
    (hidx : idxOfId self (h p).contents = some i)
    (hok : hExtract fuel h self none = some h') (j : Nat) :
    (h' j).contents =
      if j = p then (h p).contents.eraseIdx i else (h j).contents := by
  unfold hExtract at hok
  simp only [hpar, hidx, bind, Option.bind] at hok
  repeat' split at hok
  all_goals
    first
    | exact (Option.noConfusion hok)
    | (injection hok with hok; subst hok;
       rw [(extractLinks_dataEq _ self _ j).2.2.2.2]
       by_cases hj : j = p <;>
         simp [hj, setF_apply_self, setF_apply_ne, contents_setF])

/-- After extraction the node has no parent. -/
theorem hExtract_ok_parent {fuel : Nat} {h : Heap} {self : Nat}
    {selfIdx : Option Nat} {h' : Heap}
    (hok : hExtract fuel h self selfIdx = some h') :
    (h' self).parent = none := by
  unfold hExtract at hok
  simp only [bind, Option.bind] at hok
  repeat' split at hok
  all_goals
    first
    | exact (Option.noConfusion hok)
    | (injection hok with hok; subst hok; rw [extractLinks_parent]; simp)

/-- Extraction changes no node's intrinsic data. -/
theorem hExtract_ok_dataq {fuel : Nat} {h : Heap} {self : Nat}
    {selfIdx : Option Nat} {h' : Heap}
    (hok : hExtract fuel h self selfIdx = some h') (j : Nat) :
    (h' j).isTag = (h j).isTag ∧ (h' j).name = (h j).name ∧
    (h' j).attrs = (h j).attrs ∧ (h' j).text = (h j).text := by
  unfold hExtract at hok
  simp only [bind, Option.bind] at hok
  repeat' split at hok
  all_goals
    first
    | exact (Option.noConfusion hok)
    | (injection hok with hok; subst hok;
       refine ⟨((extractLinks_dataEq _ self _) j).1.trans ?_,
         ((extractLinks_dataEq _ self _) j).2.1.trans ?_,
         ((extractLinks_dataEq _ self _) j).2.2.1.trans ?_,
         ((extractLinks_dataEq _ self _) j).2.2.2.1.trans ?_⟩ <;>
         simp [isTag_setF, name_setF, attrs_setF, text_setF])

/-- Reduction of `Tag.insert` on a detached node to its attachment phase. -/
theorem hInsert_detached_to_attach {fuel : Nat} {h : Heap} {p : Nat} {pos : Int}
    {n : Nat} (hnp : n ≠ p) (hdet : (h n).parent = none) :
    hInsert fuel h p pos (some n)
      = hAttach fuel h p (min pos ((h p).contents.length : Int)) n := by
  simp only [hInsert]
  rw [if_neg hnp]
  simp only [hdet, bind, Except.bind, pure, Except.pure]

/-- Inserting a detached node changes no node's intrinsic data. -/
theorem hInsert_detached_ok_dataq {fuel : Nat} {h : Heap} {p : Nat} {pos : Int}
    {n : Nat} {h' : Heap} (hnp : n ≠ p) (hdet : (h n).parent = none)
    (hok : hInsert fuel h p pos (some n) = Except.ok h') (j : Nat) :
    (h' j).isTag = (h j).isTag ∧ (h' j).name = (h j).name ∧
    (h' j).attrs = (h j).attrs ∧ (h' j).text = (h j).text := by
  rw [hInsert_detached_to_attach hnp hdet] at hok
  exact hAttach_ok_dataq hok j

/-- C2 counterexample.  Inserting at position `-1` under a tag with two
children places the node at index 1, not at the index 0 that clamping the
position into `[0, len]` would give: the child list becomes `[1, 3, 2]`,
whereas the claimed clamping predicts `insAt 0 3 [1, 2] = [3, 1, 2]`. -/
theorem c2_counterexample :
    (hInsert 9 wHeap1 0 (-1) (some 3)).toOption.map (fun h' => (h' 0).contents)
        = some [1, 3, 2] ∧
    some [1, 3, 2] ≠ some (insAt 0 3 [1, 2]) := by
  constructor
  · decide
  · decide

/-- C2 amended.  For a detached node, `Tag.insert` first caps the position
above by `len(contents)`; a nonnegative capped position is the insertion
index; a negative capped position `q` inserts at `len + q` when that is at
least 1 (Python negative indexing) and raises `IndexError` otherwise —
`pyNormIdx` packages exactly this index computation. -/
theorem c2_amended_insert_position (fuel : Nat) (h : Heap) (p n : Nat) (pos : Int)
    (h' : Heap) (hnp : n ≠ p) (hdet : (h n).parent = none)
    (hok : hInsert fuel h p pos (some n) = Except.ok h') :
    match pyNormIdx pos ((h p).contents.length) with
    | some k => (h' p).contents = insAt k n ((h p).contents)
    | none => False := by
  have hc := hInsert_detached_ok_contents hnp hdet hok p
  rw [if_pos rfl] at hc
  rw [hInsert_detached_to_attach hnp hdet] at hok
  unfold pyNormIdx
  by_cases h0 : 0 ≤ min pos ((h p).contents.length : Int)
  · rw [if_pos h0]
    rw [hc]
    unfold pyInsertAt
    rw [if_pos h0]
  · by_cases h1 : 1 ≤ min pos ((h p).contents.length : Int) + ((h p).contents.length : Int)
    · rw [if_neg h0, if_pos h1]
      rw [hc]
      unfold pyInsertAt
      rw [if_neg h0]
    · rw [if_neg h0, if_neg h1]
      exact hAttach_neg_fail (by omega) (by omega) h' hok

/-- Witness for the amended C2: appending node 3 at position 5 under a tag
with two children inserts at the capped index 2. -/
theorem c2_amended_witness :
    match pyNormIdx 5 ((wHeap1 0).contents.length) with
    | some k => (wIns1 0).contents = insAt k 3 ((wHeap1 0).contents)
    | none => False :=
  c2_amended_insert_position 9 wHeap1 0 3 5 wIns1 (by decide) (by decide) (by rfl)

/-- C4. Extracting an attached node and immediately re-inserting it at its
original parent and index restores every `contents` list, and therefore a
tree structurally equal (same names, attributes, child order, recursively,
per `Tag.__eq__`) to the tree before the extraction; the self-comparison
hypothesis is the certificate that the comparison terminates within the
given recursion depth. -/
theorem c4_extract_insert_inverse (fuel fuel' sf : Nat) (h h1 h2 : Heap)
    (p n i r : Nat)
    (hpar : (h n).parent = some p)
    (hidx : idxOfId n (h p).contents = some i)
    (hnp : n ≠ p)
    (hext : hExtract fuel h n none = some h1)
    (hins : hInsert fuel' h1 p (i : Int) (some n) = Except.ok h2)
    (hself : structEqF sf h r h r = true) :
    structEqF sf h2 r h r = true ∧ (h2 p).contents = (h p).contents := by
  have hdet : (h1 n).parent = none := hExtract_ok_parent hext
  have hc1 := hExtract_ok_contents hpar hidx hext
  have hc2 := hInsert_detached_ok_contents hnp hdet hins
  have hilen : i < (h p).contents.length := idxOfId_lt hidx
  have hlen1 : (h1 p).contents.length = (h p).contents.length - 1 := by
    rw [hc1 p, if_pos rfl]
    exact List.length_eraseIdx_of_lt (by omega)
  have hmin : min (i : Int) ((h1 p).contents.length : Int) = (i : Int) := by
    rw [min_eq_left]
    rw [hlen1]
    omega
  have hres : ∀ j, (h2 j).contents = (h j).contents := by
    intro j
    rw [hc2 j]
    by_cases hj : j = p
    · rw [if_pos hj, hj, hmin]
      unfold pyInsertAt
      rw [if_pos (by omega)]
      rw [hc1 p, if_pos rfl]
      simp only [Int.toNat_ofNat]
      exact insAt_eraseIdx (idxOfId_get hidx)
    · rw [if_neg hj, hc1 j, if_neg hj]
  have hdata : ∀ j, (h2 j).isTag = (h j).isTag ∧ (h2 j).name = (h j).name ∧
      (h2 j).attrs = (h j).attrs ∧ (h2 j).text = (h j).text := by
    intro j
    have d1 := hExtract_ok_dataq hext j
    have d2 := hInsert_detached_ok_dataq hnp hdet hins j
    exact ⟨d2.1.trans d1.1, d2.2.1.trans d1.2.1, d2.2.2.1.trans d1.2.2.1,
      d2.2.2.2.trans d1.2.2.2⟩
  refine ⟨?_, hres p⟩
  have := structEqF_congr h2 h
    (fun j => ⟨(hdata j).1, (hdata j).2.1, (hdata j).2.2.1, (hdata j).2.2.2, hres j⟩)
    sf r r
  rw [this]
  exact hself

/-- Witness for C4 on a concrete three-node tree. -/
theorem c4_witness :
    structEqF 5 wIns2 0 wHeap2 0 = true ∧ (wIns2 0).contents = (wHeap2 0).contents :=
  c4_extract_insert_inverse 9 9 5 wHeap2 wExt2 wIns2 0 1 0 0
    (by decide) (by decide) (by decide) (by rfl) (by rfl) (by decide)

/-- C6. Constructing a `MatchRule` fails exactly when the number of supplied
evaluation modes differs from one; a successfully constructed rule stores
the supplied modes unchanged, and whenever its canonical mode gives no
answer at evaluation time the predicate mode is present, so evaluation
never encounters a malformed configuration. -/
theorem c6_matchrule_validation {α : Type} (s : Option String) (p : Option Patt)
    (f : Option α) (b : Option Bool) :
    ((∃ r, mkMatchRule s p f b = Except.ok r) ↔
      countModes (⟨s, p, f, b⟩ : MatchRule α) = 1) ∧
    (∀ r, mkMatchRule s p f b = Except.ok r →
      r = ⟨s, p, f, b⟩ ∧
      (∀ str, baseMatch r str = none → r.function.isSome = true)) := by
  constructor
  · constructor
    · rintro ⟨r, hr⟩
      unfold mkMatchRule at hr
      by_cases h0 : countModes (⟨s, p, f, b⟩ : MatchRule α) = 0
      · rw [if_pos h0] at hr
        exact Except.noConfusion hr
      · rw [if_neg h0] at hr
        by_cases h1 : 1 < countModes (⟨s, p, f, b⟩ : MatchRule α)
        · rw [if_pos h1] at hr
          exact Except.noConfusion hr
        · omega
    · intro h1
      refine ⟨⟨s, p, f, b⟩, ?_⟩
      unfold mkMatchRule
      rw [if_neg (by omega), if_neg (by omega)]
  · intro r hr
    unfold mkMatchRule at hr
    by_cases h0 : countModes (⟨s, p, f, b⟩ : MatchRule α) = 0
    · rw [if_pos h0] at hr
      exact Except.noConfusion hr
    · rw [if_neg h0] at hr
      by_cases h1 : 1 < countModes (⟨s, p, f, b⟩ : MatchRule α)
      · rw [if_pos h1] at hr
        exact Except.noConfusion hr
      · rw [if_neg h1] at hr
        injection hr with hr
        subst hr
        refine ⟨rfl, ?_⟩
        intro str hbase
        unfold baseMatch at hbase
        unfold countModes at h0 h1
        rcases b with _ | b
        · rcases s with _ | sv
          · rcases p with _ | pv
            · rcases f with _ | fv
              · simp at h0
              · rfl
            · simp at hbase
          · simp at hbase
        · rcases b with _ | _ <;> simp at hbase
  
/-- Witness for C6: a predicate-mode rule constructs successfully and its
predicate is available where the base match gives no answer. -/
theorem c6_witness :
    (⟨none, none, some wAttrFn, none⟩ : MatchRule AttrFn).function.isSome = true :=
  ((c6_matchrule_validation none none (some wAttrFn) none).2
    ⟨none, none, some wAttrFn, none⟩ rfl).2 (some "a") rfl

theorem any_over_map_some (vs : List String) (p : Option String → Bool) :
    ((vs.map some).any p) = vs.any fun v => p (some v) := by
  induction vs with
  | nil => rfl
  | cons v vs ih => simp [List.any_cons, ih]

theorem map_getD_map_some (vs : List String) :
    (vs.map some).map (fun o : Option String => o.getD "") = vs := by
  induction vs with
  | nil => rfl
  | cons v vs ih => simp only [List.map_cons, Option.getD_some, ih]

/-- C7. Against a multi-valued attribute, every rule is first tried against
each individual token, and only when no rule matched any token (and there
is more than one token) is the match retried once against the tokens joined
by a single space; the regex `"a b"` against `["a", "b"]` fails on both
individual tokens and succeeds only via the joined string. -/
theorem c7_multivalue_retry :
    (∀ (rules : List (MatchRule AttrFn)) (vs : List String),
      attribute_match rules (some (AttrVal.ls vs)) =
        ((rules.any fun r => vs.any fun v => matchesStr r (some v)) ||
          (decide (1 < vs.length) &&
            rules.any fun r => matchesStr r (some (String.intercalate " " vs))))) ∧
    (([wPattRule].any fun r => ["a", "b"].any fun v => matchesStr r (some v)) = false ∧
      matchesStr wPattRule (some "a b") = true ∧
      attribute_match [wPattRule] (some (AttrVal.ls ["a", "b"])) = true) := by
  constructor
  · intro rules vs
    simp only [attribute_match]
    have hhelp : (rules.any fun r => (vs.map some).any fun v => matchesStr r v)
        = rules.any fun r => vs.any fun v => matchesStr r (some v) := by
      induction rules with
      | nil => rfl
      | cons r rs ih =>
        simp only [List.any_cons, ih, any_over_map_some vs (fun v => matchesStr r v)]
    simp only [map_getD_map_some, List.length_map, List.any_cons, List.any_nil,
      Bool.or_false, hhelp]
    cases hA : (rules.any fun r => vs.any fun v => matchesStr r (some v)) <;>
      cases hL : decide (1 < vs.length) <;>
        simp_all [gt_iff_lt]
  · refine ⟨by decide, by decide, by decide⟩

/-- C8. When a strainer's name rules are exactly one plain exact-string
rule, the optimization short-circuit of `matches_tag` returns the same
result as the general matching path on every tag. -/
theorem c8_shortcircuit_equiv (S : SoupStrainer) (s : String)
    (hname : S.name_rules = [⟨some s, none, none, none⟩]) (tag : STag) :
    matches_tag S tag = matchesTagNoShortcut S tag := by
  unfold matches_tag matchesTagNoShortcut
  by_cases hsc : scRejects S tag = true
  · rw [if_pos hsc]
    unfold scRejects at hsc
    rw [hname] at hsc
    simp only [Bool.and_eq_true, Bool.not_eq_true'] at hsc
    obtain ⟨hpfx, hneq⟩ := hsc
    have hgen : matchesTagGeneral S tag = false := by
      unfold matchesTagGeneral nameMatchesTag baseMatch
      rw [hname]
      simp [hpfx]
      intro hx
      simp at hneq
      exact absurd hx.symm hneq
    rw [hgen]
  · rw [if_neg hsc]

/-- Witness for C8 on a concrete strainer and tag. -/
theorem c8_witness :
    matches_tag (mkSoupStrainer (RuleArg.str "p") [] RuleArg.null []) wTag
      = matchesTagNoShortcut (mkSoupStrainer (RuleArg.str "p") [] RuleArg.null []) wTag :=
  c8_shortcircuit_equiv _ "p" rfl wTag

/-- C9. A strainer built with an attribute constraint of `None` converts it
into a `present=False` rule and matches exactly the tags lacking that
attribute. -/
theorem c9_none_attr_presence (a : String) (tag : STag) :
    matches_tag (mkSoupStrainer RuleArg.null [(a, RuleArg.null)] RuleArg.null []) tag
      = (tagGet tag a).isNone := by
  have hS : mkSoupStrainer RuleArg.null [(a, RuleArg.null)] RuleArg.null []
      = ⟨[], [(a, [⟨none, none, none, some false⟩])], []⟩ := by
    simp [mkSoupStrainer, addAttrArgs, addRules, makeRules]
  rw [hS]
  unfold matches_tag scRejects matchesTagGeneral matchesAnyStringRule
  simp only [List.isEmpty_nil, List.isEmpty_cons, Bool.true_and, Bool.and_false,
    Bool.false_and, List.all_cons, List.all_nil, Bool.and_true, if_true, if_false]
  have hmain : attribute_match [⟨none, none, none, some false⟩] (tagGet tag a)
      = (tagGet tag a).isNone := by
    rcases hv : tagGet tag a with _ | v
    · decide
    · rcases v with v | vs
      · simp [attribute_match, matchesStr, baseMatch]
      · simp only [attribute_match]
        have htok : ((vs.map some).any fun v =>
            matchesStr (⟨none, none, none, some false⟩ : MatchRule AttrFn) v) = false := by
          simp [List.any_map, Function.comp_def, matchesStr, baseMatch]
        simp only [List.any_cons, List.any_nil, htok, Bool.or_false, List.length_map]
        have hjoined : matchesStr (⟨none, none, none, some false⟩ : MatchRule AttrFn)
            (some (String.intercalate " " (vs.map ((fun o : Option String => o.getD "") ∘ some)))) = false := by
          simp [matchesStr, baseMatch]
        simp only [List.map_map]
        split <;> simp [hjoined]
  simp [hmain]

/-! ## Tree and forest lemmas -/

theorem preT_eq (i : Nat) (d : NodeData) (cs : List ATree) :
    preT (ATree.mk i d cs) = i :: preF cs := by
  rw [preT]

theorem preT_ne_nil (t : ATree) : preT t ≠ [] := by
  match t with
  | .mk i d cs => simp [preT]

theorem aid_mem_preT (t : ATree) : aid t ∈ preT t := by
  match t with
  | .mk i d cs => simp [preT, aid]

theorem head_preT (t : ATree) : (preT t).head? = some (aid t) := by
  match t with
  | .mk i d cs => simp [preT, aid]

mutual
theorem findT_isSome_iff (n : Nat) (t : ATree) :
    (findT n t).isSome = true ↔ n ∈ preT t := by
  match t with
  | .mk i d cs =>
    rw [findT, preT]
    by_cases hin : i = n
    · simp [hin]
    · simp only [if_neg hin, List.mem_cons]
      rw [findF_isSome_iff n cs]
      constructor
      · exact fun h => Or.inr h
      · rintro (h | h)
        · exact absurd h.symm hin
        · exact h

theorem findF_isSome_iff (n : Nat) (ts : List ATree) :
    (findF n ts).isSome = true ↔ n ∈ preF ts := by
  match ts with
  | [] => simp [findF, preF]
  | t :: ts =>
    rw [findF, preF]
    match hx : findT n t with
    | some st =>
      have h1 : n ∈ preT t := (findT_isSome_iff n t).mp (by rw [hx]; rfl)
      simp [h1]
    | none =>
      have h1 : n ∉ preT t := by
        intro hmem
        have := (findT_isSome_iff n t).mpr hmem
        rw [hx] at this
        exact Bool.noConfusion this
      simp only [List.mem_append]
      rw [findF_isSome_iff n ts]
      constructor
      · exact fun h => Or.inr h
      · rintro (h | h)
        · exact absurd h h1
        · exact h
end

theorem findT_mem {n : Nat} {t : ATree} {st : ATree} (hx : findT n t = some st) :
    n ∈ preT t :=
  (findT_isSome_iff n t).mp (by rw [hx]; rfl)

theorem findF_mem {n : Nat} {ts : List ATree} {st : ATree} (hx : findF n ts = some st) :
    n ∈ preF ts :=
  (findF_isSome_iff n ts).mp (by rw [hx]; rfl)

theorem findT_not_mem {n : Nat} {t : ATree} (hx : n ∉ preT t) : findT n t = none := by
  match hy : findT n t with
  | none => rfl
  | some st => exact absurd (findT_mem hy) hx

theorem findF_not_mem {n : Nat} {ts : List ATree} (hx : n ∉ preF ts) : findF n ts = none := by
  match hy : findF n ts with
  | none => rfl
  | some st => exact absurd (findF_mem hy) hx

mutual
theorem findT_aid {n : Nat} {t st : ATree} (hx : findT n t = some st) : aid st = n := by
  match t with
  | .mk i d cs =>
    rw [findT] at hx
    by_cases hin : i = n
    · rw [if_pos hin] at hx
      injection hx with hx
      subst hx
      exact hin
    · rw [if_neg hin] at hx
      exact findF_aid hx

theorem findF_aid {n : Nat} {ts : List ATree} {st : ATree} (hx : findF n ts = some st) :
    aid st = n := by
  match ts with
  | [] => exact Option.noConfusion hx
  | t :: ts =>
    rw [findF] at hx
    split at hx
    · injection hx with hx
      subst hx
      exact findT_aid (by assumption)
    · exact findF_aid hx
end

mutual
theorem findT_seg {n : Nat} {t st : ATree} (hx : findT n t = some st) :
    preT st <:+: preT t := by
  match t with
  | .mk i d cs =>
    rw [findT] at hx
    by_cases hin : i = n
    · rw [if_pos hin] at hx
      injection hx with hx
      subst hx
      exact List.infix_refl _
    · rw [if_neg hin] at hx
      have h1 := findF_seg hx
      rw [preT_eq]
      exact h1.trans (List.infix_cons (List.infix_refl _))

theorem findF_seg {n : Nat} {ts : List ATree} {st : ATree} (hx : findF n ts = some st) :
    preT st <:+: preF ts := by
  match ts with
  | [] => exact Option.noConfusion hx
  | t :: ts =>
    rw [findF] at hx
    match hy : findT n t with
    | some r =>
      simp only [hy] at hx
      injection hx with hx
      subst hx
      have h1 := findT_seg hy
      rw [preF]
      exact h1.trans ⟨[], preF ts, by simp⟩
    | none =>
      simp only [hy] at hx
      have h1 := findF_seg hx
      rw [preF]
      exact h1.trans ⟨preT t, [], by simp⟩
end

theorem findT_self (t : ATree) : findT (aid t) t = some t := by
  match t with
  | .mk i d cs => simp [findT, aid]

/-- A direct child's pre-order list is an infix of its parent's child
list's pre-order. -/
theorem preT_infix_preF {c : ATree} : ∀ {cs : List ATree}, c ∈ cs → preT c <:+: preF cs := by
  intro cs
  induction cs with
  | nil => intro h; exact absurd h (List.not_mem_nil c)
  | cons t ts ih =>
    intro h
    rw [preF]
    rcases List.mem_cons.mp h with h | h
    · subst h
      exact ⟨[], preF ts, by simp⟩
    · exact (ih h).trans ⟨preT t, [], by simp⟩

theorem aid_mem_preF {c : ATree} {cs : List ATree} (h : c ∈ cs) : aid c ∈ preF cs :=
  (preT_infix_preF h).subset (aid_mem_preT c)

theorem child_aid_mem {c st : ATree} (hc : c ∈ akids st) : aid c ∈ preT st := by
  match st with
  | .mk i d cs =>
    rw [preT]
    exact List.mem_cons_of_mem i (aid_mem_preF hc)

theorem findF_self_of_mem {c : ATree} :
    ∀ {cs : List ATree}, (preF cs).Nodup → c ∈ cs → findF (aid c) cs = some c := by
  intro cs
  induction cs with
  | nil => intro _ h; exact absurd h (List.not_mem_nil c)
  | cons t ts ih =>
    intro hnd hmem
    rw [preF] at hnd
    rcases List.mem_cons.mp hmem with h | h
    · subst h
      rw [findF, findT_self]
    · have hdisj := List.disjoint_of_nodup_append hnd
      have hnt : aid c ∉ preT t := fun hx => hdisj hx (aid_mem_preF h)
      rw [findF, findT_not_mem hnt]
      exact ih hnd.of_append_right h

mutual
theorem findT_child {n : Nat} {t st c : ATree} (hnd : (preT t).Nodup)
    (hx : findT n t = some st) (hc : c ∈ akids st) : findT (aid c) t = some c := by
  match t with
  | .mk i d cs =>
    rw [preT] at hnd
    rw [findT] at hx ⊢
    by_cases hin : i = n
    · rw [if_pos hin] at hx
      injection hx with hx
      subst hx
      have hcm : aid c ∈ preF cs := aid_mem_preF hc
      rw [if_neg (fun hh : i = aid c => (List.nodup_cons.mp hnd).1 (hh ▸ hcm))]
      exact findF_self_of_mem (List.nodup_cons.mp hnd).2 hc
    · rw [if_neg hin] at hx
      have hcm : aid c ∈ preF cs := ((findF_seg hx).subset) (child_aid_mem hc)
      rw [if_neg (fun hh : i = aid c => (List.nodup_cons.mp hnd).1 (hh ▸ hcm))]
      exact findF_child (List.nodup_cons.mp hnd).2 hx hc

theorem findF_child {n : Nat} {ts : List ATree} {st c : ATree} (hnd : (preF ts).Nodup)
    (hx : findF n ts = some st) (hc : c ∈ akids st) : findF (aid c) ts = some c := by
  match ts with
  | [] => exact Option.noConfusion hx
  | t :: ts =>
    rw [preF] at hnd
    rw [findF] at hx ⊢
    match hy : findT n t with
    | some r =>
      simp only [hy] at hx
      injection hx with hx
      subst hx
      rw [findT_child hnd.of_append_left hy hc]
    | none =>
      simp only [hy] at hx
      have hcm : aid c ∈ preF ts := ((findF_seg hx).subset) (child_aid_mem hc)
      have hdisj := List.disjoint_of_nodup_append hnd
      have hnt : aid c ∉ preT t := fun hz => hdisj hz hcm
      rw [findT_not_mem hnt]
      exact findF_child hnd.of_append_right hx hc
end

theorem exists_root {j : Nat} : ∀ {F : List ATree}, j ∈ preF F → ∃ t ∈ F, j ∈ preT t := by
  intro F
  induction F with
  | nil => intro h; rw [preF] at h; exact absurd h (List.not_mem_nil j)
  | cons t ts ih =>
    intro h
    rw [preF] at h
    rcases List.mem_append.mp h with h | h
    · exact ⟨t, List.mem_cons_self t ts, h⟩
    · obtain ⟨t', ht', hj⟩ := ih h
      exact ⟨t', List.mem_cons_of_mem t ht', hj⟩

theorem rootF_eq {F : List ATree} (hnd : (preF F).Nodup) {t : ATree} (ht : t ∈ F)
    {j : Nat} (hj : j ∈ preT t) : rootF j F = some t := by
  induction F with
  | nil => exact absurd ht (List.not_mem_nil t)
  | cons t' ts ih =>
    rw [preF] at hnd
    rcases List.mem_cons.mp ht with h | h
    · subst h
      unfold rootF
      rw [List.find?_cons_of_pos _ (by simpa using hj)]
    · have hdisj := List.disjoint_of_nodup_append hnd
      have hmem : j ∈ preF ts := (preT_infix_preF h).subset hj
      have hnt : j ∉ preT t' := fun hz => hdisj hz hmem
      unfold rootF
      rw [List.find?_cons_of_neg _ (by simpa using hnt)]
      exact ih hnd.of_append_right h

mutual
theorem parT_mem {n : Nat} {t : ATree} {q : Nat} (h : parT n t = some q) : n ∈ preT t := by
  match t with
  | .mk i d cs =>
    rw [parT] at h
    rw [preT]
    split at h
    · next hany =>
      obtain ⟨c, hcm, hca⟩ := List.any_eq_true.mp hany
      have hca' : aid c = n := of_decide_eq_true hca
      exact List.mem_cons_of_mem i (hca' ▸ aid_mem_preF hcm)
    · exact List.mem_cons_of_mem i (parF_mem h)

theorem parF_mem {n : Nat} {ts : List ATree} {q : Nat} (h : parF n ts = some q) :
    n ∈ preF ts := by
  match ts with
  | [] => exact Option.noConfusion h
  | t :: ts =>
    rw [parF] at h
    rw [preF]
    match hy : parT n t with
    | some r =>
      exact List.mem_append.mpr (Or.inl (parT_mem hy))
    | none =>
      simp only [hy] at h
      exact List.mem_append.mpr (Or.inr (parF_mem h))
end

theorem parT_self_none {t : ATree} (hnd : (preT t).Nodup) : parT (aid t) t = none := by
  match t with
  | .mk i d cs =>
    rw [preT] at hnd
    have hi : (aid (ATree.mk i d cs) : Nat) = i := rfl
    rw [parT, hi]
    have hnotin : i ∉ preF cs := (List.nodup_cons.mp hnd).1
    have hany : cs.any (fun c => aid c = i) = false := by
      rw [Bool.eq_false_iff]
      intro hany
      obtain ⟨c, hcm, hca⟩ := List.any_eq_true.mp hany
      exact hnotin ((of_decide_eq_true hca) ▸ aid_mem_preF hcm)
    rw [hany]
    simp only [Bool.false_eq_true, if_false]
    match hy : parF i cs with
    | none => rfl
    | some q => exact absurd (parF_mem hy) hnotin

theorem parF_root_none {F : List ATree} (hnd : (preF F).Nodup) {t : ATree} (ht : t ∈ F) :
    parF (aid t) F = none := by
  induction F with
  | nil => exact absurd ht (List.not_mem_nil t)
  | cons u ts ih =>
    rw [preF] at hnd
    rw [parF]
    rcases List.mem_cons.mp ht with h | h
    · subst h
      rw [parT_self_none hnd.of_append_left]
      match hz : parF (aid t) ts with
      | none => rfl
      | some q =>
        exact absurd (parF_mem hz)
          (fun hz2 => List.disjoint_of_nodup_append hnd (aid_mem_preT t) hz2)
    · have hmem : aid t ∈ preF ts := (preT_infix_preF h).subset (aid_mem_preT t)
      have hpt : parT (aid t) u = none := by
        match hy : parT (aid t) u with
        | none => rfl
        | some q =>
          exact absurd (parT_mem hy) (fun hz => List.disjoint_of_nodup_append hnd hz hmem)
      rw [hpt]
      exact ih hnd.of_append_right h

theorem nodupB_iff (l : List Nat) : nodupB l = true ↔ l.Nodup := by
  induction l with
  | nil => simp [nodupB]
  | cons x xs ih =>
    rw [nodupB, List.nodup_cons, Bool.and_eq_true, Bool.not_eq_true']
    rw [ih]
    constructor
    · rintro ⟨h1, h2⟩
      refine ⟨fun hm => ?_, h2⟩
      rw [Bool.eq_false_iff] at h1
      exact h1 (List.elem_iff.mpr hm)
    · rintro ⟨h1, h2⟩
      refine ⟨?_, h2⟩
      rw [Bool.eq_false_iff]
      intro hc
      exact h1 (List.elem_iff.mp hc)

/-! ## Successor-in-list lemmas and the chain-walk lemma -/

theorem succIn_cons (x : Nat) (l : List Nat) (j : Nat) :
    succIn (x :: l) j = if x = j then l.head? else succIn l j := by
  cases l with
  | nil => by_cases hx : x = j <;> simp [succIn, hx]
  | cons y rest => rfl

theorem succIn_not_mem {l : List Nat} {j : Nat} (h : j ∉ l) : succIn l j = none := by
  induction l with
  | nil => rfl
  | cons x xs ih =>
    rw [succIn_cons,
      if_neg (fun hx : x = j => h (List.mem_cons.mpr (Or.inl hx.symm)))]
    exact ih (fun hm => h (List.mem_cons_of_mem x hm))

theorem succIn_append_not_mem {l₁ l₂ : List Nat} {j : Nat} (h : j ∉ l₁) :
    succIn (l₁ ++ l₂) j = succIn l₂ j := by
  induction l₁ with
  | nil => rfl
  | cons x xs ih =>
    rw [List.cons_append, succIn_cons,
      if_neg (fun hx : x = j => h (List.mem_cons.mpr (Or.inl hx.symm)))]
    exact ih (fun hm => h (List.mem_cons_of_mem x hm))

theorem succIn_middle {pre rest : List Nat} {s : Nat} (h : s ∉ pre) :
    succIn (pre ++ s :: rest) s = rest.head? := by
  rw [succIn_append_not_mem h, succIn_cons, if_pos rfl]

theorem succIn_append_isSome {S Y : List Nat} {j : Nat} (h : (succIn S j).isSome = true) :
    succIn (S ++ Y) j = succIn S j := by
  induction S with
  | nil => simp [succIn] at h
  | cons x S ih =>
    rw [succIn_cons] at h
    rw [List.cons_append, succIn_cons, succIn_cons]
    by_cases hx : x = j
    · rw [if_pos hx] at h ⊢
      rw [if_pos hx]
      match S with
      | [] => simp at h
      | y :: S' => rfl
    · rw [if_neg hx] at h ⊢
      rw [if_neg hx]
      exact ih h

theorem succIn_isSome_of_ne_last {S : List Nat} {j : Nat} (hm : j ∈ S)
    (hl : S.getLast? ≠ some j) : (succIn S j).isSome = true := by
  induction S with
  | nil => exact absurd hm (List.not_mem_nil j)
  | cons x S ih =>
    rw [succIn_cons]
    by_cases hx : x = j
    · rw [if_pos hx]
      match S with
      | [] =>
        exfalso
        apply hl
        rw [List.getLast?_singleton, hx]
      | y :: S' => rfl
    · rw [if_neg hx]
      have hm' : j ∈ S := by
        rcases List.mem_cons.mp hm with h | h
        · exact absurd h.symm hx
        · exact h
      match S, hm', hl, ih with
      | y :: S', hm', hl, ih =>
        refine ih hm' ?_
        intro hgl
        apply hl
        rw [List.getLast?_cons_cons]
        exact hgl

theorem walk_of_chain (h : Heap) (g : HNode → Option Nat) (L : List Nat)
    (hnd : L.Nodup) (hch : ∀ j ∈ L, g (h j) = succIn L j) :
    ∀ (suf pre : List Nat) (fuel : Nat), L = pre ++ suf → suf.length ≤ fuel →
      walkF g h fuel suf.head? = suf := by
  intro suf
  induction suf with
  | nil =>
    intro pre fuel _ _
    cases fuel <;> rfl
  | cons s rest ih =>
    intro pre fuel hL hfuel
    match fuel with
    | fuel + 1 =>
      show s :: walkF g h fuel (g (h s)) = s :: rest
      have hsL : s ∈ L := by rw [hL]; simp
      have hsnp : s ∉ pre := by
        rw [hL] at hnd
        intro hp
        exact (List.disjoint_of_nodup_append hnd) hp (List.mem_cons_self s rest)
      rw [hch s hsL, hL, succIn_middle hsnp]
      have := ih (pre ++ [s]) fuel (by rw [hL, List.append_assoc]; rfl)
        (by simpa using Nat.le_of_succ_le_succ hfuel)
      rw [this]

/-! ## Fields of the heap image of a forest -/

theorem reprH_contents {F : List ATree} {n : Nat} {st : ATree}
    (hx : findF n F = some st) : (reprH F n).contents = (akids st).map aid := by
  unfold reprH
  rw [hx]

theorem reprH_parent {F : List ATree} {n : Nat} {st : ATree}
    (hx : findF n F = some st) : (reprH F n).parent = parF n F := by
  unfold reprH
  rw [hx]

theorem reprH_nextEl {F : List ATree} {n : Nat} {st : ATree}
    (hx : findF n F = some st) :
    (reprH F n).nextEl = (rootF n F).bind (fun r => succIn (preT r) n) := by
  unfold reprH
  rw [hx]

theorem reprH_prevEl {F : List ATree} {n : Nat} {st : ATree}
    (hx : findF n F = some st) :
    (reprH F n).prevEl = (rootF n F).bind (fun r => predIn (preT r) n) := by
  unfold reprH
  rw [hx]

theorem reprH_prevSib {F : List ATree} {n : Nat} {st : ATree}
    (hx : findF n F = some st) :
    (reprH F n).prevSib = (parF n F).bind (fun p => predIn (childIds F p) n) := by
  unfold reprH
  rw [hx]

theorem reprH_nextSib {F : List ATree} {n : Nat} {st : ATree}
    (hx : findF n F = some st) :
    (reprH F n).nextSib = (parF n F).bind (fun p => succIn (childIds F p) n) := by
  unfold reprH
  rw [hx]

theorem reprH_decomposed {F : List ATree} {n : Nat} {st : ATree}
    (hx : findF n F = some st) : (reprH F n).decomposed = false := by
  unfold reprH
  rw [hx]

theorem reprH_isTag {F : List ATree} {n : Nat} {st : ATree}
    (hx : findF n F = some st) : (reprH F n).isTag = (adata st).isTag := by
  unfold reprH
  rw [hx]

theorem preT_subset_preF {t : ATree} {F : List ATree} (ht : t ∈ F) :
    preT t ⊆ preF F :=
  (preT_infix_preF ht).subset

theorem findF_exists_of_mem {F : List ATree} {j : Nat} (hj : j ∈ preF F) :
    ∃ st, findF j F = some st := by
  have := (findF_isSome_iff j F).mpr hj
  match hy : findF j F with
  | some st => exact ⟨st, rfl⟩
  | none => rw [hy] at this; exact Bool.noConfusion this

theorem heapPre_empty (h : Heap) (fuel : Nat) : heapPre h fuel [] = [] := by
  cases fuel <;> rfl

mutual
theorem heapPre_tree {F : List ATree} (hnd : (preF F).Nodup) {n : Nat} {st : ATree}
    (hx : findF n F = some st) :
    ∀ (fuel : Nat) (rest : List Nat), (preT st).length ≤ fuel →
      heapPre (reprH F) fuel (n :: rest)
        = preT st ++ heapPre (reprH F) (fuel - (preT st).length) rest := by
  match st with
  | .mk i d cs =>
    intro fuel rest hfuel
    have hn : i = n := findF_aid hx
    rw [preT_eq] at hfuel ⊢
    match fuel, hfuel with
    | fuel + 1, hfuel =>
      have hc : (reprH F n).contents = cs.map aid := reprH_contents hx
      have hstep : heapPre (reprH F) (fuel + 1) (n :: rest)
          = n :: heapPre (reprH F) fuel ((cs.map aid) ++ rest) := by
        rw [heapPre, hc]
      rw [hstep]
      have hch : ∀ c ∈ cs, findF (aid c) F = some c := fun c hc' =>
        findF_child hnd hx hc'
      rw [heapPre_forest hnd hch fuel rest (by simpa using Nat.le_of_succ_le_succ hfuel)]
      simp only [List.cons_append, List.length_cons]
      rw [hn]
      have harith : fuel + 1 - ((preF cs).length + 1) = fuel - (preF cs).length := by
        omega
      rw [harith]

theorem heapPre_forest {F : List ATree} (hnd : (preF F).Nodup) {cs : List ATree}
    (hch : ∀ c ∈ cs, findF (aid c) F = some c) :
    ∀ (fuel : Nat) (rest : List Nat), (preF cs).length ≤ fuel →
      heapPre (reprH F) fuel ((cs.map aid) ++ rest)
        = preF cs ++ heapPre (reprH F) (fuel - (preF cs).length) rest := by
  match cs with
  | [] =>
    intro fuel rest _
    simp [preF]
  | c :: cs' =>
    intro fuel rest hfuel
    rw [preF] at hfuel ⊢
    rw [List.length_append] at hfuel
    have h1 := heapPre_tree hnd (hch c (List.mem_cons_self c cs')) fuel
      ((cs'.map aid) ++ rest) (by omega)
    rw [List.map_cons, List.cons_append, h1]
    have hch' : ∀ x ∈ cs', findF (aid x) F = some x := fun x hx' =>
      hch x (List.mem_cons_of_mem c hx')
    rw [heapPre_forest hnd hch' (fuel - (preT c).length) rest (by omega)]
    rw [List.append_assoc]
    have harith : fuel - (preT c).length - (preF cs').length
        = fuel - (preT c ++ preF cs').length := by
      simp only [List.length_append]
      omega
    rw [harith]
end

theorem reprH_nextEl_chain {F : List ATree} (hnd : (preF F).Nodup) {t : ATree}
    (ht : t ∈ F) {j : Nat} (hj : j ∈ preT t) :
    (reprH F j).nextEl = succIn (preT t) j := by
  obtain ⟨st, hst⟩ := findF_exists_of_mem (preT_subset_preF ht hj)
  rw [reprH_nextEl hst, rootF_eq hnd ht hj]
  rfl

theorem reprH_prevEl_chain {F : List ATree} (hnd : (preF F).Nodup) {t : ATree}
    (ht : t ∈ F) {j : Nat} (hj : j ∈ preT t) :
    (reprH F j).prevEl = predIn (preT t) j := by
  obtain ⟨st, hst⟩ := findF_exists_of_mem (preT_subset_preF ht hj)
  rw [reprH_prevEl hst, rootF_eq hnd ht hj]
  rfl

/-- The document-order invariant holds in the heap image of every
well-formed forest: each node lies in the tree of a parentless root, the
`next_element` walk from the root is exactly the contents pre-order with no
repetition, and the `previous_element` walk from the last node is exactly
its reverse. -/
theorem wf_order_invariant (F : List ATree) (hwf : wfForest F = true) :
    OrderInvB (reprH F) (preF F) ((preF F).length + 1) = true := by
  rw [wfForest, Bool.and_eq_true] at hwf
  have hnd : (preF F).Nodup := (nodupB_iff _).mp hwf.1
  rw [OrderInvB, List.all_eq_true]
  intro i hi
  rw [List.any_eq_true]
  obtain ⟨t, htF, hit⟩ := exists_root hi
  have hself : findF (aid t) F = some t := findF_self_of_mem hnd htF
  refine ⟨aid t, preT_subset_preF htF (aid_mem_preT t), ?_⟩
  have hlen : (preT t).length ≤ (preF F).length :=
    List.Sublist.length_le (preT_infix_preF htF).sublist
  have hL : heapPre (reprH F) ((preF F).length + 1) [aid t] = preT t := by
    rw [heapPre_tree hnd hself ((preF F).length + 1) [] (by omega), heapPre_empty]
    simp
  simp only [hL]
  have hndt : (preT t).Nodup := (preT_infix_preF htF).sublist.nodup hnd
  rw [Bool.and_eq_true, Bool.and_eq_true, Bool.and_eq_true, Bool.and_eq_true]
  refine ⟨⟨⟨⟨?_, ?_⟩, ?_⟩, ?_⟩, ?_⟩
  · rw [reprH_parent hself, parF_root_none hnd htF]
    rfl
  · exact List.elem_iff.mpr hit
  · exact (nodupB_iff _).mpr hndt
  · rw [beq_iff_eq]
    have hw := walk_of_chain (reprH F) (fun nd => nd.nextEl) (preT t) hndt
      (fun j hj => reprH_nextEl_chain hnd htF hj) (preT t) [] ((preF F).length + 1)
      (by simp) (by omega)
    rw [head_preT] at hw
    exact hw
  · rw [beq_iff_eq]
    have hch : ∀ j ∈ (preT t).reverse,
        (reprH F j).prevEl = succIn (preT t).reverse j := by
      intro j hj
      rw [List.mem_reverse] at hj
      rw [reprH_prevEl_chain hnd htF hj]
      rfl
    have hw := walk_of_chain (reprH F) (fun nd => nd.prevEl) (preT t).reverse
      (by simpa using hndt) hch (preT t).reverse [] ((preF F).length + 1)
      (by simp) (by simpa using by omega)
    rw [List.head?_reverse] at hw
    exact hw

/-! ## Preorder segment structure lemmas -/

theorem preF_append (a b : List ATree) : preF (a ++ b) = preF a ++ preF b := by
  induction a with
  | nil => rfl
  | cons t ts ih =>
    rw [List.cons_append, preF, ih, preF, List.append_assoc]

theorem mem_of_getLast_some {α : Type _} {l : List α} {x : α} (h : l.getLast? = some x) : x ∈ l := by
  obtain ⟨hne, hx⟩ := List.mem_getLast?_eq_getLast (Option.mem_def.mpr h)
  rw [hx]
  exact List.getLast_mem hne

theorem succIn_eq_some_split {l : List Nat} {j v : Nat} (h : succIn l j = some v) :
    ∃ l1 l2, l = l1 ++ j :: v :: l2 ∧ j ∉ l1 := by
  induction l with
  | nil => exact Option.noConfusion h
  | cons x xs ih =>
    rw [succIn_cons] at h
    by_cases hx : x = j
    · rw [if_pos hx] at h
      match xs, h with
      | y :: xs', h =>
        injection h with h
        subst h
        exact ⟨[], xs', by simp [hx], List.not_mem_nil j⟩
    · rw [if_neg hx] at h
      obtain ⟨l1, l2, hsplit, hnm⟩ := ih h
      exact ⟨x :: l1, l2, by simp [hsplit], by
        intro hm
        rcases List.mem_cons.mp hm with hm | hm
        · exact hx hm.symm
        · exact hnm hm⟩

theorem succIn_mem {l : List Nat} {j v : Nat} (h : succIn l j = some v) : j ∈ l := by
  obtain ⟨l1, l2, hs, _⟩ := succIn_eq_some_split h
  rw [hs]
  simp

theorem predIn_middle {A B : List Nat} {j : Nat} (h : j ∉ B) :
    predIn (A ++ j :: B) j = A.getLast? := by
  unfold predIn
  rw [List.reverse_append, List.reverse_cons, List.append_assoc]
  rw [succIn_append_not_mem (by simpa using h)]
  rw [List.singleton_append, succIn_cons, if_pos rfl, List.head?_reverse]

theorem succIn_getLast_none {L : List Nat} {j : Nat} (hnd : L.Nodup)
    (h : L.getLast? = some j) : succIn L j = none := by
  obtain ⟨init, l2, hl2⟩ := List.append_of_mem (mem_of_getLast_some h)
  rw [hl2] at hnd h ⊢
  have hjn : j ∉ init := fun hm =>
    (List.disjoint_of_nodup_append hnd) hm (List.mem_cons_self j l2)
  rw [succIn_append_not_mem hjn, succIn_cons, if_pos rfl]
  match l2, h, hnd with
  | [], _, _ => rfl
  | y :: l2', h, hnd =>
    exfalso
    rw [List.getLast?_append_of_ne_nil _ (by simp)] at h
    have hjm : j ∈ y :: l2' := by
      rw [List.getLast?_cons_cons] at h
      exact mem_of_getLast_some h
    have hnd2 := hnd.of_append_right
    rcases List.mem_cons.mp hjm with hh | hh
    · exact (List.nodup_cons.mp hnd2).1 (hh ▸ List.mem_cons_self y l2')
    · exact (List.nodup_cons.mp hnd2).1 (List.mem_cons_of_mem y hh)

theorem preT_getLast (t : ATree) : (preT t).getLast? = some (lastA t) := by
  unfold lastA
  match hx : (preT t).getLast? with
  | some x => rw [List.getLastD_eq_getLast?, hx]; rfl
  | none =>
    exfalso
    exact preT_ne_nil t (List.getLast?_eq_none_iff.mp hx)

theorem lastA_mem (t : ATree) : lastA t ∈ preT t :=
  mem_of_getLast_some (preT_getLast t)

/-- Within a segment `X ++ S ++ Y`, a non-final element of `S` keeps its
`S`-internal successor. -/
theorem succIn_segment {X S Y : List Nat} {j : Nat} (hnd : (X ++ S ++ Y).Nodup)
    (hj : j ∈ S) (hne : S.getLast? ≠ some j) :
    succIn (X ++ S ++ Y) j = succIn S j := by
  have hjX : j ∉ X := fun hm =>
    (List.disjoint_of_nodup_append (by rwa [List.append_assoc] at hnd)) hm
      (List.mem_append.mpr (Or.inl hj))
  rw [List.append_assoc, succIn_append_not_mem hjX]
  exact succIn_append_isSome (succIn_isSome_of_ne_last hj hne)

/-! ## Parent and sibling structure of a well-formed forest -/

theorem nextEl_setF (h : Heap) (i : Nat) (f : HNode → HNode)
    (hf : ∀ nd, (f nd).nextEl = nd.nextEl) (j : Nat) :
    ((setF h i f) j).nextEl = (h j).nextEl := by
  by_cases hj : j = i <;> simp [setF, hj, hf]

theorem prevEl_setF (h : Heap) (i : Nat) (f : HNode → HNode)
    (hf : ∀ nd, (f nd).prevEl = nd.prevEl) (j : Nat) :
    ((setF h i f) j).prevEl = (h j).prevEl := by
  by_cases hj : j = i <;> simp [setF, hj, hf]

theorem decomposed_setF (h : Heap) (i : Nat) (f : HNode → HNode)
    (hf : ∀ nd, (f nd).decomposed = nd.decomposed) (j : Nat) :
    ((setF h i f) j).decomposed = (h j).decomposed := by
  by_cases hj : j = i <;> simp [setF, hj, hf]

theorem getLast_of_map_aid {ks : List ATree} {c : Nat}
    (h : (ks.map aid).getLast? = some c) :
    ∃ ck, ks.getLast? = some ck ∧ aid ck = c := by
  induction ks with
  | nil => exact Option.noConfusion h
  | cons k ks ih =>
    match ks, h with
    | [], h =>
      refine ⟨k, rfl, ?_⟩
      simpa using h
    | k' :: ks', h =>
      rw [List.map_cons, List.map_cons, List.getLast?_cons_cons] at h
      obtain ⟨ck, h1, h2⟩ := ih (by rw [List.map_cons]; exact h)
      exact ⟨ck, by rw [List.getLast?_cons_cons]; exact h1, h2⟩

theorem preF_ne_nil {ks : List ATree} (h : ks ≠ []) : preF ks ≠ [] := by
  match ks, h with
  | k :: ks', _ =>
    rw [preF]
    intro hc
    have := List.append_eq_nil.mp hc
    exact preT_ne_nil k this.1

theorem getLast_split {α : Type _} {l : List α} {x : α} (h : l.getLast? = some x) :
    ∃ init, l = init ++ [x] := by
  induction l with
  | nil => exact Option.noConfusion h
  | cons a l ih =>
    match l, h, ih with
    | [], h, _ =>
      have h' : a = x := by simpa using h
      exact ⟨[], by simp [h']⟩
    | b :: l', h, ih =>
      rw [List.getLast?_cons_cons] at h
      obtain ⟨init', hinit⟩ := ih h
      exact ⟨a :: init', by rw [List.cons_append, hinit]⟩

/-- The last node in pre-order of a tree with children is the last node of
its last child. -/
theorem lastA_last_kid {i : Nat} {d : NodeData} {cs : List ATree} {ck : ATree}
    (h : cs.getLast? = some ck) : lastA (ATree.mk i d cs) = lastA ck := by
  obtain ⟨init, hinit⟩ := getLast_split h
  have h1 : (preT (ATree.mk i d cs)).getLast? = (preT ck).getLast? := by
    rw [preT_eq, hinit, preF_append]
    have hne : preT ck ≠ [] := preT_ne_nil ck
    have hck : preF [ck] = preT ck := by rw [preF, preF, List.append_nil]
    rw [hck]
    rw [show (i :: (preF init ++ preT ck)) = [i] ++ (preF init ++ preT ck) from rfl]
    rw [List.getLast?_append_of_ne_nil _ (fun hc => hne (List.append_eq_nil.mp hc).2),
      List.getLast?_append_of_ne_nil _ hne]
  have h2 := preT_getLast (ATree.mk i d cs)
  have h3 := preT_getLast ck
  rw [h1, h3] at h2
  injection h2 with h2
  exact h2.symm

mutual
/-- The node reported as a parent inside a tree is a node of that tree. -/
theorem parT_parent_mem {n : Nat} {t : ATree} {q : Nat} (h : parT n t = some q) :
    q ∈ preT t := by
  match t with
  | .mk i d cs =>
    rw [parT] at h
    rw [preT]
    split at h
    · injection h with h
      exact h ▸ List.mem_cons_self i (preF cs)
    · exact List.mem_cons_of_mem i (parF_parent_mem h)

/-- The node reported as a parent inside a forest is a node of that forest. -/
theorem parF_parent_mem {n : Nat} {ts : List ATree} {q : Nat} (h : parF n ts = some q) :
    q ∈ preF ts := by
  match ts with
  | [] => exact Option.noConfusion h
  | t :: ts =>
    rw [parF] at h
    rw [preF]
    match hy : parT n t with
    | some r =>
      rw [hy] at h
      injection h with h
      exact List.mem_append.mpr (Or.inl (h ▸ parT_parent_mem hy))
    | none =>
      rw [hy] at h
      exact List.mem_append.mpr (Or.inr (parF_parent_mem h))
end

mutual
/-- Characterization of `parT`: the parent is a node whose child list
contains `n`. -/
theorem parT_char {n q : Nat} {t : ATree} (hnd : (preT t).Nodup)
    (h : parT n t = some q) :
    ∃ stq, findT q t = some stq ∧ n ∈ (akids stq).map aid := by
  match t with
  | .mk i d cs =>
    rw [preT] at hnd
    rw [parT] at h
    split at h
    · next hany =>
      injection h with h
      subst h
      refine ⟨ATree.mk i d cs, findT_self (ATree.mk i d cs), ?_⟩
      obtain ⟨c, hcm, hca⟩ := List.any_eq_true.mp hany
      rw [akids]
      exact List.mem_map.mpr ⟨c, hcm, of_decide_eq_true hca⟩
    · obtain ⟨stq, h1, h2⟩ := parF_char (List.nodup_cons.mp hnd).2 h
      have hqm : q ∈ preF cs := (findF_mem h1)
      refine ⟨stq, ?_, h2⟩
      rw [findT, if_neg (fun hh : i = q => (List.nodup_cons.mp hnd).1 (hh ▸ hqm))]
      exact h1

/-- Characterization of `parF`: the parent is a node whose child list
contains `n`. -/
theorem parF_char {n q : Nat} {ts : List ATree} (hnd : (preF ts).Nodup)
    (h : parF n ts = some q) :
    ∃ stq, findF q ts = some stq ∧ n ∈ (akids stq).map aid := by
  match ts with
  | [] => exact Option.noConfusion h
  | t :: ts =>
    rw [preF] at hnd
    rw [parF] at h
    match hy : parT n t with
    | some r =>
      rw [hy] at h
      injection h with h
      subst h
      obtain ⟨stq, h1, h2⟩ := parT_char hnd.of_append_left hy
      exact ⟨stq, by rw [findF, h1], h2⟩
    | none =>
      rw [hy] at h
      obtain ⟨stq, h1, h2⟩ := parF_char hnd.of_append_right h
      have hqm : q ∈ preF ts := findF_mem h1
      have hqt : q ∉ preT t := fun hz => List.disjoint_of_nodup_append hnd hz hqm
      exact ⟨stq, by rw [findF, findT_not_mem hqt]; exact h1, h2⟩
end

/-- A split of a mapped id list induces a split of the tree list itself. -/
theorem map_aid_split {n ns : Nat} : ∀ {ks : List ATree} {l1 l2 : List Nat},
    ks.map aid = l1 ++ n :: ns :: l2 →
    ∃ ks1 c c2 ks2, ks = ks1 ++ c :: c2 :: ks2 ∧ aid c = n ∧ aid c2 = ns := by
  intro ks
  induction ks with
  | nil =>
    intro l1 l2 h
    exfalso
    simp at h
  | cons k ks ih =>
    intro l1 l2 hsplit
    rw [List.map_cons] at hsplit
    match l1, hsplit with
    | [], hsplit =>
      rw [List.nil_append] at hsplit
      injection hsplit with h1 h2
      match ks, h2 with
      | k2 :: ks2', h2 =>
        rw [List.map_cons] at h2
        injection h2 with h3 _
        exact ⟨[], k, k2, ks2', by simp, h1, h3⟩
    | x :: l1', hsplit =>
      rw [List.cons_append] at hsplit
      injection hsplit with h1 h2
      obtain ⟨ks1, c, c2, ks2, hk, hc, hc2⟩ := ih h2
      exact ⟨k :: ks1, c, c2, ks2, by rw [List.cons_append, hk], hc, hc2⟩

/-- Splitting a successor relation on a mapped child list back to the
children themselves. -/
theorem succIn_map_split {ks : List ATree} {n ns : Nat}
    (h : succIn (ks.map aid) n = some ns) :
    ∃ ks1 c c2 ks2, ks = ks1 ++ c :: c2 :: ks2 ∧ aid c = n ∧ aid c2 = ns := by
  obtain ⟨l1, l2, hsplit, _⟩ := succIn_eq_some_split h
  exact map_aid_split hsplit

mutual
/-- The `tagOk` discipline is inherited by every found subtree of a tree. -/
theorem tagOk_findT {n : Nat} {t st : ATree} (hok : tagOkT t = true)
    (hx : findT n t = some st) : tagOkT st = true := by
  match t with
  | .mk i d cs =>
    rw [findT] at hx
    by_cases hin : i = n
    · rw [if_pos hin] at hx
      injection hx with hx
      subst hx
      exact hok
    · rw [if_neg hin] at hx
      rw [tagOkT, Bool.and_eq_true] at hok
      exact tagOk_findF hok.2 hx

/-- The `tagOk` discipline is inherited by every found subtree of a forest. -/
theorem tagOk_findF {n : Nat} {ts : List ATree} {st : ATree} (hok : tagOkF ts = true)
    (hx : findF n ts = some st) : tagOkT st = true := by
  match ts with
  | [] => exact Option.noConfusion hx
  | t :: ts =>
    rw [tagOkF, Bool.and_eq_true] at hok
    rw [findF] at hx
    match hy : findT n t with
    | some r =>
      rw [hy] at hx
      injection hx with hx
      subst hx
      exact tagOk_findT hok.1 hy
    | none =>
      rw [hy] at hx
      exact tagOk_findF hok.2 hx
end

/-- In a duplicate-free forest, finding a node that lives in the tree `t`
is the same as finding it inside `t`. -/
theorem findF_eq_findT {F : List ATree} (hnd : (preF F).Nodup) {t : ATree}
    (ht : t ∈ F) {j : Nat} (hj : j ∈ preT t) : findF j F = findT j t := by
  induction F with
  | nil => exact absurd ht (List.not_mem_nil t)
  | cons u ts ih =>
    rw [preF] at hnd
    rw [findF]
    rcases List.mem_cons.mp ht with h | h
    · subst h
      have : (findT j t).isSome = true := (findT_isSome_iff j t).mpr hj
      match hz : findT j t with
      | some r => rfl
      | none => rw [hz] at this; exact Bool.noConfusion this
    · have hmem : j ∈ preF ts := (preT_infix_preF h).subset hj
      have hnt : j ∉ preT u := fun hz => List.disjoint_of_nodup_append hnd hz hmem
      rw [findT_not_mem hnt]
      exact ih hnd.of_append_right h

/-- Every found subtree sits as a contiguous segment inside the pre-order
of its root tree. -/
theorem findF_root_infix {F : List ATree} (hnd : (preF F).Nodup) {n : Nat}
    {st : ATree} (hx : findF n F = some st) :
    ∃ t ∈ F, n ∈ preT t ∧ ∃ X Y, preT t = X ++ preT st ++ Y := by
  obtain ⟨t, ht, hnt⟩ := exists_root (findF_mem hx)
  have hft : findT n t = some st := by rw [← findF_eq_findT hnd ht hnt]; exact hx
  obtain ⟨X, Y, hXY⟩ := findT_seg hft
  exact ⟨t, ht, hnt, X, Y, hXY.symm⟩

/-- Inside a segment decomposition of a root tree, every non-final subtree
node keeps its subtree-internal pre-order successor. -/
theorem succIn_subtree {F : List ATree} (hnd : (preF F).Nodup) {t : ATree}
    (ht : t ∈ F) {st : ATree} {X Y : List Nat} (hdec : preT t = X ++ preT st ++ Y)
    {j : Nat} (hj : j ∈ preT st) (hne : j ≠ lastA st) :
    succIn (preT t) j = succIn (preT st) j := by
  have hndt : (preT t).Nodup := (preT_infix_preF ht).sublist.nodup hnd
  rw [hdec] at hndt ⊢
  refine succIn_segment hndt hj ?_
  rw [preT_getLast]
  intro hc
  injection hc with hc
  exact hne hc.symm

/-- When a node has a pre-order next sibling, the node standing directly
before that sibling in the root tree's pre-order is the last descendant of
the node's subtree (this is the value `extract` reads through
`self.next_sibling.previous_element`). -/
theorem sib_last {F : List ATree} (hnd : (preF F).Nodup) {n ns q : Nat}
    (hq : parF n F = some q) (hs : succIn (childIds F q) n = some ns) :
    ∃ t ∈ F, ∃ st, findF n F = some st ∧ n ∈ preT t ∧ ns ∈ preT t ∧
      (∃ X Y, preT t = X ++ preT st ++ Y) ∧
      predIn (preT t) ns = some (lastA st) ∧
      succIn (preT t) (lastA st) = some ns := by
  obtain ⟨stq, hstq, hnmem⟩ := parF_char hnd hq
  have hchild : childIds F q = (akids stq).map aid := by
    unfold childIds
    rw [hstq]
  rw [hchild] at hs
  obtain ⟨ks1, c, c2, ks2, hk, hc, hc2⟩ := succIn_map_split hs
  have hcmem : c ∈ akids stq := by rw [hk]; simp
  have hc2mem : c2 ∈ akids stq := by rw [hk]; simp
  have hfc : findF n F = some c := hc ▸ findF_child hnd hstq hcmem
  have hfc2 : findF ns F = some c2 := hc2 ▸ findF_child hnd hstq hc2mem
  obtain ⟨t, ht, hqt, A, B, hAB⟩ := findF_root_infix hnd hstq
  -- expose the two consecutive child segments inside the parent's segment
  rcases stq with ⟨i, d, cs⟩
  have hiq : i = q := findF_aid hstq
  rw [akids] at hk
  have hpre : preT (ATree.mk i d cs)
      = i :: (preF ks1 ++ (preT c ++ (preT c2 ++ preF ks2))) := by
    rw [preT_eq, hk, preF_append, preF, preF]
  -- decompose the preorder of c2 to isolate `ns` as a head
  have hc2pre : preT c2 = ns :: preF (akids c2) := by
    rcases c2 with ⟨i2, d2, cs2⟩
    rw [preT_eq, akids]
    rw [show (aid (ATree.mk i2 d2 cs2) : Nat) = i2 from rfl] at hc2
    rw [hc2]
  have hT : preT t = ((A ++ i :: preF ks1) ++ preT c)
      ++ ns :: (preF (akids c2) ++ (preF ks2 ++ B)) := by
    rw [hAB, hpre, hc2pre]
    simp [List.append_assoc]
  have hndt : (preT t).Nodup := (preT_infix_preF ht).sublist.nodup hnd
  have hnsnot : ns ∉ preF (akids c2) ++ (preF ks2 ++ B) := by
    rw [hT] at hndt
    exact (List.nodup_cons.mp hndt.of_append_right).1
  refine ⟨t, ht, c, hfc, ?_, ?_, ?_, ?_, ?_⟩
  · have hnc : n ∈ preT c := hc ▸ aid_mem_preT c
    rw [hT]
    exact List.mem_append.mpr (Or.inl (List.mem_append.mpr (Or.inr hnc)))
  · rw [hT]
    simp
  · refine ⟨A ++ i :: preF ks1, (preT c2 ++ preF ks2) ++ B, ?_⟩
    rw [hAB, hpre]
    simp [List.append_assoc]
  · rw [hT, predIn_middle hnsnot]
    rw [List.getLast?_append_of_ne_nil _ (preT_ne_nil c), preT_getLast]
  · obtain ⟨Pc0, hPc0⟩ := getLast_split (preT_getLast c)
    have hT2 : preT t = (((A ++ i :: preF ks1) ++ Pc0)
        ++ lastA c :: (ns :: (preF (akids c2) ++ (preF ks2 ++ B)))) := by
      rw [hT, hPc0]
      simp [List.append_assoc]
    have hlnot : lastA c ∉ (A ++ i :: preF ks1) ++ Pc0 := by
      have hnd2 := hndt
      rw [hT2] at hnd2
      intro hm
      exact (List.disjoint_of_nodup_append hnd2) hm
        (List.mem_cons_self (lastA c) (ns :: (preF (akids c2) ++ (preF ks2 ++ B))))
    rw [hT2, succIn_middle hlnot]
    rfl

/-- `_last_descendant`, run on any heap that agrees with the forest image on
the subtree of `n`, can only answer the last pre-order node of that
subtree. -/
theorem lastDescDown_correct {F : List ATree} (hnd : (preF F).Nodup)
    (hok : tagOkF F = true) (g : Heap) :
    ∀ (fuel n : Nat) (st : ATree), findF n F = some st →
      (∀ j ∈ preT st, g j = reprH F j) →
      ∀ r : Nat, lastDescDown g fuel n = some r → r = lastA st := by
  intro fuel
  induction fuel with
  | zero =>
    intro n st _ _ r h
    exact Option.noConfusion h
  | succ fuel ih =>
    intro n st hx hg r h
    have hmem : n ∈ preT st := findF_aid hx ▸ aid_mem_preT st
    have hgn : g n = reprH F n := hg n hmem
    rw [lastDescDown, hgn, reprH_contents hx, reprH_isTag hx] at h
    rcases st with ⟨i, d, cs⟩
    simp only [akids, adata] at h
    match hgl : (cs.map aid).getLast? with
    | none =>
      rw [hgl] at h
      injection h with h
      have hcs : cs = [] := List.map_eq_nil_iff.mp (List.getLast?_eq_none_iff.mp hgl)
      subst hcs
      have hin : (aid (ATree.mk i d []) : Nat) = n := findF_aid hx
      rw [← h, ← hin]
      rfl
    | some cval =>
      rw [hgl] at h
      by_cases hit : d.isTag = true
      · have h2 : (if d.isTag = true then lastDescDown g fuel cval else some n)
            = some r := h
        rw [if_pos hit] at h2
        obtain ⟨ck, hckl, hcka⟩ := getLast_of_map_aid hgl
        have hckm : ck ∈ cs := mem_of_getLast_some hckl
        have hfck : findF cval F = some ck :=
          hcka ▸ findF_child hnd hx (show ck ∈ akids (ATree.mk i d cs) from hckm)
        have hsub : ∀ j ∈ preT ck, g j = reprH F j := fun j hj =>
          hg j (by
            rw [preT_eq]
            exact List.mem_cons_of_mem i ((preT_infix_preF hckm).subset hj))
        rw [ih cval ck hfck hsub r h2, lastA_last_kid hckl]
      · exfalso
        have hokT := tagOk_findF hok hx
        rw [tagOkT, Bool.and_eq_true] at hokT
        have hor := hokT.1
        rw [Bool.or_eq_true] at hor
        rcases hor with hor | hor
        · exact hit hor
        · have hcs : cs = [] := by
            cases cs with
            | nil => rfl
            | cons a l => exact Bool.noConfusion hor
          subst hcs
          exact Option.noConfusion hgl

/-! ## `next_element` and `decomposed` effects of the extract surgery -/

theorem nextSib_setF (h : Heap) (i : Nat) (f : HNode → HNode)
    (hf : ∀ nd, (f nd).nextSib = nd.nextSib) (j : Nat) :
    ((setF h i f) j).nextSib = (h j).nextSib := by
  by_cases hj : j = i <;> simp [setF, hj, hf]

theorem exBridgeA_nextEl_ne (h1 : Heap) (self : Nat) (nextE : Option Nat) :
    Pointwise (exBridgeA h1 self nextE)
      (fun j nd => (h1 self).prevEl ≠ some j → nd.nextEl = (h1 j).nextEl) := by
  unfold exBridgeA
  split
  · next pe hpe =>
    split
    · intro j hne
      have hjp : j ≠ pe := fun hji => hne (by rw [hpe, hji])
      rw [setF_apply_ne _ _ _ j hjp]
    · intro j _
      rfl
  · intro j _
    rfl

theorem exBridgeB_nextEl (h2 : Heap) (self : Nat) (nextE : Option Nat) :
    Pointwise (exBridgeB h2 self nextE) (fun j nd => nd.nextEl = (h2 j).nextEl) := by
  unfold exBridgeB
  split
  · split
    · exact fun j =>
        nextEl_setF _ _ (fun nd => { nd with prevEl := (h2 self).prevEl }) (fun nd => rfl) j
    · exact fun j => rfl
  · exact fun j => rfl

theorem exClearOrder_nextEl_ne (h3 : Heap) (self last j : Nat) (hjl : j ≠ last) :
    (exClearOrder h3 self last j).nextEl = (h3 j).nextEl := by
  unfold exClearOrder
  rw [setF_apply_ne _ _ _ _ hjl]
  exact nextEl_setF _ _ (fun nd => { nd with prevEl := none }) (fun nd => rfl) j

theorem exClearOrder_nextEl_last (h3 : Heap) (self last : Nat) :
    (exClearOrder h3 self last last).nextEl = none := by
  unfold exClearOrder
  rw [setF_apply_self]

theorem exClearParent_nextEl (h5 : Heap) (self j : Nat) :
    (exClearParent h5 self j).nextEl = (h5 j).nextEl := by
  unfold exClearParent
  exact nextEl_setF _ _ (fun nd => { nd with parent := none }) (fun nd => rfl) j

theorem exSibA_nextEl (h6 : Heap) (self : Nat) :
    Pointwise (exSibA h6 self) (fun j nd => nd.nextEl = (h6 j).nextEl) := by
  unfold exSibA
  split
  · split
    · exact fun j =>
        nextEl_setF _ _ (fun nd => { nd with nextSib := (h6 self).nextSib }) (fun nd => rfl) j
    · exact fun j => rfl
  · exact fun j => rfl

theorem exSibB_nextEl (h7 : Heap) (self : Nat) :
    Pointwise (exSibB h7 self) (fun j nd => nd.nextEl = (h7 j).nextEl) := by
  unfold exSibB
  split
  · split
    · exact fun j =>
        nextEl_setF _ _ (fun nd => { nd with prevSib := (h7 self).prevSib }) (fun nd => rfl) j
    · exact fun j => rfl
  · exact fun j => rfl

theorem exClearSibs_nextEl (h8 : Heap) (self j : Nat) :
    (exClearSibs h8 self j).nextEl = (h8 j).nextEl :=
  nextEl_setF _ _ (fun nd => { nd with prevSib := none, nextSib := none }) (fun _ => rfl) j

/-- The link surgery truncates the `next_element` chain at the last
descendant. -/
theorem extractLinks_nextEl_last (h1 : Heap) (self last : Nat) :
    (extractLinks h1 self last last).nextEl = none := by
  unfold extractLinks
  rw [exClearSibs_nextEl, exSibB_nextEl _ _ last, exSibA_nextEl _ _ last,
    exClearParent_nextEl, exClearOrder_nextEl_last]

/-- The link surgery leaves the `next_element` of every node other than the
last descendant and the bridged outside predecessor unchanged. -/
theorem extractLinks_nextEl_other (h1 : Heap) (self last j : Nat)
    (hpe : (h1 self).prevEl ≠ some j) (hjl : j ≠ last) :
    (extractLinks h1 self last j).nextEl = (h1 j).nextEl := by
  unfold extractLinks
  rw [exClearSibs_nextEl, exSibB_nextEl _ _ j, exSibA_nextEl _ _ j,
    exClearParent_nextEl, exClearOrder_nextEl_ne _ _ _ _ hjl, exBridgeB_nextEl _ _ _ j]
  exact exBridgeA_nextEl_ne h1 self _ j hpe

theorem exBridgeA_decomposed (h1 : Heap) (self : Nat) (nextE : Option Nat) :
    Pointwise (exBridgeA h1 self nextE) (fun j nd => nd.decomposed = (h1 j).decomposed) := by
  unfold exBridgeA
  split
  · split
    · exact fun j =>
        decomposed_setF _ _ (fun nd => { nd with nextEl := nextE }) (fun nd => rfl) j
    · exact fun j => rfl
  · exact fun j => rfl

theorem exBridgeB_decomposed (h2 : Heap) (self : Nat) (nextE : Option Nat) :
    Pointwise (exBridgeB h2 self nextE) (fun j nd => nd.decomposed = (h2 j).decomposed) := by
  unfold exBridgeB
  split
  · split
    · exact fun j =>
        decomposed_setF _ _ (fun nd => { nd with prevEl := (h2 self).prevEl })
          (fun nd => rfl) j
    · exact fun j => rfl
  · exact fun j => rfl

theorem exClearOrder_decomposed (h3 : Heap) (self last j : Nat) :
    (exClearOrder h3 self last j).decomposed = (h3 j).decomposed := by
  unfold exClearOrder
  rw [decomposed_setF _ last (fun nd => { nd with nextEl := none }) (fun nd => rfl) j,
    decomposed_setF _ self (fun nd => { nd with prevEl := none }) (fun nd => rfl) j]

theorem exClearParent_decomposed (h5 : Heap) (self j : Nat) :
    (exClearParent h5 self j).decomposed = (h5 j).decomposed := by
  unfold exClearParent
  exact decomposed_setF _ _ (fun nd => { nd with parent := none }) (fun nd => rfl) j

theorem exSibA_decomposed (h6 : Heap) (self : Nat) :
    Pointwise (exSibA h6 self) (fun j nd => nd.decomposed = (h6 j).decomposed) := by
  unfold exSibA
  split
  · split
    · exact fun j =>
        decomposed_setF _ _ (fun nd => { nd with nextSib := (h6 self).nextSib })
          (fun nd => rfl) j
    · exact fun j => rfl
  · exact fun j => rfl

theorem exSibB_decomposed (h7 : Heap) (self : Nat) :
    Pointwise (exSibB h7 self) (fun j nd => nd.decomposed = (h7 j).decomposed) := by
  unfold exSibB
  split
  · split
    · exact fun j =>
        decomposed_setF _ _ (fun nd => { nd with prevSib := (h7 self).prevSib })
          (fun nd => rfl) j
    · exact fun j => rfl
  · exact fun j => rfl

theorem exClearSibs_decomposed (h8 : Heap) (self j : Nat) :
    (exClearSibs h8 self j).decomposed = (h8 j).decomposed :=
  decomposed_setF _ _ (fun nd => { nd with prevSib := none, nextSib := none }) (fun _ => rfl) j

/-- The link surgery never sets `decomposed`. -/
theorem extractLinks_decomposed (h1 : Heap) (self last j : Nat) :
    (extractLinks h1 self last j).decomposed = (h1 j).decomposed := by
  unfold extractLinks
  rw [exClearSibs_decomposed, exSibB_decomposed _ _ j, exSibA_decomposed _ _ j,
    exClearParent_decomposed, exClearOrder_decomposed, exBridgeB_decomposed _ _ _ j,
    exBridgeA_decomposed _ _ _ j]

/-- `extract` never sets `decomposed`. -/
theorem hExtract_ok_decomposed {fuel : Nat} {h : Heap} {self : Nat}
    {selfIdx : Option Nat} {h' : Heap}
    (hok : hExtract fuel h self selfIdx = some h') (j : Nat) :
    (h' j).decomposed = (h j).decomposed := by
  unfold hExtract at hok
  simp only [bind, Option.bind] at hok
  repeat' split at hok
  all_goals
    first
    | exact (Option.noConfusion hok)
    | (injection hok with hok; subst hok;
       rw [extractLinks_decomposed]
       try (apply decomposed_setF; intro nd; rfl))

/-! ## Roots of a forest -/

mutual
/-- A non-root member of a tree has a parent in that tree. -/
theorem parT_isSome {n : Nat} {t : ATree} (hm : n ∈ preT t) (hne : n ≠ aid t) :
    (parT n t).isSome = true := by
  match t with
  | .mk i d cs =>
    rw [preT] at hm
    rw [parT]
    rcases List.mem_cons.mp hm with h | h
    · exact absurd h hne
    · split
      · rfl
      · next hany =>
        refine parF_isSome h ?_
        intro c hc hcn
        exact hany (List.any_eq_true.mpr ⟨c, hc, by rw [← hcn]; simp⟩)

/-- A member of a forest that is no tree's root id has a parent. -/
theorem parF_isSome {n : Nat} {ts : List ATree} (hm : n ∈ preF ts)
    (hne : ∀ c ∈ ts, n ≠ aid c) : (parF n ts).isSome = true := by
  match ts with
  | [] => exact absurd hm (List.not_mem_nil n)
  | t :: ts =>
    rw [preF] at hm
    rw [parF]
    rcases List.mem_append.mp hm with h | h
    · have := parT_isSome h (hne t (List.mem_cons_self t ts))
      match hy : parT n t with
      | some q => rfl
      | none => rw [hy] at this; exact Bool.noConfusion this
    · match hy : parT n t with
      | some q => rfl
      | none => exact parF_isSome h (fun c hc => hne c (List.mem_cons_of_mem t hc))
end

/-- A parentless node of a forest is the root of one of its trees. -/
theorem root_of_parF_none {F : List ATree} {n : Nat} (hm : n ∈ preF F)
    (hp : parF n F = none) : ∃ t ∈ F, aid t = n := by
  by_contra hc
  push_neg at hc
  have := parF_isSome hm (fun c hcm => (hc c hcm).symm)
  rw [hp] at this
  exact Bool.noConfusion this

/-- A node's parent never lies inside the node's own subtree. -/
theorem parent_not_in_subtree {F : List ATree} (hnd : (preF F).Nodup) {n q : Nat}
    {st : ATree} (hq : parF n F = some q) (hst : findF n F = some st) :
    q ∉ preT st := by
  obtain ⟨stq, hstq, hnm⟩ := parF_char hnd hq
  obtain ⟨c, hcm, hca⟩ := List.mem_map.mp hnm
  have hfc : findF n F = some c := hca ▸ findF_child hnd hstq hcm
  have hcst : c = st := by
    rw [hfc] at hst
    injection hst
  subst hcst
  rcases stq with ⟨i, d, cs⟩
  have hiq : (aid (ATree.mk i d cs) : Nat) = q := findF_aid hstq
  rw [aid] at hiq
  have hndq : (preT (ATree.mk i d cs)).Nodup := (findF_seg hstq).sublist.nodup hnd
  rw [preT_eq] at hndq
  have hsub : preT c ⊆ preF cs := (preT_infix_preF (show c ∈ cs from hcm)).subset
  intro hqin
  exact (List.nodup_cons.mp hndq).1 (hiq ▸ hsub hqin)

/-- On any heap whose order pointers agree with the forest image, the link
surgery of `extract` leaves the subtree of `n` holding exactly its internal
pre-order `next_element` chain. -/
theorem extract_links_chain {F : List ATree} (hnd : (preF F).Nodup) {n : Nat}
    {st : ATree} (hst : findF n F = some st) (g : Heap)
    (hgn : ∀ j, (g j).nextEl = (reprH F j).nextEl)
    (hgp : ∀ j, (g j).prevEl = (reprH F j).prevEl) :
    ∀ j ∈ preT st, ((extractLinks g n (lastA st)) j).nextEl = succIn (preT st) j := by
  obtain ⟨t, ht, hnt, X, Y, hdec⟩ := findF_root_infix hnd hst
  have hndt : (preT t).Nodup := (preT_infix_preF ht).sublist.nodup hnd
  have hndst : (preT st).Nodup := by
    rw [hdec] at hndt
    exact hndt.of_append_left.of_append_right
  have hsthead : ∃ tl, preT st = n :: tl := by
    rcases st with ⟨i, d, cs⟩
    have hin : (aid (ATree.mk i d cs) : Nat) = n := findF_aid hst
    rw [aid] at hin
    exact ⟨preF cs, by rw [preT_eq, hin]⟩
  obtain ⟨tl, htl⟩ := hsthead
  have hXt : preT t = X ++ n :: (tl ++ Y) := by
    rw [hdec, htl]
    simp
  have hpe : ∀ j ∈ preT st, (g n).prevEl ≠ some j := by
    intro j hj
    rw [hgp n, reprH_prevEl hst, rootF_eq hnd ht hnt]
    have hnnot : n ∉ tl ++ Y := by
      have hnd2 := hndt
      rw [hXt] at hnd2
      exact (List.nodup_cons.mp hnd2.of_append_right).1
    have hbind : (some t).bind (fun r => predIn (preT r) n) = predIn (preT t) n := rfl
    rw [hbind, hXt, predIn_middle hnnot]
    intro hXl
    have hjX : j ∈ X := mem_of_getLast_some hXl
    have hnd3 := hndt
    rw [hdec] at hnd3
    exact (List.disjoint_of_nodup_append hnd3.of_append_left) hjX hj
  intro j hj
  by_cases hjl : j = lastA st
  · subst hjl
    rw [extractLinks_nextEl_last]
    exact (succIn_getLast_none hndst (preT_getLast st)).symm
  · rw [extractLinks_nextEl_other g n _ j (hpe j hj) hjl, hgn j]
    have hjt : j ∈ preT t := by
      rw [hdec]
      exact List.mem_append.mpr (Or.inl (List.mem_append.mpr (Or.inr hj)))
    rw [reprH_nextEl_chain hnd ht hjt]
    exact succIn_subtree hnd ht hdec hj hjl

/-- Dissection of `extract` on the image of a well-formed forest: on success
the extracted subtree carries exactly its internal pre-order `next_element`
chain, and keeps its `isTag` flags and `contents` lists. -/
theorem hExtract_repr_subtree {F : List ATree} (hwf : wfForest F = true)
    {fuel n : Nat} {st : ATree} (hst : findF n F = some st) {h1 : Heap}
    (hok : hExtract fuel (reprH F) n none = some h1) :
    (∀ j ∈ preT st, (h1 j).nextEl = succIn (preT st) j) ∧
    (∀ j ∈ preT st, (h1 j).isTag = (reprH F j).isTag ∧
      (h1 j).contents = (reprH F j).contents) := by
  rw [wfForest, Bool.and_eq_true] at hwf
  have hnd : (preF F).Nodup := (nodupB_iff _).mp hwf.1
  have hto : tagOkF F = true := hwf.2
  unfold hExtract at hok
  simp only [bind, Option.bind] at hok
  rw [reprH_parent hst] at hok
  match hq : parF n F with
  | none =>
    rw [hq] at hok
    dsimp only [] at hok
    have hns : (reprH F n).nextSib = none := by
      rw [reprH_nextSib hst, hq]
      rfl
    rw [hns] at hok
    match hld : lastDescDown (reprH F) fuel n with
    | none =>
      rw [hld] at hok
      exact Option.noConfusion hok
    | some r =>
      rw [hld] at hok
      have hr : r = lastA st :=
        lastDescDown_correct hnd hto (reprH F) fuel n st hst (fun j _ => rfl) r hld
      injection hok with hok
      subst hok
      subst hr
      refine ⟨extract_links_chain hnd hst (reprH F) (fun j => rfl) (fun j => rfl), ?_⟩
      intro j hj
      exact ⟨(extractLinks_dataEq _ _ _ j).1, (extractLinks_dataEq _ _ _ j).2.2.2.2⟩
  | some q =>
    rw [hq] at hok
    dsimp only [] at hok
    match hidx : idxOfId n ((reprH F) q).contents with
    | none =>
      rw [hidx] at hok
      exact Option.noConfusion hok
    | some i =>
      rw [hidx] at hok
      dsimp only [] at hok
      set g := setF (reprH F) q (fun nd => { nd with contents := nd.contents.eraseIdx i })
        with hg
      have hgn : ∀ j, (g j).nextEl = (reprH F j).nextEl := fun j => by
        rw [hg]
        exact nextEl_setF (reprH F) q
          (fun nd => { nd with contents := nd.contents.eraseIdx i }) (fun nd => rfl) j
      have hgp : ∀ j, (g j).prevEl = (reprH F j).prevEl := fun j => by
        rw [hg]
        exact prevEl_setF (reprH F) q
          (fun nd => { nd with contents := nd.contents.eraseIdx i }) (fun nd => rfl) j
      have hgs : ∀ j, (g j).nextSib = (reprH F j).nextSib := fun j => by
        rw [hg]
        exact nextSib_setF (reprH F) q
          (fun nd => { nd with contents := nd.contents.eraseIdx i }) (fun nd => rfl) j
      have hqnot : q ∉ preT st := parent_not_in_subtree hnd hq hst
      have hgsub : ∀ j ∈ preT st, g j = reprH F j := fun j hj => by
        rw [hg]
        exact setF_apply_ne (reprH F) q
          (fun nd => { nd with contents := nd.contents.eraseIdx i }) j
          (fun hjq => hqnot (hjq ▸ hj))
      have hnsv : (g n).nextSib = succIn (childIds F q) n := by
        rw [hgs n, reprH_nextSib hst, hq]
        rfl
      rw [hnsv] at hok
      match hsb : succIn (childIds F q) n with
      | some ns =>
        rw [hsb] at hok
        dsimp only [] at hok
        obtain ⟨t', ht', st', hfst', hnt', hnst', _, hpred, _⟩ := sib_last hnd hq hsb
        have hstst : st' = st := by
          rw [hfst'] at hst
          injection hst
        subst hstst
        obtain ⟨stns, hstns⟩ := findF_exists_of_mem (preT_subset_preF ht' hnst')
        have hpe : (g ns).prevEl = some (lastA st') := by
          rw [hgp ns, reprH_prevEl hstns, rootF_eq hnd ht' hnst']
          exact hpred
        rw [hpe] at hok
        dsimp only [] at hok
        injection hok with hok
        subst hok
        refine ⟨extract_links_chain hnd hst g hgn hgp, ?_⟩
        intro j hj
        refine ⟨(extractLinks_dataEq _ _ _ j).1.trans ?_,
          (extractLinks_dataEq _ _ _ j).2.2.2.2.trans ?_⟩ <;> rw [hgsub j hj]
      | none =>
        rw [hsb] at hok
        dsimp only [] at hok
        match hld : lastDescDown g fuel n with
        | none =>
          rw [hld] at hok
          exact Option.noConfusion hok
        | some r =>
          rw [hld] at hok
          have hr : r = lastA st :=
            lastDescDown_correct hnd hto g fuel n st hst (fun j hj => hgsub j hj) r hld
          injection hok with hok
          subst hok
          subst hr
          refine ⟨extract_links_chain hnd hst g hgn hgp, ?_⟩
          intro j hj
          refine ⟨(extractLinks_dataEq _ _ _ j).1.trans ?_,
            (extractLinks_dataEq _ _ _ j).2.2.2.2.trans ?_⟩ <;> rw [hgsub j hj]

/-- The clearing loop of `decompose`, run along a duplicate-free
`next_element` chain, blanks exactly the nodes of the chain. -/
theorem decomposeLoop_spec : ∀ (L : List Nat), L.Nodup →
    ∀ (h : Heap) (fuel : Nat) (h2 : Heap),
      (∀ j ∈ L, (h j).nextEl = succIn L j) →
      decomposeLoop h fuel L.head? = some h2 →
      (∀ j ∈ L, h2 j = blankNode (h j)) ∧ (∀ j, j ∉ L → h2 j = h j) := by
  intro L
  induction L with
  | nil =>
    intro _ h fuel h2 _ hrun
    have hid : decomposeLoop h fuel none = some h := by cases fuel <;> rfl
    have hrun' : decomposeLoop h fuel none = some h2 := hrun
    rw [hid] at hrun'
    injection hrun' with hrun'
    subst hrun'
    exact ⟨fun j hj => absurd hj (List.not_mem_nil j), fun j _ => rfl⟩
  | cons i rest ih =>
    intro hnd h fuel h2 hch hrun
    match fuel with
    | 0 => exact Option.noConfusion hrun
    | fuel + 1 =>
      have hrun' : decomposeLoop (setF h i blankNode) fuel ((h i).nextEl) = some h2 := hrun
      have hnx : (h i).nextEl = rest.head? := by
        have hx := hch i (List.mem_cons_self i rest)
        rw [succIn_cons, if_pos rfl] at hx
        exact hx
      rw [hnx] at hrun'
      have hndr := (List.nodup_cons.mp hnd).2
      have hinr : i ∉ rest := (List.nodup_cons.mp hnd).1
      have hch2 : ∀ j ∈ rest, ((setF h i blankNode) j).nextEl = succIn rest j := by
        intro j hj
        have hji : j ≠ i := fun hji => hinr (hji ▸ hj)
        rw [setF_apply_ne _ _ _ j hji]
        have hx := hch j (List.mem_cons_of_mem i hj)
        rw [succIn_cons, if_neg (fun hij : i = j => hji hij.symm)] at hx
        exact hx
      obtain ⟨hin, hout⟩ := ih hndr (setF h i blankNode) fuel h2 hch2 hrun'
      constructor
      · intro j hj
        rcases List.mem_cons.mp hj with hj | hj
        · subst hj
          rw [hout j hinr, setF_apply_self]
        · have hji : j ≠ i := fun hji => hinr (hji ▸ hj)
          rw [hin j hj, setF_apply_ne _ _ _ j hji]
      · intro j hj
        have hjr : j ∉ rest := fun hx => hj (List.mem_cons_of_mem i hx)
        have hji : j ≠ i := fun hx => hj (hx ▸ List.mem_cons_self i rest)
        rw [hout j hjr, setF_apply_ne _ _ _ j hji]

/-- C5.  After `decompose(node)` on the image of a well-formed forest, every
former descendant of the node, the node included, reports `decomposed` and
has no parent, sibling, or document-order links and no contents; every other
node keeps `decomposed = False` and its intrinsic data: the clearing walk
stays inside the extracted subtree. -/
theorem c5_decompose_poisons_subtree (F : List ATree) (fuel n : Nat) (st : ATree)
    (h2 : Heap) (hwf : wfForest F = true) (hst : findF n F = some st)
    (hok : hDecompose fuel (reprH F) n = some h2) :
    (∀ j ∈ preT st, (h2 j).decomposed = true ∧ (h2 j).parent = none ∧
      (h2 j).prevSib = none ∧ (h2 j).nextSib = none ∧
      (h2 j).prevEl = none ∧ (h2 j).nextEl = none ∧ (h2 j).contents = []) ∧
    (∀ j, j ∉ preT st → (h2 j).decomposed = false ∧
      (h2 j).name = (reprH F j).name ∧ (h2 j).attrs = (reprH F j).attrs ∧
      (h2 j).text = (reprH F j).text) := by
  have hwf' := hwf
  rw [wfForest, Bool.and_eq_true] at hwf'
  have hnd : (preF F).Nodup := (nodupB_iff _).mp hwf'.1
  have hto : tagOkF F = true := hwf'.2
  unfold hDecompose at hok
  simp only [bind, Option.bind] at hok
  match hex : hExtract fuel (reprH F) n none with
  | none =>
    rw [hex] at hok
    exact Option.noConfusion hok
  | some h1 =>
    rw [hex] at hok
    dsimp only [] at hok
    obtain ⟨hchain, hdata⟩ := hExtract_repr_subtree hwf hst hex
    have hsthead : (preT st).head? = some n := by rw [head_preT, findF_aid hst]
    have hndst : (preT st).Nodup := (findF_seg hst).sublist.nodup hnd
    have hrun : decomposeLoop h1 fuel (preT st).head? = some h2 := by
      rw [hsthead]
      exact hok
    obtain ⟨hin, hout⟩ := decomposeLoop_spec (preT st) hndst h1 fuel h2 hchain hrun
    constructor
    · intro j hj
      rw [hin j hj]
      refine ⟨rfl, rfl, rfl, rfl, rfl, rfl, ?_⟩
      obtain ⟨stj, hstj⟩ := findF_exists_of_mem ((findF_seg hst).subset hj)
      have hitag := (hdata j hj).1
      have hcont := (hdata j hj).2
      rw [reprH_isTag hstj] at hitag
      rw [reprH_contents hstj] at hcont
      by_cases hT : (h1 j).isTag = true
      · simp [blankNode, hT]
      · have hdT : (adata stj).isTag = false := by
          rw [← hitag]
          exact Bool.eq_false_iff.mpr hT
        have hokj : tagOkT stj = true := tagOk_findF hto hstj
        rcases stj with ⟨i2, d2, cs2⟩
        rw [tagOkT, Bool.and_eq_true, Bool.or_eq_true] at hokj
        rw [adata] at hdT
        have hcs : cs2 = [] := by
          rcases hokj.1 with hh | hh
          · rw [hdT] at hh
            exact Bool.noConfusion hh
          · cases cs2 with
            | nil => rfl
            | cons a l => exact Bool.noConfusion hh
        subst hcs
        rw [akids, List.map_nil] at hcont
        simp [blankNode, hT, hcont]
    · intro j hj
      rw [hout j hj]
      have hdq := hExtract_ok_dataq hex j
      refine ⟨?_, hdq.2.1.trans rfl, hdq.2.2.1.trans rfl, hdq.2.2.2.trans rfl⟩
      rw [hExtract_ok_decomposed hex j]
      unfold reprH
      split <;> rfl

/-- Witness for C5: decomposing the `b` subtree of a concrete forest. -/
theorem c5_witness :
    wfForest wForest5 = true ∧ findF 1 wForest5 = some wSt5 ∧
    ((∀ j ∈ preT wSt5, (wH5 j).decomposed = true ∧ (wH5 j).parent = none ∧
        (wH5 j).prevSib = none ∧ (wH5 j).nextSib = none ∧
        (wH5 j).prevEl = none ∧ (wH5 j).nextEl = none ∧ (wH5 j).contents = []) ∧
      (∀ j, j ∉ preT wSt5 → (wH5 j).decomposed = false ∧
        (wH5 j).name = (reprH wForest5 j).name ∧
        (wH5 j).attrs = (reprH wForest5 j).attrs ∧
        (wH5 j).text = (reprH wForest5 j).text)) :=
  ⟨by decide, rfl, c5_decompose_poisons_subtree wForest5 9 1 wSt5 wH5 (by decide) rfl rfl⟩

/-- C1, counterexample: on the well-formed chain `a > b > c`, the single
operation `b.insert(0, a)` — inserting a node below its own descendant,
which `Tag.insert` accepts since it only rejects `new_child is self` —
succeeds and leaves a state in which the document-order walk no longer
visits the nodes in pre-order (the `next_element` links now form a cycle
between `a` and `b` and no parentless root exists). -/
theorem c1_counterexample :
    wfForest wForest1c = true ∧
    (runOps [TreeOp.ins 9 1 0 (some 0)] (reprH wForest1c)).map
      (fun h => OrderInvB h (preF wForest1c) 9) = some false := by
  constructor
  · decide
  · decide

/-- Generalisation of the order invariant to any id list with the same
members and any sufficient fuel. -/
theorem wf_order_invariant_gen (F : List ATree) (hwf : wfForest F = true)
    (ids : List Nat) (hids : ∀ i, i ∈ ids ↔ i ∈ preF F)
    (fuel : Nat) (hfuel : (preF F).length + 1 ≤ fuel) :
    OrderInvB (reprH F) ids fuel = true := by
  rw [wfForest, Bool.and_eq_true] at hwf
  have hnd : (preF F).Nodup := (nodupB_iff _).mp hwf.1
  rw [OrderInvB, List.all_eq_true]
  intro i hi
  rw [List.any_eq_true]
  obtain ⟨t, htF, hit⟩ := exists_root ((hids i).mp hi)
  have hself : findF (aid t) F = some t := findF_self_of_mem hnd htF
  refine ⟨aid t, (hids (aid t)).mpr (preT_subset_preF htF (aid_mem_preT t)), ?_⟩
  have hlen : (preT t).length ≤ (preF F).length :=
    List.Sublist.length_le (preT_infix_preF htF).sublist
  have hL : heapPre (reprH F) fuel [aid t] = preT t := by
    rw [heapPre_tree hnd hself fuel [] (by omega), heapPre_empty]
    simp
  simp only [hL]
  have hndt : (preT t).Nodup := (preT_infix_preF htF).sublist.nodup hnd
  rw [Bool.and_eq_true, Bool.and_eq_true, Bool.and_eq_true, Bool.and_eq_true]
  refine ⟨⟨⟨⟨?_, ?_⟩, ?_⟩, ?_⟩, ?_⟩
  · rw [reprH_parent hself, parF_root_none hnd htF]
    rfl
  · exact List.elem_iff.mpr hit
  · exact (nodupB_iff _).mpr hndt
  · rw [beq_iff_eq]
    have hw := walk_of_chain (reprH F) (fun nd => nd.nextEl) (preT t) hndt
      (fun j hj => reprH_nextEl_chain hnd htF hj) (preT t) [] fuel
      (by simp) (by omega)
    rw [head_preT] at hw
    exact hw
  · rw [beq_iff_eq]
    have hch : ∀ j ∈ (preT t).reverse,
        (reprH F j).prevEl = succIn (preT t).reverse j := by
      intro j hj
      rw [List.mem_reverse] at hj
      rw [reprH_prevEl_chain hnd htF hj]
      rfl
    have hw := walk_of_chain (reprH F) (fun nd => nd.prevEl) (preT t).reverse
      (by simpa using hndt) hch (preT t).reverse [] fuel
      (by simp) (by simpa using by omega)
    rw [List.head?_reverse] at hw
    exact hw

/-! ## Structure of subtree removal -/

theorem aid_removeT (n : Nat) (t : ATree) : aid (removeT n t) = aid t := by
  rcases t with ⟨i, d, cs⟩
  rw [removeT, aid, aid]

mutual
theorem removeT_id {n : Nat} {t : ATree} (h : n ∉ preT t) : removeT n t = t := by
  match t with
  | .mk i d cs =>
    rw [removeT, removeF_id (fun hm => h (by rw [preT_eq]; exact List.mem_cons_of_mem i hm))]

theorem removeF_id {n : Nat} {ts : List ATree} (h : n ∉ preF ts) : removeF n ts = ts := by
  match ts with
  | [] => rfl
  | t :: ts =>
    rw [preF] at h
    have hnt : n ∉ preT t := fun hm => h (List.mem_append.mpr (Or.inl hm))
    have hns : n ∉ preF ts := fun hm => h (List.mem_append.mpr (Or.inr hm))
    rw [removeF, if_neg (fun ha : aid t = n => hnt (ha ▸ aid_mem_preT t)),
      removeT_id hnt, removeF_id hns]
end

theorem map_aid_removeF {n : Nat} : ∀ {cs : List ATree},
    (removeF n cs).map aid = (cs.map aid).filter (fun x => decide (x ≠ n)) := by
  intro cs
  induction cs with
  | nil => rfl
  | cons c cs ih =>
    rw [removeF]
    by_cases hc : aid c = n
    · rw [if_pos hc, List.map_cons, List.filter_cons]
      simp [hc, ih]
    · rw [if_neg hc, List.map_cons, List.map_cons, List.filter_cons]
      simp [hc, aid_removeT, ih]

mutual
/-- Removing a found subtree from a tree removes exactly its pre-order
segment. -/
theorem preT_removeT {n : Nat} {t st : ATree} (hnd : (preT t).Nodup)
    (hx : findT n t = some st) (hne : n ≠ aid t) :
    ∃ X Y, preT t = X ++ preT st ++ Y ∧ preT (removeT n t) = X ++ Y := by
  match t with
  | .mk i d cs =>
    rw [findT] at hx
    rw [if_neg (fun hin : i = n => hne (by rw [aid, hin]))] at hx
    rw [preT_eq] at hnd
    obtain ⟨X, Y, h1, h2⟩ := preF_removeF (List.nodup_cons.mp hnd).2 hx
    refine ⟨i :: X, Y, ?_, ?_⟩
    · rw [preT_eq, h1]
      simp
    · rw [removeT, preT_eq, h2]
      rfl

/-- Removing a found subtree from a forest removes exactly its pre-order
segment. -/
theorem preF_removeF {n : Nat} {ts : List ATree} {st : ATree}
    (hnd : (preF ts).Nodup) (hx : findF n ts = some st) :
    ∃ X Y, preF ts = X ++ preT st ++ Y ∧ preF (removeF n ts) = X ++ Y := by
  match ts with
  | [] => exact Option.noConfusion hx
  | t :: ts =>
    rw [findF] at hx
    rw [preF] at hnd
    have hdisj := List.disjoint_of_nodup_append hnd
    match hy : findT n t with
    | some r =>
      rw [hy] at hx
      injection hx with hx
      subst hx
      by_cases haid : aid t = n
      · have hteq : r = t := by
          rcases t with ⟨i, d, cs⟩
          rw [aid] at haid
          rw [findT, if_pos haid] at hy
          injection hy with hy
          exact hy.symm
        subst hteq
        have hnts : n ∉ preF ts := fun hm => hdisj (haid ▸ aid_mem_preT r) hm
        refine ⟨[], preF ts, by rw [preF]; rfl, ?_⟩
        rw [removeF, if_pos haid, removeF_id hnts]
        rfl
      · have hne : n ≠ aid t := fun h => haid h.symm
        obtain ⟨X, Y, h1, h2⟩ := preT_removeT hnd.of_append_left hy hne
        have hnts : n ∉ preF ts := fun hm => hdisj (findT_mem hy) hm
        refine ⟨X, Y ++ preF ts, ?_, ?_⟩
        · rw [preF, h1]
          simp
        · rw [removeF, if_neg haid, preF, h2, removeF_id hnts]
          simp
    | none =>
      rw [hy] at hx
      have hnt : n ∉ preT t := fun hm => by
        have hs := (findT_isSome_iff n t).mpr hm
        rw [hy] at hs
        exact Bool.noConfusion hs
      obtain ⟨X, Y, h1, h2⟩ := preF_removeF hnd.of_append_right hx
      refine ⟨preT t ++ X, Y, ?_, ?_⟩
      · rw [preF, h1]
        simp
      · have haid : ¬aid t = n := fun ha => hnt (ha ▸ aid_mem_preT t)
        rw [removeF, if_neg haid, removeT_id hnt, preF, h2]
        simp
end

mutual
theorem tagOk_removeT {n : Nat} {t : ATree} (h : tagOkT t = true) :
    tagOkT (removeT n t) = true := by
  match t with
  | .mk i d cs =>
    rw [tagOkT, Bool.and_eq_true, Bool.or_eq_true] at h
    rw [removeT, tagOkT, Bool.and_eq_true, Bool.or_eq_true]
    refine ⟨?_, tagOk_removeF h.2⟩
    rcases h.1 with hh | hh
    · exact Or.inl hh
    · right
      have hcs : cs = [] := by
        cases cs with
        | nil => rfl
        | cons a l => exact Bool.noConfusion hh
      subst hcs
      rfl
theorem tagOk_removeF {n : Nat} {ts : List ATree} (h : tagOkF ts = true) :
    tagOkF (removeF n ts) = true := by
  match ts with
  | [] => rfl
  | t :: ts =>
    rw [tagOkF, Bool.and_eq_true] at h
    rw [removeF]
    by_cases ha : aid t = n
    · rw [if_pos ha]
      exact tagOk_removeF h.2
    · rw [if_neg ha, tagOkF, Bool.and_eq_true]
      exact ⟨tagOk_removeT h.1, tagOk_removeF h.2⟩
end

/-! ## Search and parent lookups after a removal -/

theorem findF_map_removeT_id {n : Nat} {ts : List ATree} (h : n ∉ preF ts) (j : Nat) :
    (findF j ts).map (removeT n) = findF j ts := by
  match hy : findF j ts with
  | none => rfl
  | some r =>
    have hnr : n ∉ preT r := fun hm => h ((findF_seg hy).subset hm)
    simp [removeT_id hnr]

theorem any_aid_removeF {n j : Nat} (hjn : j ≠ n) : ∀ {cs : List ATree},
    (removeF n cs).any (fun c => decide (aid c = j)) = cs.any (fun c => decide (aid c = j)) := by
  intro cs
  induction cs with
  | nil => rfl
  | cons c cs ih =>
    rw [removeF]
    by_cases hc : aid c = n
    · rw [if_pos hc, List.any_cons, ih]
      have hcj : decide (aid c = j) = false := by
        simp only [decide_eq_false_iff_not]
        intro hx
        exact hjn (hx ▸ hc.symm ▸ rfl)
      rw [hcj]
      simp
    · rw [if_neg hc, List.any_cons, List.any_cons, aid_removeT, ih]

mutual
/-- Search for a node outside the removed subtree, after the removal. -/
theorem findT_removeT {n j : Nat} {t : ATree} (hnd : (preT t).Nodup)
    (hj : ∀ st, findT n t = some st → j ∉ preT st) :
    findT j (removeT n t) = (findT j t).map (removeT n) := by
  match t with
  | .mk i d cs =>
    rw [preT_eq] at hnd
    rw [removeT, findT, findT]
    by_cases hij : i = j
    · rw [if_pos hij, if_pos hij]
      rfl
    · rw [if_neg hij, if_neg hij]
      refine findF_removeF (List.nodup_cons.mp hnd).2 ?_
      intro st hstf
      by_cases hin : i = n
      · have hjt := hj (ATree.mk i d cs) (by rw [findT, if_pos hin])
        intro hm
        exact hjt (by
          rw [preT_eq]
          exact List.mem_cons_of_mem i ((findF_seg hstf).subset hm))
      · exact hj st (by rw [findT, if_neg hin]; exact hstf)

/-- Search for a node outside the removed subtree, after the removal. -/
theorem findF_removeF {n j : Nat} {ts : List ATree} (hnd : (preF ts).Nodup)
    (hj : ∀ st, findF n ts = some st → j ∉ preT st) :
    findF j (removeF n ts) = (findF j ts).map (removeT n) := by
  match ts with
  | [] => rfl
  | t :: ts =>
    rw [preF] at hnd
    have hdisj := List.disjoint_of_nodup_append hnd
    rw [removeF]
    by_cases ha : aid t = n
    · have hfn : findF n (t :: ts) = some t := by
        rcases t with ⟨i, d, cs⟩
        rw [aid] at ha
        rw [findF, findT, if_pos ha]
      have hjt : j ∉ preT t := hj t hfn
      have hnts : n ∉ preF ts := fun hm => hdisj (ha ▸ aid_mem_preT t) hm
      rw [if_pos ha, removeF_id hnts, findF, findT_not_mem hjt,
        findF_map_removeT_id hnts j]
    · rw [if_neg ha, findF, findF]
      have hjt : ∀ st, findT n t = some st → j ∉ preT st := by
        intro st hstf
        refine hj st ?_
        rw [findF, hstf]
      rw [findT_removeT hnd.of_append_left hjt]
      match hy : findT j t with
      | some r => rfl
      | none =>
        refine findF_removeF hnd.of_append_right ?_
        intro st hstf
        match hz : findT n t with
        | some r' =>
          have hnts : n ∉ preF ts := fun hm => hdisj (findT_mem hz) hm
          exact absurd (findF_mem hstf) hnts
        | none =>
          exact hj st (by rw [findF, hz]; exact hstf)
end

/-- Two members of a duplicate-free forest sharing a node are the same
member. -/
theorem members_unique {j : Nat} : ∀ {cs : List ATree}, (preF cs).Nodup →
    ∀ {c m : ATree}, c ∈ cs → m ∈ cs → j ∈ preT c → j ∈ preT m → c = m := by
  intro cs
  induction cs with
  | nil =>
    intro _ c m hc _ _ _
    exact absurd hc (List.not_mem_nil c)
  | cons a l ih =>
    intro hnd c m hc hm hjc hjm
    rw [preF] at hnd
    have hdisj := List.disjoint_of_nodup_append hnd
    rcases List.mem_cons.mp hc with hc | hc <;> rcases List.mem_cons.mp hm with hm | hm
    · rw [hc, hm]
    · exact absurd ((preT_infix_preF hm).subset hjm) (fun hx => hdisj (hc ▸ hjc) hx)
    · exact absurd ((preT_infix_preF hc).subset hjc) (fun hx => hdisj (hm ▸ hjm) hx)
    · exact ih hnd.of_append_right hc hm hjc hjm

/-- A successful forest search factors through one of its members. -/
theorem findF_mem_tree {n : Nat} : ∀ {cs : List ATree} {st : ATree},
    findF n cs = some st → ∃ m ∈ cs, findT n m = some st := by
  intro cs
  induction cs with
  | nil =>
    intro st h
    exact Option.noConfusion h
  | cons a l ih =>
    intro st h
    rw [findF] at h
    match hz : findT n a with
    | some r =>
      rw [hz] at h
      injection h with h
      subst h
      exact ⟨a, List.mem_cons_self a l, hz⟩
    | none =>
      rw [hz] at h
      obtain ⟨m, hm, hfm⟩ := ih h
      exact ⟨m, List.mem_cons_of_mem a hm, hfm⟩

/-- A proper subtree never contains the root of the tree it sits in. -/
theorem root_not_in_proper_subtree {j n : Nat} {c st : ATree}
    (hnd : (preT c).Nodup) (hj : aid c = j) (hst : findT n c = some st)
    (hjn : j ≠ n) : j ∉ preT st := by
  intro hjs
  have hne : st ≠ c := fun he => hjn (by rw [← findT_aid hst, he, hj])
  obtain ⟨X, Y, hXY⟩ := findT_seg hst
  rcases c with ⟨i, d, cs⟩
  rw [aid] at hj
  rw [preT_eq] at hXY hnd
  match X, hXY with
  | [], hXY =>
    rw [List.nil_append] at hXY
    have hhead : (preT st).head? = some i := by
      rcases st with ⟨i2, d2, cs2⟩
      rw [preT_eq] at hXY ⊢
      match hXY2 : preT (ATree.mk i2 d2 cs2) with
      | _ =>
        injection hXY.symm with h1 h2
        rw [h1]
        rfl
    rw [head_preT] at hhead
    injection hhead with hhead
    exact hjn (by rw [← hj, ← hhead, findT_aid hst])
  | x :: X', hXY =>
    injection hXY.symm with h1 h2
    have hnd2 := (List.nodup_cons.mp hnd).1
    rw [h2] at hnd2
    refine hnd2 ?_
    rw [hj]
    exact List.mem_append.mpr (Or.inl (List.mem_append.mpr (Or.inr hjs)))
mutual
/-- Inside a found subtree, parent lookups agree with the subtree. -/
theorem parT_sub {n j : Nat} {t st : ATree} (hnd : (preT t).Nodup)
    (hst : findT n t = some st) (hj : j ∈ preT st) (hjn : j ≠ n) :
    parT j t = parT j st := by
  match t with
  | .mk i d cs =>
    rw [findT] at hst
    by_cases hin : i = n
    · rw [if_pos hin] at hst
      injection hst with hst
      rw [hst]
    · rw [if_neg hin] at hst
      rw [preT_eq] at hnd
      have hndf := (List.nodup_cons.mp hnd).2
      have hjf : j ∈ preF cs := (findF_seg hst).subset hj
      rw [parT]
      have hnoch : cs.any (fun c => decide (aid c = j)) = false := by
        rw [Bool.eq_false_iff]
        intro hany
        obtain ⟨c, hcm, hca⟩ := List.any_eq_true.mp hany
        have hca' : aid c = j := of_decide_eq_true hca
        obtain ⟨m, hmm, hfm⟩ := findF_mem_tree hst
        have hjm : j ∈ preT m := (findT_seg hfm).subset hj
        have hcm2 : c = m := members_unique hndf hcm hmm (hca' ▸ aid_mem_preT c) hjm
        subst hcm2
        have hndc : (preT c).Nodup :=
          (preT_infix_preF hcm).sublist.nodup hndf
        exact root_not_in_proper_subtree hndc hca' hfm hjn hj
      rw [hnoch]
      simp only [Bool.false_eq_true, if_false]
      exact parF_sub hndf hst hj hjn

/-- Inside a found subtree, parent lookups agree with the subtree. -/
theorem parF_sub {n j : Nat} {ts : List ATree} {st : ATree}
    (hnd : (preF ts).Nodup) (hst : findF n ts = some st) (hj : j ∈ preT st)
    (hjn : j ≠ n) : parF j ts = parT j st := by
  match ts with
  | [] => exact Option.noConfusion hst
  | t :: ts =>
    rw [preF] at hnd
    have hdisj := List.disjoint_of_nodup_append hnd
    rw [findF] at hst
    rw [parF]
    match hz : findT n t with
    | some r =>
      rw [hz] at hst
      injection hst with hst
      subst hst
      have heq := parT_sub hnd.of_append_left hz hj hjn
      rw [heq]
      have hja : j ≠ aid r := fun he => hjn (he.trans (findT_aid hz))
      have hjt : j ∈ preT t := (findT_seg hz).subset hj
      have hsome := parT_isSome hj hja
      match hv : parT j r with
      | some v =>
        rfl
      | none =>
        rw [hv] at hsome
        exact Bool.noConfusion hsome
    | none =>
      rw [hz] at hst
      have hjf : j ∈ preF ts := (findF_seg hst).subset hj
      have hjt : j ∉ preT t := fun hm => hdisj hm hjf
      have hpt : parT j t = none := by
        match hy : parT j t with
        | none => rfl
        | some q => exact absurd (parT_mem hy) hjt
      rw [hpt]
      exact parF_sub hnd.of_append_right hst hj hjn
end

/-! ## Lookup utilities over forest concatenations and removals -/

mutual
theorem preT_removeT_subset {n j : Nat} {t : ATree} (hj : j ∈ preT (removeT n t)) :
    j ∈ preT t := by
  match t with
  | .mk i d cs =>
    rw [removeT, preT_eq] at hj
    rw [preT_eq]
    rcases List.mem_cons.mp hj with hj | hj
    · exact List.mem_cons.mpr (Or.inl hj)
    · exact List.mem_cons.mpr (Or.inr (preF_removeF_subset hj))

theorem preF_removeF_subset {n j : Nat} {ts : List ATree}
    (hj : j ∈ preF (removeF n ts)) : j ∈ preF ts := by
  match ts with
  | [] => exact hj
  | t :: ts =>
    rw [removeF] at hj
    rw [preF]
    by_cases ha : aid t = n
    · rw [if_pos ha] at hj
      exact List.mem_append.mpr (Or.inr (preF_removeF_subset hj))
    · rw [if_neg ha, preF] at hj
      rcases List.mem_append.mp hj with hj | hj
      · exact List.mem_append.mpr (Or.inl (preT_removeT_subset hj))
      · exact List.mem_append.mpr (Or.inr (preF_removeF_subset hj))
end

/-- Membership in a tree after removal of a subtree not containing `j`. -/
theorem mem_preT_removeT {n j : Nat} {u : ATree} (hnd : (preT u).Nodup)
    (hj : ∀ st, findT n u = some st → j ∉ preT st) :
    (j ∈ preT (removeT n u) ↔ j ∈ preT u) := by
  by_cases hmem : n ∈ preT u
  · have hex : ∃ st, findT n u = some st := by
      have hs := (findT_isSome_iff n u).mpr hmem
      match hz : findT n u with
      | some st => exact ⟨st, rfl⟩
      | none => rw [hz] at hs; exact Bool.noConfusion hs
    obtain ⟨st, hst⟩ := hex
    have hjst : j ∉ preT st := hj st hst
    by_cases hna : n = aid u
    · have hstu : st = u := by
        rcases u with ⟨i, d, cs⟩
        rw [aid] at hna
        rw [findT, if_pos hna.symm] at hst
        injection hst with hst
        exact hst.symm
      subst hstu
      constructor
      · intro hx
        exact absurd (preT_removeT_subset hx) hjst
      · intro hx
        exact absurd hx hjst
    · obtain ⟨X, Y, h1, h2⟩ := preT_removeT hnd hst hna
      rw [h1, h2]
      constructor
      · intro hx
        rcases List.mem_append.mp hx with hx | hx
        · exact List.mem_append.mpr (Or.inl (List.mem_append.mpr (Or.inl hx)))
        · exact List.mem_append.mpr (Or.inr hx)
      · intro hx
        rcases List.mem_append.mp hx with hx | hx
        · rcases List.mem_append.mp hx with hx | hx
          · exact List.mem_append.mpr (Or.inl hx)
          · exact absurd hx hjst
        · exact List.mem_append.mpr (Or.inr hx)
  · rw [removeT_id hmem]

theorem findF_append (j : Nat) (A B : List ATree) :
    findF j (A ++ B) = match findF j A with
      | some r => some r
      | none => findF j B := by
  induction A with
  | nil => rfl
  | cons t ts ih =>
    rw [List.cons_append, findF, findF, ih]
    match findT j t with
    | some r => rfl
    | none => rfl

theorem parF_append (j : Nat) (A B : List ATree) :
    parF j (A ++ B) = match parF j A with
      | some r => some r
      | none => parF j B := by
  induction A with
  | nil => rfl
  | cons t ts ih =>
    rw [List.cons_append, parF, parF, ih]
    match parT j t with
    | some r => rfl
    | none => rfl

theorem findF_single (j : Nat) (st : ATree) : findF j [st] = findT j st := by
  rw [findF]
  match findT j st with
  | some r => rfl
  | none => rfl

theorem parF_single (j : Nat) (st : ATree) : parF j [st] = parT j st := by
  rw [parF]
  match parT j st with
  | some r => rfl
  | none => rfl

theorem rootF_append (j : Nat) (A B : List ATree) :
    rootF j (A ++ B) = match rootF j A with
      | some r => some r
      | none => rootF j B := by
  unfold rootF
  induction A with
  | nil => rfl
  | cons t ts ih =>
    rw [List.cons_append, List.find?_cons, List.find?_cons]
    match decide (j ∈ preT t) with
    | true => rfl
    | false => exact ih

theorem rootF_none_of_disjoint {j : Nat} {A : List ATree}
    (h : ∀ u ∈ A, j ∉ preT u) : rootF j A = none := by
  unfold rootF
  rw [List.find?_eq_none]
  intro u hu
  simpa using h u hu

theorem rootF_single {j : Nat} {st : ATree} (h : j ∈ preT st) :
    rootF j [st] = some st := by
  unfold rootF
  rw [List.find?_cons_of_pos _ (by simpa using h)]

theorem rootF_map_removeT_id {n j : Nat} {ts : List ATree} (h : n ∉ preF ts) :
    (rootF j ts).map (removeT n) = rootF j ts := by
  match hy : rootF j ts with
  | none => rfl
  | some u =>
    have hu : u ∈ ts := List.mem_of_find?_eq_some hy
    have hnu : n ∉ preT u := fun hm => h ((preT_infix_preF hu).subset hm)
    simp [removeT_id hnu]

/-- The root tree of a node outside the removed subtree, after removal of a
non-root subtree. -/
theorem rootF_removeF {n j : Nat} {F : List ATree} (hnd : (preF F).Nodup)
    (hroot : ∀ u ∈ F, aid u ≠ n) {st : ATree} (hst : findF n F = some st)
    (hj : j ∉ preT st) :
    rootF j (removeF n F) = (rootF j F).map (removeT n) := by
  induction F with
  | nil => exact Option.noConfusion hst
  | cons t ts ih =>
    rw [preF] at hnd
    have hdisj := List.disjoint_of_nodup_append hnd
    rw [findF] at hst
    have hat : aid t ≠ n := hroot t (List.mem_cons_self t ts)
    rw [removeF, if_neg hat]
    have hjt' : ∀ st', findT n t = some st' → j ∉ preT st' := by
      intro st' hstf
      match hz : findT n t with
      | some r =>
        rw [hz] at hst hstf
        injection hst with hst
        injection hstf with hstf
        rw [← hstf, hst]
        exact hj
      | none => rw [hz] at hstf; exact Option.noConfusion hstf
    have hmemiff := mem_preT_removeT hnd.of_append_left hjt'
    by_cases hjt : j ∈ preT t
    · unfold rootF
      rw [List.find?_cons_of_pos _ (by simpa using hmemiff.mpr hjt),
        List.find?_cons_of_pos _ (by simpa using hjt)]
      rfl
    · unfold rootF
      rw [List.find?_cons_of_neg _ (by simpa using fun hm => hjt (hmemiff.mp hm)),
        List.find?_cons_of_neg _ (by simpa using hjt)]
      match hz : findT n t with
      | some r =>
        have hnts : n ∉ preF ts := fun hm => hdisj (findT_mem hz) hm
        rw [removeF_id hnts]
        exact (rootF_map_removeT_id hnts).symm
      | none =>
        rw [hz] at hst
        exact ih hnd.of_append_right (fun u hu => hroot u (List.mem_cons_of_mem t hu)) hst

/-! ## Complete field characterisation of the extract surgery -/

theorem prevSib_setF (h : Heap) (i : Nat) (f : HNode → HNode)
    (hf : ∀ nd, (f nd).prevSib = nd.prevSib) (j : Nat) :
    ((setF h i f) j).prevSib = (h j).prevSib := by
  by_cases hj : j = i <;> simp [setF, hj, hf]

theorem exBridgeA_prevEl (h1 : Heap) (self : Nat) (nextE : Option Nat) :
    Pointwise (exBridgeA h1 self nextE) (fun j nd => nd.prevEl = (h1 j).prevEl) := by
  unfold exBridgeA
  split
  · split
    · exact fun j =>
        prevEl_setF _ _ (fun nd => { nd with nextEl := nextE }) (fun nd => rfl) j
    · exact fun j => rfl
  · exact fun j => rfl

theorem exClearOrder_prevEl (h3 : Heap) (self last j : Nat) :
    (exClearOrder h3 self last j).prevEl
      = if j = self then none else (h3 j).prevEl := by
  unfold exClearOrder
  rw [prevEl_setF _ last (fun nd => { nd with nextEl := none }) (fun nd => rfl) j]
  by_cases hj : j = self <;> simp [hj, setF_apply_self, setF_apply_ne]

theorem exClearParent_prevEl (h5 : Heap) (self j : Nat) :
    (exClearParent h5 self j).prevEl = (h5 j).prevEl := by
  unfold exClearParent
  exact prevEl_setF _ _ (fun nd => { nd with parent := none }) (fun nd => rfl) j

theorem exSibA_prevEl (h6 : Heap) (self : Nat) :
    Pointwise (exSibA h6 self) (fun j nd => nd.prevEl = (h6 j).prevEl) := by
  unfold exSibA
  split
  · split
    · exact fun j =>
        prevEl_setF _ _ (fun nd => { nd with nextSib := (h6 self).nextSib }) (fun nd => rfl) j
    · exact fun j => rfl
  · exact fun j => rfl

theorem exSibB_prevEl (h7 : Heap) (self : Nat) :
    Pointwise (exSibB h7 self) (fun j nd => nd.prevEl = (h7 j).prevEl) := by
  unfold exSibB
  split
  · split
    · exact fun j =>
        prevEl_setF _ _ (fun nd => { nd with prevSib := (h7 self).prevSib }) (fun nd => rfl) j
    · exact fun j => rfl
  · exact fun j => rfl

theorem exClearSibs_prevEl (h8 : Heap) (self j : Nat) :
    (exClearSibs h8 self j).prevEl = (h8 j).prevEl :=
  prevEl_setF _ _ (fun nd => { nd with prevSib := none, nextSib := none }) (fun _ => rfl) j

theorem exBridgeB_prevEl_at (h2 : Heap) (self : Nat) (nextE : Option Nat) :
    Pointwise (exBridgeB h2 self nextE)
      (fun j nd => nd.prevEl =
        if nextE = some j ∧ some j ≠ (h2 self).prevEl then (h2 self).prevEl
        else (h2 j).prevEl) := by
  unfold exBridgeB
  split
  · next ne =>
    split
    · next hg =>
      intro j
      by_cases hj : j = ne
      · subst hj
        rw [setF_apply_self, if_pos ⟨rfl, hg⟩]
      · rw [setF_apply_ne _ _ _ j hj,
          if_neg (fun hc => hj (by injection hc.1 with h; exact h.symm))]
    · next hg =>
      intro j
      rw [if_neg (fun hc => hg (by
        have : ne = j := by injection hc.1
        rw [this]
        exact hc.2))]
  · intro j
    rw [if_neg (fun hc => Option.noConfusion hc.1)]

/-- Final `previous_element` of every node after the link surgery. -/
theorem extractLinks_prevEl_at (h1 : Heap) (self last j : Nat) :
    (extractLinks h1 self last j).prevEl =
      if j = self then none
      else if (h1 last).nextEl = some j ∧ some j ≠ (h1 self).prevEl
        then (h1 self).prevEl
      else (h1 j).prevEl := by
  unfold extractLinks
  rw [exClearSibs_prevEl, exSibB_prevEl _ _ j, exSibA_prevEl _ _ j,
    exClearParent_prevEl, exClearOrder_prevEl]
  by_cases hjs : j = self
  · rw [if_pos hjs, if_pos hjs]
  · rw [if_neg hjs, if_neg hjs]
    have hb := exBridgeB_prevEl_at (exBridgeA h1 self ((h1 last).nextEl)) self
      ((h1 last).nextEl) j
    rw [hb]
    rw [exBridgeA_prevEl h1 self ((h1 last).nextEl) self,
      exBridgeA_prevEl h1 self ((h1 last).nextEl) j]

theorem exBridgeA_nextSib (h1 : Heap) (self : Nat) (nextE : Option Nat) :
    Pointwise (exBridgeA h1 self nextE) (fun j nd => nd.nextSib = (h1 j).nextSib) := by
  unfold exBridgeA
  split
  · split
    · exact fun j =>
        nextSib_setF _ _ (fun nd => { nd with nextEl := nextE }) (fun nd => rfl) j
    · exact fun j => rfl
  · exact fun j => rfl

theorem exBridgeB_nextSib (h2 : Heap) (self : Nat) (nextE : Option Nat) :
    Pointwise (exBridgeB h2 self nextE) (fun j nd => nd.nextSib = (h2 j).nextSib) := by
  unfold exBridgeB
  split
  · split
    · exact fun j =>
        nextSib_setF _ _ (fun nd => { nd with prevEl := (h2 self).prevEl }) (fun nd => rfl) j
    · exact fun j => rfl
  · exact fun j => rfl

theorem exClearOrder_nextSib (h3 : Heap) (self last j : Nat) :
    (exClearOrder h3 self last j).nextSib = (h3 j).nextSib := by
  unfold exClearOrder
  rw [nextSib_setF _ last (fun nd => { nd with nextEl := none }) (fun nd => rfl) j,
    nextSib_setF _ self (fun nd => { nd with prevEl := none }) (fun nd => rfl) j]

theorem exClearParent_nextSib (h5 : Heap) (self j : Nat) :
    (exClearParent h5 self j).nextSib = (h5 j).nextSib := by
  unfold exClearParent
  exact nextSib_setF _ _ (fun nd => { nd with parent := none }) (fun nd => rfl) j

theorem exBridgeA_prevSib (h1 : Heap) (self : Nat) (nextE : Option Nat) :
    Pointwise (exBridgeA h1 self nextE) (fun j nd => nd.prevSib = (h1 j).prevSib) := by
  unfold exBridgeA
  split
  · split
    · exact fun j =>
        prevSib_setF _ _ (fun nd => { nd with nextEl := nextE }) (fun nd => rfl) j
    · exact fun j => rfl
  · exact fun j => rfl

theorem exBridgeB_prevSib (h2 : Heap) (self : Nat) (nextE : Option Nat) :
    Pointwise (exBridgeB h2 self nextE) (fun j nd => nd.prevSib = (h2 j).prevSib) := by
  unfold exBridgeB
  split
  · split
    · exact fun j =>
        prevSib_setF _ _ (fun nd => { nd with prevEl := (h2 self).prevEl }) (fun nd => rfl) j
    · exact fun j => rfl
  · exact fun j => rfl

theorem exClearOrder_prevSib (h3 : Heap) (self last j : Nat) :
    (exClearOrder h3 self last j).prevSib = (h3 j).prevSib := by
  unfold exClearOrder
  rw [prevSib_setF _ last (fun nd => { nd with nextEl := none }) (fun nd => rfl) j,
    prevSib_setF _ self (fun nd => { nd with prevEl := none }) (fun nd => rfl) j]

theorem exClearParent_prevSib (h5 : Heap) (self j : Nat) :
    (exClearParent h5 self j).prevSib = (h5 j).prevSib := by
  unfold exClearParent
  exact prevSib_setF _ _ (fun nd => { nd with parent := none }) (fun nd => rfl) j

theorem exSibA_nextSib_at (h6 : Heap) (self : Nat) :
    Pointwise (exSibA h6 self)
      (fun j nd => nd.nextSib =
        if (h6 self).prevSib = some j ∧ some j ≠ (h6 self).nextSib
          then (h6 self).nextSib
        else (h6 j).nextSib) := by
  unfold exSibA
  split
  · next ps hps =>
    split
    · next hg =>
      intro j
      by_cases hj : j = ps
      · subst hj
        rw [setF_apply_self, if_pos ⟨hps, hg⟩]
      · rw [setF_apply_ne _ _ _ j hj,
          if_neg (fun hc => hj (by
            rw [hps] at hc
            injection hc.1 with h
            exact h.symm))]
    · next hg =>
      intro j
      rw [if_neg (fun hc => hg (by
        rw [hps] at hc
        have hpj : ps = j := by injection hc.1
        rw [hpj]
        exact hc.2))]
  · next hps =>
    intro j
    rw [if_neg (fun hc => by rw [hps] at hc; exact Option.noConfusion hc.1)]

theorem exSibA_prevSib (h6 : Heap) (self : Nat) :
    Pointwise (exSibA h6 self) (fun j nd => nd.prevSib = (h6 j).prevSib) := by
  unfold exSibA
  split
  · split
    · exact fun j =>
        prevSib_setF _ _ (fun nd => { nd with nextSib := (h6 self).nextSib }) (fun nd => rfl) j
    · exact fun j => rfl
  · exact fun j => rfl

theorem exSibB_nextSib (h7 : Heap) (self : Nat) :
    Pointwise (exSibB h7 self) (fun j nd => nd.nextSib = (h7 j).nextSib) := by
  unfold exSibB
  split
  · split
    · exact fun j =>
        nextSib_setF _ _ (fun nd => { nd with prevSib := (h7 self).prevSib }) (fun nd => rfl) j
    · exact fun j => rfl
  · exact fun j => rfl

theorem exSibB_prevSib_at (h7 : Heap) (self : Nat) :
    Pointwise (exSibB h7 self)
      (fun j nd => nd.prevSib =
        if (h7 self).nextSib = some j ∧ some j ≠ (h7 self).prevSib
          then (h7 self).prevSib
        else (h7 j).prevSib) := by
  unfold exSibB
  split
  · next ns hns =>
    split
    · next hg =>
      intro j
      by_cases hj : j = ns
      · subst hj
        rw [setF_apply_self, if_pos ⟨hns, hg⟩]
      · rw [setF_apply_ne _ _ _ j hj,
          if_neg (fun hc => hj (by
            rw [hns] at hc
            injection hc.1 with h
            exact h.symm))]
    · next hg =>
      intro j
      rw [if_neg (fun hc => hg (by
        rw [hns] at hc
        have hpj : ns = j := by injection hc.1
        rw [hpj]
        exact hc.2))]
  · next hns =>
    intro j
    rw [if_neg (fun hc => by rw [hns] at hc; exact Option.noConfusion hc.1)]

theorem exClearSibs_nextSib_at (h8 : Heap) (self j : Nat) :
    (exClearSibs h8 self j).nextSib = if j = self then none else (h8 j).nextSib := by
  unfold exClearSibs
  by_cases hj : j = self <;> simp [hj, setF_apply_self, setF_apply_ne]

theorem exClearSibs_prevSib_at (h8 : Heap) (self j : Nat) :
    (exClearSibs h8 self j).prevSib = if j = self then none else (h8 j).prevSib := by
  unfold exClearSibs
  by_cases hj : j = self <;> simp [hj, setF_apply_self, setF_apply_ne]

/-- Final `next_element` of every node after the link surgery. -/
theorem extractLinks_nextEl_at (h1 : Heap) (self last j : Nat) :
    (extractLinks h1 self last j).nextEl =
      if j = last then none
      else if (h1 self).prevEl = some j ∧ some j ≠ (h1 last).nextEl
        then (h1 last).nextEl
      else (h1 j).nextEl := by
  by_cases hjl : j = last
  · rw [if_pos hjl, hjl, extractLinks_nextEl_last]
  · rw [if_neg hjl]
    by_cases hp1 : (h1 self).prevEl = some j
    · by_cases hp2 : (some j : Option Nat) ≠ (h1 last).nextEl
      · rw [if_pos ⟨hp1, hp2⟩]
        unfold extractLinks
        rw [exClearSibs_nextEl, exSibB_nextEl _ _ j, exSibA_nextEl _ _ j,
          exClearParent_nextEl, exClearOrder_nextEl_ne _ _ _ _ hjl,
          exBridgeB_nextEl _ _ _ j]
        unfold exBridgeA
        rw [hp1]
        dsimp only []
        rw [if_pos hp2, setF_apply_self]
      · rw [if_neg (fun hc => hp2 hc.2)]
        unfold extractLinks
        rw [exClearSibs_nextEl, exSibB_nextEl _ _ j, exSibA_nextEl _ _ j,
          exClearParent_nextEl, exClearOrder_nextEl_ne _ _ _ _ hjl,
          exBridgeB_nextEl _ _ _ j]
        unfold exBridgeA
        rw [hp1]
        dsimp only []
        rw [if_neg hp2]
    · rw [if_neg (fun hc => hp1 hc.1)]
      exact extractLinks_nextEl_other h1 self last j (fun hc => hp1 hc) hjl

theorem exSibA_nextSib_self (h6 : Heap) (self : Nat) :
    (exSibA h6 self self).nextSib = (h6 self).nextSib := by
  rw [exSibA_nextSib_at h6 self self]
  split <;> rfl

/-- Final `next_sibling` of every node after the link surgery. -/
theorem extractLinks_nextSib_at (h1 : Heap) (self last j : Nat) :
    (extractLinks h1 self last j).nextSib =
      if j = self then none
      else if (h1 self).prevSib = some j ∧ some j ≠ (h1 self).nextSib
        then (h1 self).nextSib
      else (h1 j).nextSib := by
  unfold extractLinks
  rw [exClearSibs_nextSib_at, exSibB_nextSib _ _ j]
  rw [exSibA_nextSib_at _ _ j]
  rw [exClearParent_prevSib, exClearOrder_prevSib, exBridgeB_prevSib _ _ _ self,
    exBridgeA_prevSib _ _ _ self]
  rw [exClearParent_nextSib, exClearOrder_nextSib, exBridgeB_nextSib _ _ _ self,
    exBridgeA_nextSib _ _ _ self]
  rw [exClearParent_nextSib, exClearOrder_nextSib, exBridgeB_nextSib _ _ _ j,
    exBridgeA_nextSib _ _ _ j]

/-- Final `previous_sibling` of every node after the link surgery. -/
theorem extractLinks_prevSib_at (h1 : Heap) (self last j : Nat) :
    (extractLinks h1 self last j).prevSib =
      if j = self then none
      else if (h1 self).nextSib = some j ∧ some j ≠ (h1 self).prevSib
        then (h1 self).prevSib
      else (h1 j).prevSib := by
  unfold extractLinks
  rw [exClearSibs_prevSib_at]
  rw [exSibB_prevSib_at _ _ j]
  rw [exSibA_nextSib_self, exSibA_prevSib _ _ self, exSibA_prevSib _ _ j]
  rw [exClearParent_nextSib, exClearOrder_nextSib, exBridgeB_nextSib _ _ _ self,
    exBridgeA_nextSib _ _ _ self]
  rw [exClearParent_prevSib, exClearOrder_prevSib, exBridgeB_prevSib _ _ _ self,
    exBridgeA_prevSib _ _ _ self]
  rw [exClearParent_prevSib, exClearOrder_prevSib, exBridgeB_prevSib _ _ _ j,
    exBridgeA_prevSib _ _ _ j]

/-! ## Segment calculus for successor/predecessor lookups -/

theorem succIn_getLast_append {X Y : List Nat} {pe : Nat} (hndX : X.Nodup)
    (h : X.getLast? = some pe) : succIn (X ++ Y) pe = Y.head? := by
  obtain ⟨X0, hX0⟩ := getLast_split h
  have hpe : pe ∉ X0 := by
    rw [hX0] at hndX
    intro hm
    exact (List.disjoint_of_nodup_append hndX) hm (List.mem_cons_self pe [])
  rw [hX0, List.append_assoc, List.singleton_append]
  exact succIn_middle hpe

theorem succIn_skip_mid {X M Y : List Nat} {j : Nat} (hj : j ∈ X)
    (hl : X.getLast? ≠ some j) :
    succIn (X ++ M ++ Y) j = succIn (X ++ Y) j := by
  have hs := succIn_isSome_of_ne_last hj hl
  rw [List.append_assoc, succIn_append_isSome hs, succIn_append_isSome hs]

theorem succIn_right_mid {X M Y : List Nat} {j : Nat} (hjX : j ∉ X)
    (hjM : j ∉ M) : succIn (X ++ M ++ Y) j = succIn (X ++ Y) j := by
  rw [List.append_assoc, succIn_append_not_mem hjX, succIn_append_not_mem hjM,
    succIn_append_not_mem hjX]

theorem predIn_skip_mid {X M Y : List Nat} {j : Nat} (hjY : j ∈ Y)
    (hh : Y.head? ≠ some j) :
    predIn (X ++ M ++ Y) j = predIn (X ++ Y) j := by
  unfold predIn
  rw [List.append_assoc, List.reverse_append, List.reverse_append, List.reverse_append]
  have hjr : j ∈ Y.reverse := List.mem_reverse.mpr hjY
  have hlr : Y.reverse.getLast? ≠ some j := by
    rw [List.getLast?_reverse]
    exact hh
  have hs := succIn_isSome_of_ne_last hjr hlr
  have e1 : succIn (Y.reverse ++ M.reverse ++ X.reverse) j = succIn Y.reverse j := by
    rw [List.append_assoc]
    exact succIn_append_isSome hs
  rw [e1, succIn_append_isSome hs]

theorem predIn_left_mid {X M Y : List Nat} {j : Nat} (hjY : j ∉ Y)
    (hjM : j ∉ M) : predIn (X ++ M ++ Y) j = predIn (X ++ Y) j := by
  unfold predIn
  rw [List.append_assoc, List.reverse_append, List.reverse_append, List.reverse_append]
  have e1 : succIn (Y.reverse ++ M.reverse ++ X.reverse) j = succIn X.reverse j := by
    rw [List.append_assoc,
      succIn_append_not_mem (show j ∉ Y.reverse by simpa using hjY),
      succIn_append_not_mem (show j ∉ M.reverse by simpa using hjM)]
  rw [e1, succIn_append_not_mem (show j ∉ Y.reverse by simpa using hjY)]

theorem idxOfId_append_middle {n : Nat} : ∀ {K1 : List Nat} (K2 : List Nat),
    n ∉ K1 → idxOfId n (K1 ++ n :: K2) = some K1.length := by
  intro K1
  induction K1 with
  | nil =>
    intro K2 _
    rw [List.nil_append, idxOfId, if_pos rfl]
    rfl
  | cons x K1 ih =>
    intro K2 hn
    rw [List.cons_append, idxOfId,
      if_neg (fun hx : x = n => hn (List.mem_cons.mpr (Or.inl hx.symm))),
      ih K2 (fun hm => hn (List.mem_cons_of_mem x hm))]
    rfl

theorem eraseIdx_append_middle {n : Nat} : ∀ {K1 : List Nat} (K2 : List Nat),
    (K1 ++ n :: K2).eraseIdx K1.length = K1 ++ K2 := by
  intro K1
  induction K1 with
  | nil =>
    intro K2
    rfl
  | cons x K1 ih =>
    intro K2
    rw [List.cons_append, List.length_cons, List.eraseIdx_cons_succ, ih K2,
      List.cons_append]

theorem filter_ne_of_not_mem {n : Nat} : ∀ {l : List Nat}, n ∉ l →
    l.filter (fun x => decide (x ≠ n)) = l := by
  intro l
  induction l with
  | nil =>
    intro _
    rfl
  | cons x l ih =>
    intro hn
    rw [List.filter_cons,
      if_pos (by
        simp only [decide_eq_true_eq]
        exact fun hx : x = n => hn (List.mem_cons.mpr (Or.inl hx.symm))),
      ih (fun hm => hn (List.mem_cons_of_mem x hm))]

theorem filter_ne_middle {n : Nat} {K1 K2 : List Nat} (h1 : n ∉ K1) (h2 : n ∉ K2) :
    (K1 ++ n :: K2).filter (fun x => decide (x ≠ n)) = K1 ++ K2 := by
  rw [List.filter_append, filter_ne_of_not_mem h1, List.filter_cons,
    if_neg (by simp), filter_ne_of_not_mem h2]

theorem nodup_split_middle {n : Nat} {K : List Nat} (hnd : K.Nodup) (hm : n ∈ K) :
    ∃ K1 K2, K = K1 ++ n :: K2 ∧ n ∉ K1 ∧ n ∉ K2 := by
  obtain ⟨K1, K2, hK⟩ := List.append_of_mem hm
  refine ⟨K1, K2, hK, ?_, ?_⟩
  · rw [hK] at hnd
    intro hm1
    exact (List.disjoint_of_nodup_append hnd) hm1 (List.mem_cons_self n K2)
  · rw [hK] at hnd
    exact (List.nodup_cons.mp hnd.of_append_right).1

/-! ## Remaining supports for the extract simulation -/

theorem hnode_ext {a b : HNode} (h1 : a.isTag = b.isTag) (h2 : a.name = b.name)
    (h3 : a.attrs = b.attrs) (h4 : a.text = b.text) (h5 : a.contents = b.contents)
    (h6 : a.parent = b.parent) (h7 : a.prevSib = b.prevSib)
    (h8 : a.nextSib = b.nextSib) (h9 : a.prevEl = b.prevEl)
    (h10 : a.nextEl = b.nextEl) (h11 : a.decomposed = b.decomposed) : a = b := by
  cases a
  cases b
  simp_all

theorem predIn_drop_right {A Y : List Nat} {j : Nat} (h : j ∉ Y) :
    predIn (A ++ Y) j = predIn A j := by
  unfold predIn
  rw [List.reverse_append, succIn_append_not_mem (by simpa using h)]

theorem map_aid_sublist : ∀ (ks : List ATree), List.Sublist (ks.map aid) (preF ks) := by
  intro ks
  induction ks with
  | nil => exact List.Sublist.refl _
  | cons k ks ih =>
    rw [List.map_cons, preF]
    rcases k with ⟨i, d, cs⟩
    rw [preT_eq, aid, List.cons_append]
    exact List.Sublist.cons₂ i (ih.trans (List.sublist_append_right _ _))

theorem mem_map_aid_split {n : Nat} : ∀ {ks : List ATree}, n ∈ ks.map aid →
    ∃ ks1 c ks2, ks = ks1 ++ c :: ks2 ∧ aid c = n := by
  intro ks
  induction ks with
  | nil =>
    intro h
    exact absurd h (List.not_mem_nil n)
  | cons k ks ih =>
    intro h
    rw [List.map_cons] at h
    rcases List.mem_cons.mp h with h | h
    · exact ⟨[], k, ks, rfl, h.symm⟩
    · obtain ⟨ks1, c, ks2, h1, h2⟩ := ih h
      exact ⟨k :: ks1, c, ks2, by rw [List.cons_append, h1], h2⟩

theorem mem_kids_mem_preT {m : Nat} {r : ATree} (hm : m ∈ (akids r).map aid) :
    m ∈ preT r := by
  obtain ⟨c2, hc2m, hc2a⟩ := List.mem_map.mp hm
  exact hc2a ▸ child_aid_mem hc2m

mutual
/-- A node appearing in some node's child list has that node as its
parent. -/
theorem parT_unique {m j : Nat} {t r : ATree} (hnd : (preT t).Nodup)
    (hr : findT j t = some r) (hm : m ∈ (akids r).map aid) :
    parT m t = some j := by
  match t with
  | .mk i d cs =>
    rw [preT_eq] at hnd
    rw [findT] at hr
    rw [parT]
    by_cases hij : i = j
    · rw [if_pos hij] at hr
      injection hr with hr
      subst hr
      rw [akids] at hm
      rw [if_pos (by
        obtain ⟨c, hcm, hca⟩ := List.mem_map.mp hm
        exact List.any_eq_true.mpr ⟨c, hcm, by simp [hca]⟩), hij]
    · rw [if_neg hij] at hr
      have hndf := (List.nodup_cons.mp hnd).2
      have hnoch : ¬ cs.any (fun c => decide (aid c = m)) = true := by
        intro hany
        obtain ⟨c, hcm, hca⟩ := List.any_eq_true.mp hany
        have hca' : aid c = m := of_decide_eq_true hca
        obtain ⟨c2, hc2m, hc2a⟩ := List.mem_map.mp hm
        have hfc2 : findF m cs = some c2 := hc2a ▸ findF_child hndf hr hc2m
        have hfc : findF m cs = some c := hca' ▸ findF_self_of_mem hndf hcm
        rw [hfc] at hfc2
        injection hfc2 with hfc2
        obtain ⟨mt, hmtm, hmtf⟩ := findF_mem_tree hr
        have hmr : m ∈ preT r := mem_kids_mem_preT hm
        have hmmt : m ∈ preT mt := (findT_seg hmtf).subset hmr
        have hmc : m ∈ preT c := hca' ▸ aid_mem_preT c
        have hceq : c = mt := members_unique hndf hcm hmtm hmc hmmt
        have h1 : (preT r).length ≤ (preT c).length := by
          rw [hceq]
          exact (findT_seg hmtf).sublist.length_le
        have h2 : (preT c2).length < (preT r).length := by
          have hle := (preT_infix_preF hc2m).sublist.length_le
          rcases r with ⟨i3, d3, cs3⟩
          rw [akids] at hle
          rw [preT_eq, List.length_cons]
          omega
        rw [hfc2] at h1
        omega
      rw [if_neg hnoch]
      exact parF_unique hndf hr hm

/-- A node appearing in some node's child list has that node as its parent,
forest version. -/
theorem parF_unique {m j : Nat} {ts : List ATree} {r : ATree}
    (hnd : (preF ts).Nodup) (hr : findF j ts = some r)
    (hm : m ∈ (akids r).map aid) : parF m ts = some j := by
  match ts with
  | [] => exact Option.noConfusion hr
  | t :: ts =>
    rw [preF] at hnd
    have hdisj := List.disjoint_of_nodup_append hnd
    rw [findF] at hr
    rw [parF]
    match hz : findT j t with
    | some r0 =>
      rw [hz] at hr
      injection hr with hr
      subst hr
      rw [parT_unique hnd.of_append_left hz hm]
    | none =>
      rw [hz] at hr
      have hmr : m ∈ preT r := mem_kids_mem_preT hm
      have hmts : m ∈ preF ts := (findF_seg hr).subset hmr
      have hpt : parT m t = none := by
        match hy : parT m t with
        | none => rfl
        | some x => exact absurd (parT_mem hy) (fun hc => hdisj hc hmts)
      rw [hpt]
      exact parF_unique hnd.of_append_right hr hm
end

theorem parF_not_mem {j : Nat} {ts : List ATree} (h : j ∉ preF ts) :
    parF j ts = none := by
  match hy : parF j ts with
  | none => rfl
  | some q => exact absurd (parF_mem hy) h

theorem mem_of_head_some {l : List Nat} {x : Nat} (h : l.head? = some x) : x ∈ l := by
  match l, h with
  | y :: ys, h =>
    injection h with h
    rw [← h]
    exact List.mem_cons_self y ys

theorem predIn_drop_left {X S : List Nat} {j : Nat} (hj : j ∈ S)
    (hh : S.head? ≠ some j) : predIn (X ++ S) j = predIn S j := by
  unfold predIn
  rw [List.reverse_append]
  have hjr : j ∈ S.reverse := List.mem_reverse.mpr hj
  have hlr : S.reverse.getLast? ≠ some j := by
    rw [List.getLast?_reverse]
    exact hh
  exact succIn_append_isSome (succIn_isSome_of_ne_last hjr hlr)

mutual
/-- The parent of a node outside the removed subtree is unchanged by a
removal inside a tree. -/
theorem parT_removeT {n j : Nat} {t : ATree} (hnd : (preT t).Nodup)
    (hj : ∀ st, findT n t = some st → j ∉ preT st) :
    parT j (removeT n t) = parT j t := by
  match t with
  | .mk i d cs =>
    by_cases hmem : n ∈ preT (ATree.mk i d cs)
    · have hex : ∃ st, findT n (ATree.mk i d cs) = some st := by
        have hs := (findT_isSome_iff n (ATree.mk i d cs)).mpr hmem
        match hz : findT n (ATree.mk i d cs) with
        | some st => exact ⟨st, rfl⟩
        | none => rw [hz] at hs; exact Bool.noConfusion hs
      have hjn : j ≠ n := by
        intro hje
        subst hje
        obtain ⟨st, hst⟩ := hex
        have hm : aid st ∈ preT st := aid_mem_preT st
        rw [findT_aid hst] at hm
        exact hj st hst hm
      rw [preT_eq] at hnd
      rw [removeT, parT, parT, any_aid_removeF hjn]
      by_cases hany : cs.any (fun c => decide (aid c = j)) = true
      · rw [if_pos hany, if_pos hany]
      · rw [if_neg hany, if_neg hany]
        refine parF_removeF (List.nodup_cons.mp hnd).2 ?_
        intro st hstf
        by_cases hin : i = n
        · have hjt := hj (ATree.mk i d cs) (by rw [findT, if_pos hin])
          intro hm
          exact hjt (by
            rw [preT_eq]
            exact List.mem_cons_of_mem i ((findF_seg hstf).subset hm))
        · exact hj st (by rw [findT, if_neg hin]; exact hstf)
    · rw [removeT_id hmem]

/-- The parent of a node outside the removed subtree is unchanged by a
removal inside a forest. -/
theorem parF_removeF {n j : Nat} {ts : List ATree} (hnd : (preF ts).Nodup)
    (hj : ∀ st, findF n ts = some st → j ∉ preT st) :
    parF j (removeF n ts) = parF j ts := by
  match ts with
  | [] => rfl
  | t :: ts =>
    rw [preF] at hnd
    have hdisj := List.disjoint_of_nodup_append hnd
    rw [removeF]
    by_cases ha : aid t = n
    · have hfn : findF n (t :: ts) = some t := by
        rcases t with ⟨i, d, cs⟩
        rw [aid] at ha
        rw [findF, findT, if_pos ha]
      have hjt : j ∉ preT t := hj t hfn
      have hnts : n ∉ preF ts := fun hm => hdisj (ha ▸ aid_mem_preT t) hm
      have hpt : parT j t = none := by
        match hy : parT j t with
        | none => rfl
        | some x => exact absurd (parT_mem hy) hjt
      rw [if_pos ha, removeF_id hnts, parF, hpt]
    · rw [if_neg ha, parF, parF]
      have hjt : ∀ st, findT n t = some st → j ∉ preT st := fun st hstf =>
        hj st (by rw [findF, hstf])
      rw [parT_removeT hnd.of_append_left hjt]
      match hy : parT j t with
      | some x => rfl
      | none =>
        refine parF_removeF hnd.of_append_right ?_
        intro st hstf
        match hz : findT n t with
        | some r2 => exact absurd (findF_mem hstf) (fun hm => hdisj (findT_mem hz) hm)
        | none => exact hj st (by rw [findF, hz]; exact hstf)
end

mutual
/-- Searching inside a found subtree agrees with searching the whole
tree. -/
theorem findT_trans {n j : Nat} {t st r : ATree} (hnd : (preT t).Nodup)
    (hst : findT n t = some st) (hr : findT j st = some r) :
    findT j t = some r := by
  match t with
  | .mk i d cs =>
    rw [findT] at hst
    by_cases hin : i = n
    · rw [if_pos hin] at hst
      injection hst with hst
      rw [hst]
      exact hr
    · rw [if_neg hin] at hst
      rw [preT_eq] at hnd
      have hjm : j ∈ preT st := findT_mem hr
      have hjf : j ∈ preF cs := (findF_seg hst).subset hjm
      rw [findT, if_neg (fun hij : i = j => (List.nodup_cons.mp hnd).1 (hij ▸ hjf))]
      exact findF_trans (List.nodup_cons.mp hnd).2 hst hr

/-- Searching inside a found subtree agrees with searching the whole
forest. -/
theorem findF_trans {n j : Nat} {ts : List ATree} {st r : ATree}
    (hnd : (preF ts).Nodup) (hst : findF n ts = some st) (hr : findT j st = some r) :
    findF j ts = some r := by
  match ts with
  | [] => exact Option.noConfusion hst
  | t :: ts =>
    rw [preF] at hnd
    have hdisj := List.disjoint_of_nodup_append hnd
    rw [findF] at hst ⊢
    match hz : findT n t with
    | some r2 =>
      rw [hz] at hst
      injection hst with hst
      subst hst
      rw [findT_trans hnd.of_append_left hz hr]
    | none =>
      rw [hz] at hst
      have hjm : j ∈ preT st := findT_mem hr
      have hjf : j ∈ preF ts := (findF_seg hst).subset hjm
      have hjt : j ∉ preT t := fun hm => hdisj hm hjf
      rw [findT_not_mem hjt]
      exact findF_trans hnd.of_append_right hst hr
end


/-- Extract simulation, subtree region: after the surgery, a node of the
extracted subtree carries exactly the fields it has as a node of a detached
root of the new forest. -/
theorem extract_sim_in {F : List ATree} (hwf : wfForest F = true) {n q : Nat}
    {st : ATree} (hst : findF n F = some st) (hq : parF n F = some q)
    {i : Nat} (hidx : idxOfId n ((reprH F) q).contents = some i) (j : Nat)
    (hjst : j ∈ preT st) :
    extractLinks
        (setF (reprH F) q (fun nd => { nd with contents := nd.contents.eraseIdx i }))
        n (lastA st) j
      = reprH (removeF n F ++ [st]) j := by
  rw [wfForest, Bool.and_eq_true] at hwf
  have hnd : (preF F).Nodup := (nodupB_iff _).mp hwf.1
  obtain ⟨stq, hstq, hnkids⟩ := parF_char hnd hq
  obtain ⟨ks1, c, ks2, hks, hca⟩ := mem_map_aid_split hnkids
  have hcmem : c ∈ akids stq := by rw [hks]; simp
  have hfc : findF n F = some c := hca ▸ findF_child hnd hstq hcmem
  have hcst : st = c := by
    rw [hfc] at hst
    injection hst with h
    exact h.symm
  subst hcst
  have haidst : aid st = n := findF_aid hst
  have hndkids : (preF (akids stq)).Nodup := by
    have hndq : (preT stq).Nodup := (findF_seg hstq).sublist.nodup hnd
    rcases stq with ⟨i3, d3, cs3⟩
    rw [preT_eq] at hndq
    rw [akids]
    exact (List.nodup_cons.mp hndq).2
  obtain ⟨t, ht, hnt, X, Y, hdec⟩ := findF_root_infix hnd hst
  have hndt : (preT t).Nodup := (preT_infix_preF ht).sublist.nodup hnd
  have hndst : (preT st).Nodup := (findF_seg hst).sublist.nodup hnd
  have hsthd : ∃ tl, preT st = n :: tl := by
    rcases st with ⟨i2, d2, cs2⟩
    rw [aid] at haidst
    exact ⟨preF cs2, by rw [preT_eq, haidst]⟩
  obtain ⟨stl, hstl⟩ := hsthd
  have hXt : preT t = X ++ n :: (stl ++ Y) := by
    rw [hdec, hstl]
    simp
  have hrootn : rootF n F = some t := rootF_eq hnd ht hnt
  have hnprevEl : (reprH F n).prevEl = X.getLast? := by
    rw [reprH_prevEl hst, hrootn]
    have hnn : n ∉ stl ++ Y := by
      have hnd2 := hndt
      rw [hXt] at hnd2
      exact (List.nodup_cons.mp hnd2.of_append_right).1
    show predIn (preT t) n = X.getLast?
    rw [hXt, predIn_middle hnn]
  obtain ⟨S0, hS0⟩ := getLast_split (preT_getLast st)
  have hTlast : preT t = (X ++ S0) ++ lastA st :: Y := by
    rw [hdec, hS0]
    simp
  have hlm : lastA st ∈ preT t := by
    rw [hdec]
    exact List.mem_append.mpr (Or.inl (List.mem_append.mpr (Or.inr (lastA_mem st))))
  have hnnextE : (reprH F (lastA st)).nextEl = Y.head? := by
    rw [reprH_nextEl_chain hnd ht hlm]
    have hln : lastA st ∉ X ++ S0 := by
      have hnd2 := hndt
      rw [hTlast] at hnd2
      intro hm
      exact (List.disjoint_of_nodup_append hnd2) hm (List.mem_cons_self _ _)
    rw [hTlast, succIn_middle hln]
  have hK : childIds F q = (ks1.map aid) ++ n :: (ks2.map aid) := by
    unfold childIds
    rw [hstq]
    show (akids stq).map aid = (ks1.map aid) ++ n :: (ks2.map aid)
    rw [hks, List.map_append, List.map_cons, hca]
  have hndK : ((ks1.map aid) ++ n :: (ks2.map aid)).Nodup := by
    have hsub := map_aid_sublist (akids stq)
    rw [hks, List.map_append, List.map_cons, hca] at hsub
    have hndkids2 := hndkids
    rw [hks] at hndkids2
    exact hsub.nodup hndkids2
  have hn1 : n ∉ ks1.map aid := by
    intro hm
    exact (List.disjoint_of_nodup_append hndK) hm (List.mem_cons_self _ _)
  have hn2 : n ∉ ks2.map aid := (List.nodup_cons.mp hndK.of_append_right).1
  have hnprevSib : (reprH F n).prevSib = (ks1.map aid).getLast? := by
    rw [reprH_prevSib hst, hq]
    show predIn (childIds F q) n = (ks1.map aid).getLast?
    rw [hK, predIn_middle hn2]
  have hnnextSib : (reprH F n).nextSib = (ks2.map aid).head? := by
    rw [reprH_nextSib hst, hq]
    show succIn (childIds F q) n = (ks2.map aid).head?
    rw [hK, succIn_middle hn1]
  have hqnot : q ∉ preT st := parent_not_in_subtree hnd hq hst
  have hjq : j ≠ q := fun he => hqnot (he ▸ hjst)
  have hgfields : ∀ k : Nat,
      ((setF (reprH F) q (fun nd => { nd with contents := nd.contents.eraseIdx i })) k).parent
          = (reprH F k).parent ∧
      ((setF (reprH F) q (fun nd => { nd with contents := nd.contents.eraseIdx i })) k).prevSib
          = (reprH F k).prevSib ∧
      ((setF (reprH F) q (fun nd => { nd with contents := nd.contents.eraseIdx i })) k).nextSib
          = (reprH F k).nextSib ∧
      ((setF (reprH F) q (fun nd => { nd with contents := nd.contents.eraseIdx i })) k).prevEl
          = (reprH F k).prevEl ∧
      ((setF (reprH F) q (fun nd => { nd with contents := nd.contents.eraseIdx i })) k).nextEl
          = (reprH F k).nextEl := by
    intro k
    by_cases hk : k = q <;> simp [setF, hk]
  obtain ⟨P, Q, hPQ1, hPQ2⟩ := preF_removeF hnd hst
  have hstPQ : ∀ x ∈ preT st, x ∉ P ++ Q := by
    intro x hx
    have hnd2 := hnd
    rw [hPQ1] at hnd2
    intro hm
    rcases List.mem_append.mp hm with hm | hm
    · have hnd3 := hnd2
      rw [List.append_assoc] at hnd3
      exact (List.disjoint_of_nodup_append hnd3) hm
        (List.mem_append.mpr (Or.inl hx))
    · exact (List.disjoint_of_nodup_append hnd2)
        (List.mem_append.mpr (Or.inr hx)) hm
  have hfindF' : ∀ x ∈ preT st, ∀ rx, findT x st = some rx →
      findF x (removeF n F ++ [st]) = some rx ∧ findF x F = some rx := by
    intro x hx rx hrx
    constructor
    · rw [findF_append,
        findF_not_mem (show x ∉ preF (removeF n F) by rw [hPQ2]; exact hstPQ x hx),
        findF_single]
      exact hrx
    · exact findF_trans hnd hst hrx
  obtain ⟨r, hr⟩ : ∃ r, findT j st = some r := by
    have hs := (findT_isSome_iff j st).mpr hjst
    match hz : findT j st with
    | some r => exact ⟨r, rfl⟩
    | none => rw [hz] at hs; exact Bool.noConfusion hs
  obtain ⟨hfr', hfindF⟩ := hfindF' j hjst r hr
  have hpar' : parF j (removeF n F ++ [st]) = parT j st := by
    rw [parF_append,
      parF_not_mem (show j ∉ preF (removeF n F) by rw [hPQ2]; exact hstPQ j hjst),
      parF_single]
  have hroot' : rootF j (removeF n F ++ [st]) = some st := by
    rw [rootF_append,
      rootF_none_of_disjoint (fun u hu hm => hstPQ j hjst
        (by rw [← hPQ2]; exact preT_subset_preF hu hm)),
      rootF_single hjst]
  have hcip : ∀ p', p' ∈ preT st →
      childIds (removeF n F ++ [st]) p' = childIds F p' := by
    intro p' hp'
    obtain ⟨rp, hrp⟩ : ∃ rp, findT p' st = some rp := by
      have hs := (findT_isSome_iff p' st).mpr hp'
      match hz : findT p' st with
      | some rp => exact ⟨rp, rfl⟩
      | none => rw [hz] at hs; exact Bool.noConfusion hs
    obtain ⟨ha, hb⟩ := hfindF' p' hp' rp hrp
    unfold childIds
    rw [ha, hb]
  have hjY : j ∉ Y := by
    have hnd2 := hndt
    rw [hdec] at hnd2
    intro hm
    exact (List.disjoint_of_nodup_append hnd2)
      (List.mem_append.mpr (Or.inr hjst)) hm
  have hjX : j ∉ X := by
    have hnd2 := hndt
    rw [hdec, List.append_assoc] at hnd2
    intro hm
    exact (List.disjoint_of_nodup_append hnd2) hm
      (List.mem_append.mpr (Or.inl hjst))
  refine hnode_ext ?_ ?_ ?_ ?_ ?_ ?_ ?_ ?_ ?_ ?_ ?_
  · rw [(extractLinks_dataEq _ n (lastA st) j).1,
      isTag_setF (reprH F) q (fun nd => { nd with contents := nd.contents.eraseIdx i })
        (fun nd => rfl) j,
      reprH_isTag hfindF, reprH_isTag hfr']
  · rw [(extractLinks_dataEq _ n (lastA st) j).2.1,
      name_setF (reprH F) q (fun nd => { nd with contents := nd.contents.eraseIdx i })
        (fun nd => rfl) j]
    unfold reprH
    rw [hfindF, hfr']
  · rw [(extractLinks_dataEq _ n (lastA st) j).2.2.1,
      attrs_setF (reprH F) q (fun nd => { nd with contents := nd.contents.eraseIdx i })
        (fun nd => rfl) j]
    unfold reprH
    rw [hfindF, hfr']
  · rw [(extractLinks_dataEq _ n (lastA st) j).2.2.2.1,
      text_setF (reprH F) q (fun nd => { nd with contents := nd.contents.eraseIdx i })
        (fun nd => rfl) j]
    unfold reprH
    rw [hfindF, hfr']
  · rw [(extractLinks_dataEq _ n (lastA st) j).2.2.2.2,
      setF_apply_ne (reprH F) q (fun nd => { nd with contents := nd.contents.eraseIdx i })
        j hjq,
      reprH_contents hfindF, reprH_contents hfr']
  · rw [extractLinks_parent, reprH_parent hfr', hpar']
    by_cases hjn : j = n
    · rw [if_pos hjn, hjn]
      have hpn := parT_self_none hndst
      rw [haidst] at hpn
      rw [hpn]
    · rw [if_neg hjn, (hgfields j).1, reprH_parent hfindF]
      exact parF_sub hnd hst hjst hjn
  · rw [extractLinks_prevSib_at, reprH_prevSib hfr', hpar']
    by_cases hjn : j = n
    · rw [if_pos hjn, hjn]
      have hpn := parT_self_none hndst
      rw [haidst] at hpn
      rw [hpn]
      rfl
    · rw [if_neg hjn]
      have hcond : ¬(((setF (reprH F) q
            (fun nd => { nd with contents := nd.contents.eraseIdx i })) n).nextSib
              = some j ∧
          some j ≠ ((setF (reprH F) q
            (fun nd => { nd with contents := nd.contents.eraseIdx i })) n).prevSib) := by
        intro hc
        have h1 : (ks2.map aid).head? = some j := by
          rw [← hnnextSib, ← (hgfields n).2.2.1]
          exact hc.1
        obtain ⟨c2', hc2'm, hc2'a⟩ := List.mem_map.mp (mem_of_head_some h1)
        have hc2'mem : c2' ∈ akids stq := by rw [hks]; simp [hc2'm]
        have heq : c2' = st := members_unique hndkids hc2'mem hcmem
          (hc2'a ▸ aid_mem_preT c2') hjst
        rw [heq] at hc2'a
        exact hjn (by rw [← hc2'a, haidst])
      rw [if_neg hcond, (hgfields j).2.1, reprH_prevSib hfindF,
        parF_sub hnd hst hjst hjn]
      match hp : parT j st with
      | none => rfl
      | some p' =>
        show predIn (childIds F p') j
          = predIn (childIds (removeF n F ++ [st]) p') j
        rw [hcip p' (parT_parent_mem hp)]
  · rw [extractLinks_nextSib_at, reprH_nextSib hfr', hpar']
    by_cases hjn : j = n
    · rw [if_pos hjn, hjn]
      have hpn := parT_self_none hndst
      rw [haidst] at hpn
      rw [hpn]
      rfl
    · rw [if_neg hjn]
      have hcond : ¬(((setF (reprH F) q
            (fun nd => { nd with contents := nd.contents.eraseIdx i })) n).prevSib
              = some j ∧
          some j ≠ ((setF (reprH F) q
            (fun nd => { nd with contents := nd.contents.eraseIdx i })) n).nextSib) := by
        intro hc
        have h1 : (ks1.map aid).getLast? = some j := by
          rw [← hnprevSib, ← (hgfields n).2.1]
          exact hc.1
        obtain ⟨c1', hc1'm, hc1'a⟩ := List.mem_map.mp (mem_of_getLast_some h1)
        have hc1'mem : c1' ∈ akids stq := by rw [hks]; simp [hc1'm]
        have heq : c1' = st := members_unique hndkids hc1'mem hcmem
          (hc1'a ▸ aid_mem_preT c1') hjst
        rw [heq] at hc1'a
        exact hjn (by rw [← hc1'a, haidst])
      rw [if_neg hcond, (hgfields j).2.2.1, reprH_nextSib hfindF,
        parF_sub hnd hst hjst hjn]
      match hp : parT j st with
      | none => rfl
      | some p' =>
        show succIn (childIds F p') j
          = succIn (childIds (removeF n F ++ [st]) p') j
        rw [hcip p' (parT_parent_mem hp)]
  · rw [extractLinks_prevEl_at, reprH_prevEl hfr', hroot']
    by_cases hjn : j = n
    · rw [if_pos hjn, hjn]
      show (none : Option Nat) = predIn (preT st) n
      have hnstl : n ∉ stl := by
        have hnd2 := hndst
        rw [hstl] at hnd2
        exact (List.nodup_cons.mp hnd2).1
      rw [hstl]
      rw [show (n :: stl) = [] ++ n :: stl from rfl, predIn_middle hnstl]
      rfl
    · rw [if_neg hjn]
      have hcond : ¬(((setF (reprH F) q
            (fun nd => { nd with contents := nd.contents.eraseIdx i })) (lastA st)).nextEl
              = some j ∧
          some j ≠ ((setF (reprH F) q
            (fun nd => { nd with contents := nd.contents.eraseIdx i })) n).prevEl) := by
        intro hc
        refine hjY (mem_of_head_some ?_)
        rw [← hnnextE, ← (hgfields (lastA st)).2.2.2.2]
        exact hc.1
      rw [if_neg hcond, (hgfields j).2.2.2.1, reprH_prevEl hfindF,
        rootF_eq hnd ht (by
          rw [hdec]
          exact List.mem_append.mpr (Or.inl (List.mem_append.mpr (Or.inr hjst))))]
      show predIn (preT t) j = predIn (preT st) j
      have hheadne : (preT st).head? ≠ some j := by
        rw [hstl]
        intro hc
        injection hc with hc
        exact hjn hc.symm
      rw [hdec, predIn_drop_right hjY, predIn_drop_left hjst hheadne]
  · rw [extractLinks_nextEl_at, reprH_nextEl hfr', hroot']
    by_cases hjl : j = lastA st
    · rw [if_pos hjl, hjl]
      show (none : Option Nat) = succIn (preT st) (lastA st)
      exact (succIn_getLast_none hndst (preT_getLast st)).symm
    · rw [if_neg hjl]
      have hcond : ¬(((setF (reprH F) q
            (fun nd => { nd with contents := nd.contents.eraseIdx i })) n).prevEl
              = some j ∧
          some j ≠ ((setF (reprH F) q
            (fun nd => { nd with contents := nd.contents.eraseIdx i })) (lastA st)).nextEl) := by
        intro hc
        refine hjX (mem_of_getLast_some ?_)
        rw [← hnprevEl, ← (hgfields n).2.2.2.1]
        exact hc.1
      rw [if_neg hcond, (hgfields j).2.2.2.2]
      have hjt : j ∈ preT t := by
        rw [hdec]
        exact List.mem_append.mpr (Or.inl (List.mem_append.mpr (Or.inr hjst)))
      rw [reprH_nextEl_chain hnd ht hjt]
      show succIn (preT t) j = succIn (preT st) j
      exact succIn_subtree hnd ht hdec hjst hjl
  · rw [extractLinks_decomposed,
      decomposed_setF (reprH F) q (fun nd => { nd with contents := nd.contents.eraseIdx i })
        (fun nd => rfl) j,
      reprH_decomposed hfindF, reprH_decomposed hfr']

theorem adata_removeT (n : Nat) (t : ATree) : adata (removeT n t) = adata t := by
  rcases t with ⟨i, d, cs⟩
  rw [removeT, adata, adata]

theorem akids_removeT (n : Nat) (t : ATree) : akids (removeT n t) = removeF n (akids t) := by
  rcases t with ⟨i, d, cs⟩
  rw [removeT, akids, akids]

theorem parT_not_mem {j : Nat} {t : ATree} (h : j ∉ preT t) : parT j t = none := by
  match hy : parT j t with
  | none => rfl
  | some q => exact absurd (parT_mem hy) h

/-- Extract simulation, outside region: after the surgery, a node outside
the extracted subtree carries exactly the fields it has in the new forest,
in which the subtree has been removed from its place and appended as a
detached root. -/
theorem extract_sim_out {F : List ATree} (hwf : wfForest F = true) {n q : Nat}
    {st : ATree} (hst : findF n F = some st) (hq : parF n F = some q)
    {i : Nat} (hidx : idxOfId n ((reprH F) q).contents = some i) (j : Nat)
    (hjst : j ∉ preT st) :
    extractLinks
        (setF (reprH F) q (fun nd => { nd with contents := nd.contents.eraseIdx i }))
        n (lastA st) j
      = reprH (removeF n F ++ [st]) j := by
  rw [wfForest, Bool.and_eq_true] at hwf
  have hnd : (preF F).Nodup := (nodupB_iff _).mp hwf.1
  obtain ⟨stq, hstq, hnkids⟩ := parF_char hnd hq
  obtain ⟨ks1, c, ks2, hks, hca⟩ := mem_map_aid_split hnkids
  have hcmem : c ∈ akids stq := by rw [hks]; simp
  have hfc : findF n F = some c := hca ▸ findF_child hnd hstq hcmem
  have hcst : st = c := by
    rw [hfc] at hst
    injection hst with h
    exact h.symm
  subst hcst
  have haidst : aid st = n := findF_aid hst
  have hroot : ∀ u ∈ F, aid u ≠ n := by
    intro u hu ha
    have hz := parF_root_none hnd hu
    rw [ha, hq] at hz
    exact Option.noConfusion hz
  have hjall : ∀ st2, findF n F = some st2 → j ∉ preT st2 := by
    intro st2 hst2
    rw [hst] at hst2
    injection hst2 with h
    rw [← h]
    exact hjst
  have hndkids : (preF (akids stq)).Nodup := by
    have hndq : (preT stq).Nodup := (findF_seg hstq).sublist.nodup hnd
    rcases stq with ⟨i3, d3, cs3⟩
    rw [preT_eq] at hndq
    rw [akids]
    exact (List.nodup_cons.mp hndq).2
  have hkidssub : preF (akids stq) ⊆ preT stq := by
    rcases stq with ⟨i3, d3, cs3⟩
    rw [preT_eq, akids]
    exact fun x hx => List.mem_cons_of_mem i3 hx
  obtain ⟨t, ht, hnt⟩ := exists_root (findF_mem hst)
  have hndt : (preT t).Nodup := (preT_infix_preF ht).sublist.nodup hnd
  have hndst : (preT st).Nodup := (findF_seg hst).sublist.nodup hnd
  have hat : aid t ≠ n := hroot t ht
  have hft : findT n t = some st := by
    rw [← findF_eq_findT hnd ht hnt]
    exact hst
  obtain ⟨X, Y, hdec, hrem⟩ := preT_removeT hndt hft (fun h => hat h.symm)
  have hsthd : ∃ tl, preT st = n :: tl := by
    rcases st with ⟨i2, d2, cs2⟩
    rw [aid] at haidst
    exact ⟨preF cs2, by rw [preT_eq, haidst]⟩
  obtain ⟨stl, hstl⟩ := hsthd
  have hXt : preT t = X ++ n :: (stl ++ Y) := by
    rw [hdec, hstl]
    simp
  have hrootn : rootF n F = some t := rootF_eq hnd ht hnt
  have hnprevEl : (reprH F n).prevEl = X.getLast? := by
    rw [reprH_prevEl hst, hrootn]
    have hnn : n ∉ stl ++ Y := by
      have hnd2 := hndt
      rw [hXt] at hnd2
      exact (List.nodup_cons.mp hnd2.of_append_right).1
    show predIn (preT t) n = X.getLast?
    rw [hXt, predIn_middle hnn]
  obtain ⟨S0, hS0⟩ := getLast_split (preT_getLast st)
  have hTlast : preT t = (X ++ S0) ++ lastA st :: Y := by
    rw [hdec, hS0]
    simp
  have hlm : lastA st ∈ preT t := by
    rw [hdec]
    exact List.mem_append.mpr (Or.inl (List.mem_append.mpr (Or.inr (lastA_mem st))))
  have hnnextE : (reprH F (lastA st)).nextEl = Y.head? := by
    rw [reprH_nextEl_chain hnd ht hlm]
    have hln : lastA st ∉ X ++ S0 := by
      have hnd2 := hndt
      rw [hTlast] at hnd2
      intro hm
      exact (List.disjoint_of_nodup_append hnd2) hm (List.mem_cons_self _ _)
    rw [hTlast, succIn_middle hln]
  have hK : childIds F q = (ks1.map aid) ++ n :: (ks2.map aid) := by
    unfold childIds
    rw [hstq]
    show (akids stq).map aid = (ks1.map aid) ++ n :: (ks2.map aid)
    rw [hks, List.map_append, List.map_cons, hca]
  have hndK : ((ks1.map aid) ++ n :: (ks2.map aid)).Nodup := by
    have hsub := map_aid_sublist (akids stq)
    rw [hks, List.map_append, List.map_cons, hca] at hsub
    have hndkids2 := hndkids
    rw [hks] at hndkids2
    exact hsub.nodup hndkids2
  have hn1 : n ∉ ks1.map aid := by
    intro hm
    exact (List.disjoint_of_nodup_append hndK) hm (List.mem_cons_self _ _)
  have hn2 : n ∉ ks2.map aid := (List.nodup_cons.mp hndK.of_append_right).1
  have hnprevSib : (reprH F n).prevSib = (ks1.map aid).getLast? := by
    rw [reprH_prevSib hst, hq]
    show predIn (childIds F q) n = (ks1.map aid).getLast?
    rw [hK, predIn_middle hn2]
  have hnnextSib : (reprH F n).nextSib = (ks2.map aid).head? := by
    rw [reprH_nextSib hst, hq]
    show succIn (childIds F q) n = (ks2.map aid).head?
    rw [hK, succIn_middle hn1]
  have hieq : i = (ks1.map aid).length := by
    rw [reprH_contents hstq, hks, List.map_append, List.map_cons, hca,
      idxOfId_append_middle _ hn1] at hidx
    injection hidx with h
    exact h.symm
  have hqc : (reprH F q).contents = (ks1.map aid) ++ n :: (ks2.map aid) := by
    rw [reprH_contents hstq, hks, List.map_append, List.map_cons, hca]
  have hgfields : ∀ k : Nat,
      ((setF (reprH F) q (fun nd => { nd with contents := nd.contents.eraseIdx i })) k).parent
          = (reprH F k).parent ∧
      ((setF (reprH F) q (fun nd => { nd with contents := nd.contents.eraseIdx i })) k).prevSib
          = (reprH F k).prevSib ∧
      ((setF (reprH F) q (fun nd => { nd with contents := nd.contents.eraseIdx i })) k).nextSib
          = (reprH F k).nextSib ∧
      ((setF (reprH F) q (fun nd => { nd with contents := nd.contents.eraseIdx i })) k).prevEl
          = (reprH F k).prevEl ∧
      ((setF (reprH F) q (fun nd => { nd with contents := nd.contents.eraseIdx i })) k).nextEl
          = (reprH F k).nextEl := by
    intro k
    by_cases hk : k = q <;> simp [setF, hk]
  have hjn : j ≠ n := fun he => hjst (he ▸ (hstl ▸ List.mem_cons_self n stl))
  have hjlast : j ≠ lastA st := fun he => hjst (he ▸ lastA_mem st)
  have hchq : ∀ p rp, findF p F = some rp → n ∈ (akids rp).map aid → p = q := by
    intro p rp hrp hm
    have hz := parF_unique hnd hrp hm
    rw [hq] at hz
    injection hz with hz
    exact hz.symm
  have hfiltid : ∀ p rp, findF p F = some rp → p ≠ q →
      (childIds F p).filter (fun x => decide (x ≠ n)) = childIds F p := by
    intro p rp hrp hpq
    unfold childIds
    rw [hrp]
    exact filter_ne_of_not_mem (fun hm => hpq (hchq p rp hrp hm))
  have hXst : ∀ x ∈ X, x ∉ preT st := by
    intro x hx hxs
    have hnd2 := hndt
    rw [hdec, List.append_assoc] at hnd2
    exact (List.disjoint_of_nodup_append hnd2) hx
      (List.mem_append.mpr (Or.inl hxs))
  have hYst : ∀ x ∈ Y, x ∉ preT st := by
    intro x hx hxs
    have hnd2 := hndt
    rw [hdec] at hnd2
    exact (List.disjoint_of_nodup_append hnd2)
      (List.mem_append.mpr (Or.inr hxs)) hx
  have hXY : ∀ x ∈ X, x ∉ Y := by
    intro x hx hxy
    have hnd2 := hndt
    rw [hdec, List.append_assoc] at hnd2
    exact (List.disjoint_of_nodup_append hnd2) hx
      (List.mem_append.mpr (Or.inr hxy))
  have hndX : X.Nodup := by
    have hnd2 := hndt
    rw [hdec, List.append_assoc] at hnd2
    exact hnd2.of_append_left
  have hXmem : ∀ x, X.getLast? = some x → x ∈ preT t := by
    intro x hx
    rw [hdec]
    exact List.mem_append.mpr (Or.inl (List.mem_append.mpr (Or.inl
      (mem_of_getLast_some hx))))
  have hYmem : ∀ x, Y.head? = some x → x ∈ preT t := by
    intro x hx
    rw [hdec]
    exact List.mem_append.mpr (Or.inr (mem_of_head_some hx))
  have hK1F : ∀ x, (ks1.map aid).getLast? = some x → x ∈ preF F := by
    intro x hx
    obtain ⟨cx, hcxm, hcxa⟩ := List.mem_map.mp (mem_of_getLast_some hx)
    refine (findF_seg hstq).subset (hkidssub ?_)
    exact hcxa ▸ aid_mem_preF (by rw [hks]; simp [hcxm])
  have hK2F : ∀ x, (ks2.map aid).head? = some x → x ∈ preF F := by
    intro x hx
    obtain ⟨cx, hcxm, hcxa⟩ := List.mem_map.mp (mem_of_head_some hx)
    refine (findF_seg hstq).subset (hkidssub ?_)
    exact hcxa ▸ aid_mem_preF (by rw [hks]; simp [hcxm])
  by_cases hjF : j ∈ preF F
  · -- j is a node of the forest outside the extracted subtree
    obtain ⟨rj, hrj⟩ := findF_exists_of_mem hjF
    have hfr' : findF j (removeF n F ++ [st]) = some (removeT n rj) := by
      rw [findF_append, findF_removeF hnd hjall, hrj]
      rfl
    have hpar' : parF j (removeF n F ++ [st]) = parF j F := by
      rw [parF_append, parF_removeF hnd hjall]
      match hy : parF j F with
      | some p => rfl
      | none => rw [parF_single, parT_not_mem hjst]
    have hci' : ∀ p rp, findF p F = some rp → p ∉ preT st →
        childIds (removeF n F ++ [st]) p
          = (childIds F p).filter (fun x => decide (x ≠ n)) := by
      intro p rp hrp hpst
      have hpall : ∀ st2, findF n F = some st2 → p ∉ preT st2 := by
        intro st2 hst2
        rw [hst] at hst2
        injection hst2 with h
        rw [← h]
        exact hpst
      unfold childIds
      rw [findF_append, findF_removeF hnd hpall, hrp]
      show (akids (removeT n rp)).map aid = ((akids rp).map aid).filter _
      rw [akids_removeT, map_aid_removeF]
    have hparout : ∀ p, parF j F = some p → p ∉ preT st := by
      intro p hp hpin
      obtain ⟨stp, hstp, hjkid⟩ := parF_char hnd hp
      obtain ⟨rp2, hrp2⟩ : ∃ rp2, findT p st = some rp2 := by
        have hs := (findT_isSome_iff p st).mpr hpin
        match hz : findT p st with
        | some rp2 => exact ⟨rp2, rfl⟩
        | none => rw [hz] at hs; exact Bool.noConfusion hs
      have hf2 : findF p F = some rp2 := findF_trans hnd hst hrp2
      rw [hstp] at hf2
      injection hf2 with hf2
      refine hjst ((findT_seg hrp2).subset ?_)
      rw [← hf2]
      exact mem_kids_mem_preT hjkid
    refine hnode_ext ?_ ?_ ?_ ?_ ?_ ?_ ?_ ?_ ?_ ?_ ?_
    · rw [(extractLinks_dataEq _ n (lastA st) j).1,
        isTag_setF (reprH F) q (fun nd => { nd with contents := nd.contents.eraseIdx i })
          (fun nd => rfl) j,
        reprH_isTag hrj, reprH_isTag hfr', adata_removeT]
    · rw [(extractLinks_dataEq _ n (lastA st) j).2.1,
        name_setF (reprH F) q (fun nd => { nd with contents := nd.contents.eraseIdx i })
          (fun nd => rfl) j]
      unfold reprH
      rw [hrj, hfr']
      show (adata rj).name = (adata (removeT n rj)).name
      rw [adata_removeT]
    · rw [(extractLinks_dataEq _ n (lastA st) j).2.2.1,
        attrs_setF (reprH F) q (fun nd => { nd with contents := nd.contents.eraseIdx i })
          (fun nd => rfl) j]
      unfold reprH
      rw [hrj, hfr']
      show (adata rj).attrs = (adata (removeT n rj)).attrs
      rw [adata_removeT]
    · rw [(extractLinks_dataEq _ n (lastA st) j).2.2.2.1,
        text_setF (reprH F) q (fun nd => { nd with contents := nd.contents.eraseIdx i })
          (fun nd => rfl) j]
      unfold reprH
      rw [hrj, hfr']
      show (adata rj).text = (adata (removeT n rj)).text
      rw [adata_removeT]
    · rw [(extractLinks_dataEq _ n (lastA st) j).2.2.2.2,
        reprH_contents hfr', akids_removeT, map_aid_removeF]
      by_cases hjq : j = q
      · subst hjq
        rw [setF_apply_self]
        show ((reprH F j).contents).eraseIdx i = ((akids rj).map aid).filter _
        rw [hrj] at hstq
        injection hstq with he
        subst he
        rw [hqc, hieq, eraseIdx_append_middle, hks, List.map_append, List.map_cons, hca,
          filter_ne_middle hn1 hn2]
      · rw [setF_apply_ne (reprH F) q
            (fun nd => { nd with contents := nd.contents.eraseIdx i }) j hjq,
          reprH_contents hrj]
        exact (filter_ne_of_not_mem (fun hm => hjq (hchq j rj hrj hm))).symm
    · rw [extractLinks_parent, if_neg hjn, (hgfields j).1, reprH_parent hrj,
        reprH_parent hfr', hpar']
    · -- previous sibling
      rw [extractLinks_prevSib_at, if_neg hjn, reprH_prevSib hfr', hpar']
      by_cases hns : (ks2.map aid).head? = some j
      · have hcond : ((setF (reprH F) q
              (fun nd => { nd with contents := nd.contents.eraseIdx i })) n).nextSib
                = some j ∧
            some j ≠ ((setF (reprH F) q
              (fun nd => { nd with contents := nd.contents.eraseIdx i })) n).prevSib := by
          refine ⟨by rw [(hgfields n).2.2.1, hnnextSib]; exact hns, ?_⟩
          rw [(hgfields n).2.1, hnprevSib]
          intro he
          have hj2 : j ∈ ks2.map aid := mem_of_head_some hns
          have hj1 : j ∈ ks1.map aid := mem_of_getLast_some he.symm
          exact (List.disjoint_of_nodup_append hndK) hj1
            (List.mem_cons_of_mem n hj2)
        rw [if_pos hcond, (hgfields n).2.1, hnprevSib]
        have hpj : parF j F = some q :=
          parF_unique hnd hstq (by
            rw [hks, List.map_append, List.map_cons]
            exact List.mem_append.mpr (Or.inr (List.mem_cons_of_mem _
              (mem_of_head_some hns))))
        rw [hpj]
        show (ks1.map aid).getLast?
          = predIn (childIds (removeF n F ++ [st]) q) j
        rw [hci' q stq hstq (parent_not_in_subtree hnd hq hst),
          hK, filter_ne_middle hn1 hn2]
        obtain ⟨K2', hK2'⟩ : ∃ K2', ks2.map aid = j :: K2' := by
          match hy : ks2.map aid, hns with
          | x :: xs, hns =>
            injection hns with h2
            exact ⟨xs, by rw [h2]⟩
        rw [hK2']
        have hjK2' : j ∉ K2' := by
          have hnd2 := hndK.of_append_right
          rw [hK2'] at hnd2
          exact (List.nodup_cons.mp (List.nodup_cons.mp hnd2).2).1
        rw [predIn_middle hjK2']
      · have hcond : ¬(((setF (reprH F) q
              (fun nd => { nd with contents := nd.contents.eraseIdx i })) n).nextSib
                = some j ∧
            some j ≠ ((setF (reprH F) q
              (fun nd => { nd with contents := nd.contents.eraseIdx i })) n).prevSib) := by
          intro hc
          refine hns ?_
          rw [← hnnextSib, ← (hgfields n).2.2.1]
          exact hc.1
        rw [if_neg hcond, (hgfields j).2.1, reprH_prevSib hrj]
        match hy : parF j F with
        | none => rfl
        | some p =>
          show predIn (childIds F p) j = predIn (childIds (removeF n F ++ [st]) p) j
          obtain ⟨rp, hrp⟩ := findF_exists_of_mem (parF_parent_mem hy)
          rw [hci' p rp hrp (hparout p hy)]
          by_cases hpq : p = q
          · subst hpq
            rw [hK, filter_ne_middle hn1 hn2]
            have hjck : j ∈ (ks1.map aid) ++ n :: (ks2.map aid) := by
              obtain ⟨stp2, hstp2, hjk2⟩ := parF_char hnd hy
              rw [hstq] at hstp2
              injection hstp2 with he
              rw [← hK]
              unfold childIds
              rw [hstq, he]
              exact hjk2
            have hmid : (ks1.map aid) ++ n :: (ks2.map aid)
                = (ks1.map aid) ++ [n] ++ (ks2.map aid) := by simp
            rcases List.mem_append.mp hjck with hjk | hjk
            · rw [hmid]
              refine predIn_left_mid ?_ ?_
              · intro hm
                exact (List.disjoint_of_nodup_append hndK) hjk
                  (List.mem_cons_of_mem n hm)
              · intro hm
                rcases List.mem_cons.mp hm with hm | hm
                · exact hjn hm
                · exact absurd hm (List.not_mem_nil j)
            · rcases List.mem_cons.mp hjk with hjk | hjk
              · exact absurd hjk hjn
              · rw [hmid]
                refine predIn_skip_mid hjk ?_
                exact hns
          · rw [hfiltid p rp hrp hpq]
    · -- next sibling
      rw [extractLinks_nextSib_at, if_neg hjn, reprH_nextSib hfr', hpar']
      by_cases hps : (ks1.map aid).getLast? = some j
      · have hcond : ((setF (reprH F) q
              (fun nd => { nd with contents := nd.contents.eraseIdx i })) n).prevSib
                = some j ∧
            some j ≠ ((setF (reprH F) q
              (fun nd => { nd with contents := nd.contents.eraseIdx i })) n).nextSib := by
          refine ⟨by rw [(hgfields n).2.1, hnprevSib]; exact hps, ?_⟩
          rw [(hgfields n).2.2.1, hnnextSib]
          intro he
          have hj1 : j ∈ ks1.map aid := mem_of_getLast_some hps
          have hj2 : j ∈ ks2.map aid := mem_of_head_some he.symm
          exact (List.disjoint_of_nodup_append hndK) hj1
            (List.mem_cons_of_mem n hj2)
        rw [if_pos hcond, (hgfields n).2.2.1, hnnextSib]
        have hpj : parF j F = some q :=
          parF_unique hnd hstq (by
            rw [hks, List.map_append, List.map_cons]
            exact List.mem_append.mpr (Or.inl (mem_of_getLast_some hps)))
        rw [hpj]
        show (ks2.map aid).head?
          = succIn (childIds (removeF n F ++ [st]) q) j
        rw [hci' q stq hstq (parent_not_in_subtree hnd hq hst),
          hK, filter_ne_middle hn1 hn2]
        rw [succIn_getLast_append (hndK.of_append_left) hps]
      · have hcond : ¬(((setF (reprH F) q
              (fun nd => { nd with contents := nd.contents.eraseIdx i })) n).prevSib
                = some j ∧
            some j ≠ ((setF (reprH F) q
              (fun nd => { nd with contents := nd.contents.eraseIdx i })) n).nextSib) := by
          intro hc
          refine hps ?_
          rw [← hnprevSib, ← (hgfields n).2.1]
          exact hc.1
        rw [if_neg hcond, (hgfields j).2.2.1, reprH_nextSib hrj]
        match hy : parF j F with
        | none => rfl
        | some p =>
          show succIn (childIds F p) j = succIn (childIds (removeF n F ++ [st]) p) j
          obtain ⟨rp, hrp⟩ := findF_exists_of_mem (parF_parent_mem hy)
          rw [hci' p rp hrp (hparout p hy)]
          by_cases hpq : p = q
          · subst hpq
            rw [hK, filter_ne_middle hn1 hn2]
            have hjck : j ∈ (ks1.map aid) ++ n :: (ks2.map aid) := by
              obtain ⟨stp2, hstp2, hjk2⟩ := parF_char hnd hy
              rw [hstq] at hstp2
              injection hstp2 with he
              rw [← hK]
              unfold childIds
              rw [hstq, he]
              exact hjk2
            have hmid : (ks1.map aid) ++ n :: (ks2.map aid)
                = (ks1.map aid) ++ [n] ++ (ks2.map aid) := by simp
            rcases List.mem_append.mp hjck with hjk | hjk
            · rw [hmid]
              exact succIn_skip_mid hjk hps
            · rcases List.mem_cons.mp hjk with hjk | hjk
              · exact absurd hjk hjn
              · rw [hmid]
                refine succIn_right_mid ?_ ?_
                · intro hm
                  exact (List.disjoint_of_nodup_append hndK) hm
                    (List.mem_cons_of_mem n hjk)
                · intro hm
                  rcases List.mem_cons.mp hm with hm | hm
                  · exact hjn hm
                  · exact absurd hm (List.not_mem_nil j)
          · rw [hfiltid p rp hrp hpq]
    · -- previous element
      rw [extractLinks_prevEl_at, if_neg hjn, reprH_prevEl hfr']
      by_cases hjt : j ∈ preT t
      · have hrootj' : rootF j (removeF n F ++ [st]) = some (removeT n t) := by
          rw [rootF_append, rootF_removeF hnd hroot hst hjst, rootF_eq hnd ht hjt]
          rfl
        rw [hrootj']
        show _ = predIn (preT (removeT n t)) j
        rw [hrem]
        by_cases hne : Y.head? = some j
        · have hcond : ((setF (reprH F) q
                (fun nd => { nd with contents := nd.contents.eraseIdx i })) (lastA st)).nextEl
                  = some j ∧
              some j ≠ ((setF (reprH F) q
                (fun nd => { nd with contents := nd.contents.eraseIdx i })) n).prevEl := by
            refine ⟨by rw [(hgfields (lastA st)).2.2.2.2, hnnextE]; exact hne, ?_⟩
            rw [(hgfields n).2.2.2.1, hnprevEl]
            intro he
            exact hXY j (mem_of_getLast_some he.symm) (mem_of_head_some hne)
          rw [if_pos hcond, (hgfields n).2.2.2.1, hnprevEl]
          obtain ⟨Y', hY'⟩ : ∃ Y', Y = j :: Y' := by
            match hy2 : Y, hne with
            | x :: xs, hne =>
              injection hne with h2
              exact ⟨xs, by rw [h2]⟩
          rw [hY']
          have hjY' : j ∉ Y' := by
            have hnd2 := hndt
            rw [hdec, hY'] at hnd2
            exact (List.nodup_cons.mp hnd2.of_append_right).1
          rw [predIn_middle hjY']
        · have hcond : ¬(((setF (reprH F) q
                (fun nd => { nd with contents := nd.contents.eraseIdx i })) (lastA st)).nextEl
                  = some j ∧
              some j ≠ ((setF (reprH F) q
                (fun nd => { nd with contents := nd.contents.eraseIdx i })) n).prevEl) := by
            intro hc
            refine hne ?_
            rw [← hnnextE, ← (hgfields (lastA st)).2.2.2.2]
            exact hc.1
          rw [if_neg hcond, (hgfields j).2.2.2.1, reprH_prevEl hrj,
            rootF_eq hnd ht hjt]
          show predIn (preT t) j = predIn (X ++ Y) j
          have hjXY : j ∈ X ∨ j ∈ Y := by
            have hj2 := hjt
            rw [hdec] at hj2
            rcases List.mem_append.mp hj2 with hj2 | hj2
            · rcases List.mem_append.mp hj2 with hj2 | hj2
              · exact Or.inl hj2
              · exact absurd hj2 hjst
            · exact Or.inr hj2
          rcases hjXY with hjk | hjk
          · rw [hdec]
            exact predIn_left_mid (hXY j hjk) (fun hm => hXst j hjk hm)
          · rw [hdec]
            exact predIn_skip_mid hjk hne
      · obtain ⟨u, hu, hju⟩ := exists_root hjF
        have hnu : n ∉ preT u := by
          intro hm
          have he := members_unique hnd hu ht hm hnt
          exact hjt (he ▸ hju)
        have hrootj' : rootF j (removeF n F ++ [st]) = some u := by
          rw [rootF_append, rootF_removeF hnd hroot hst hjst, rootF_eq hnd hu hju]
          show some (removeT n u) = some u
          rw [removeT_id hnu]
        rw [hrootj']
        have hcond : ¬(((setF (reprH F) q
              (fun nd => { nd with contents := nd.contents.eraseIdx i })) (lastA st)).nextEl
                = some j ∧
            some j ≠ ((setF (reprH F) q
              (fun nd => { nd with contents := nd.contents.eraseIdx i })) n).prevEl) := by
          intro hc
          have h1 : Y.head? = some j := by
            rw [← hnnextE, ← (hgfields (lastA st)).2.2.2.2]
            exact hc.1
          exact hjt (hYmem j h1)
        rw [if_neg hcond, (hgfields j).2.2.2.1, reprH_prevEl hrj,
          rootF_eq hnd hu hju]
    · -- next element
      rw [extractLinks_nextEl_at, if_neg hjlast, reprH_nextEl hfr']
      by_cases hjt : j ∈ preT t
      · have hrootj' : rootF j (removeF n F ++ [st]) = some (removeT n t) := by
          rw [rootF_append, rootF_removeF hnd hroot hst hjst, rootF_eq hnd ht hjt]
          rfl
        rw [hrootj']
        show _ = succIn (preT (removeT n t)) j
        rw [hrem]
        by_cases hpe : X.getLast? = some j
        · have hcond : ((setF (reprH F) q
                (fun nd => { nd with contents := nd.contents.eraseIdx i })) n).prevEl
                  = some j ∧
              some j ≠ ((setF (reprH F) q
                (fun nd => { nd with contents := nd.contents.eraseIdx i })) (lastA st)).nextEl := by
            refine ⟨by rw [(hgfields n).2.2.2.1, hnprevEl]; exact hpe, ?_⟩
            rw [(hgfields (lastA st)).2.2.2.2, hnnextE]
            intro he
            exact hXY j (mem_of_getLast_some hpe) (mem_of_head_some he.symm)
          rw [if_pos hcond, (hgfields (lastA st)).2.2.2.2, hnnextE]
          show Y.head? = succIn (X ++ Y) j
          rw [succIn_getLast_append hndX hpe]
        · have hcond : ¬(((setF (reprH F) q
                (fun nd => { nd with contents := nd.contents.eraseIdx i })) n).prevEl
                  = some j ∧
              some j ≠ ((setF (reprH F) q
                (fun nd => { nd with contents := nd.contents.eraseIdx i })) (lastA st)).nextEl) := by
            intro hc
            refine hpe ?_
            rw [← hnprevEl, ← (hgfields n).2.2.2.1]
            exact hc.1
          rw [if_neg hcond, (hgfields j).2.2.2.2, reprH_nextEl hrj,
            rootF_eq hnd ht hjt]
          show succIn (preT t) j = succIn (X ++ Y) j
          have hjXY : j ∈ X ∨ j ∈ Y := by
            have hj2 := hjt
            rw [hdec] at hj2
            rcases List.mem_append.mp hj2 with hj2 | hj2
            · rcases List.mem_append.mp hj2 with hj2 | hj2
              · exact Or.inl hj2
              · exact absurd hj2 hjst
            · exact Or.inr hj2
          rcases hjXY with hjk | hjk
          · rw [hdec]
            exact succIn_skip_mid hjk hpe
          · rw [hdec]
            exact succIn_right_mid (fun hm => hXY j hm hjk) hjst
      · obtain ⟨u, hu, hju⟩ := exists_root hjF
        have hnu : n ∉ preT u := by
          intro hm
          have he := members_unique hnd hu ht hm hnt
          exact hjt (he ▸ hju)
        have hrootj' : rootF j (removeF n F ++ [st]) = some u := by
          rw [rootF_append, rootF_removeF hnd hroot hst hjst, rootF_eq hnd hu hju]
          show some (removeT n u) = some u
          rw [removeT_id hnu]
        rw [hrootj']
        have hcond : ¬(((setF (reprH F) q
              (fun nd => { nd with contents := nd.contents.eraseIdx i })) n).prevEl
                = some j ∧
            some j ≠ ((setF (reprH F) q
              (fun nd => { nd with contents := nd.contents.eraseIdx i })) (lastA st)).nextEl) := by
          intro hc
          have h1 : X.getLast? = some j := by
            rw [← hnprevEl, ← (hgfields n).2.2.2.1]
            exact hc.1
          exact hjt (hXmem j h1)
        rw [if_neg hcond, (hgfields j).2.2.2.2, reprH_nextEl hrj,
          rootF_eq hnd hu hju]
    · rw [extractLinks_decomposed,
        decomposed_setF (reprH F) q (fun nd => { nd with contents := nd.contents.eraseIdx i })
          (fun nd => rfl) j,
        reprH_decomposed hrj, reprH_decomposed hfr']
  · -- j is not a node of the forest at all
    have hjq : j ≠ q := fun he => hjF (he ▸ findF_mem hstq)
    have hdef : reprH F j = defaultHNode := by
      unfold reprH
      rw [findF_not_mem hjF]
    have hfr' : findF j (removeF n F ++ [st]) = none := by
      rw [findF_append, findF_not_mem (fun hm => hjF (preF_removeF_subset hm)),
        findF_single]
      exact findT_not_mem hjst
    have hRHS : reprH (removeF n F ++ [st]) j = defaultHNode := by
      unfold reprH
      rw [hfr']
    rw [hRHS]
    have hpeF : (reprH F n).prevEl ≠ some j := by
      rw [hnprevEl]
      intro hc
      exact hjF (preT_subset_preF ht (hXmem j hc))
    have hneF : (reprH F (lastA st)).nextEl ≠ some j := by
      rw [hnnextE]
      intro hc
      exact hjF (preT_subset_preF ht (hYmem j hc))
    have hpsF : (reprH F n).prevSib ≠ some j := by
      rw [hnprevSib]
      intro hc
      exact hjF (hK1F j hc)
    have hnsF : (reprH F n).nextSib ≠ some j := by
      rw [hnnextSib]
      intro hc
      exact hjF (hK2F j hc)
    refine hnode_ext ?_ ?_ ?_ ?_ ?_ ?_ ?_ ?_ ?_ ?_ ?_
    · rw [(extractLinks_dataEq _ n (lastA st) j).1,
        isTag_setF (reprH F) q (fun nd => { nd with contents := nd.contents.eraseIdx i })
          (fun nd => rfl) j, hdef]
    · rw [(extractLinks_dataEq _ n (lastA st) j).2.1,
        name_setF (reprH F) q (fun nd => { nd with contents := nd.contents.eraseIdx i })
          (fun nd => rfl) j, hdef]
    · rw [(extractLinks_dataEq _ n (lastA st) j).2.2.1,
        attrs_setF (reprH F) q (fun nd => { nd with contents := nd.contents.eraseIdx i })
          (fun nd => rfl) j, hdef]
    · rw [(extractLinks_dataEq _ n (lastA st) j).2.2.2.1,
        text_setF (reprH F) q (fun nd => { nd with contents := nd.contents.eraseIdx i })
          (fun nd => rfl) j, hdef]
    · rw [(extractLinks_dataEq _ n (lastA st) j).2.2.2.2,
        setF_apply_ne (reprH F) q (fun nd => { nd with contents := nd.contents.eraseIdx i })
          j hjq, hdef]
    · rw [extractLinks_parent, if_neg hjn, (hgfields j).1, hdef]
    · rw [extractLinks_prevSib_at, if_neg hjn,
        if_neg (fun hc => hnsF (by rw [← (hgfields n).2.2.1]; exact hc.1)),
        (hgfields j).2.1, hdef]
    · rw [extractLinks_nextSib_at, if_neg hjn,
        if_neg (fun hc => hpsF (by rw [← (hgfields n).2.1]; exact hc.1)),
        (hgfields j).2.2.1, hdef]
    · rw [extractLinks_prevEl_at, if_neg hjn,
        if_neg (fun hc => hneF (by rw [← (hgfields (lastA st)).2.2.2.2]; exact hc.1)),
        (hgfields j).2.2.2.1, hdef]
    · rw [extractLinks_nextEl_at, if_neg hjlast,
        if_neg (fun hc => hpeF (by rw [← (hgfields n).2.2.2.1]; exact hc.1)),
        (hgfields j).2.2.2.2, hdef]
    · rw [extractLinks_decomposed,
        decomposed_setF (reprH F) q (fun nd => { nd with contents := nd.contents.eraseIdx i })
          (fun nd => rfl) j, hdef]

/-! ## Extract simulation: heap surgery versus abstract extraction -/

/-- Dissection of `extract` on the heap image of a forest, attached case:
the result is exactly the link surgery applied after deleting the child from
its parent's `contents` list. -/
theorem hExtract_attached_eq {F : List ATree} (hwf : wfForest F = true)
    {fuel n q : Nat} {st : ATree} (hst : findF n F = some st)
    (hq : parF n F = some q) {h1 : Heap}
    (hok : hExtract fuel (reprH F) n none = some h1) :
    ∃ i, idxOfId n ((reprH F) q).contents = some i ∧
      h1 = extractLinks
        (setF (reprH F) q (fun nd => { nd with contents := nd.contents.eraseIdx i }))
        n (lastA st) := by
  rw [wfForest, Bool.and_eq_true] at hwf
  have hnd : (preF F).Nodup := (nodupB_iff _).mp hwf.1
  have hto : tagOkF F = true := hwf.2
  unfold hExtract at hok
  simp only [bind, Option.bind] at hok
  rw [reprH_parent hst, hq] at hok
  dsimp only [] at hok
  match hidx : idxOfId n ((reprH F) q).contents with
  | none =>
    rw [hidx] at hok
    exact Option.noConfusion hok
  | some i =>
    rw [hidx] at hok
    dsimp only [] at hok
    set g := setF (reprH F) q (fun nd => { nd with contents := nd.contents.eraseIdx i })
      with hg
    have hgp : ∀ j, (g j).prevEl = (reprH F j).prevEl := fun j => by
      rw [hg]
      exact prevEl_setF (reprH F) q
        (fun nd => { nd with contents := nd.contents.eraseIdx i }) (fun nd => rfl) j
    have hgs : ∀ j, (g j).nextSib = (reprH F j).nextSib := fun j => by
      rw [hg]
      exact nextSib_setF (reprH F) q
        (fun nd => { nd with contents := nd.contents.eraseIdx i }) (fun nd => rfl) j
    have hqnot : q ∉ preT st := parent_not_in_subtree hnd hq hst
    have hgsub : ∀ j ∈ preT st, g j = reprH F j := fun j hj => by
      rw [hg]
      exact setF_apply_ne (reprH F) q
        (fun nd => { nd with contents := nd.contents.eraseIdx i }) j
        (fun hjq => hqnot (hjq ▸ hj))
    have hnsv : (g n).nextSib = succIn (childIds F q) n := by
      rw [hgs n, reprH_nextSib hst, hq]
      rfl
    rw [hnsv] at hok
    match hsb : succIn (childIds F q) n with
    | some ns =>
      rw [hsb] at hok
      dsimp only [] at hok
      obtain ⟨t', ht', st', hfst', hnt', hnst', _, hpred, _⟩ := sib_last hnd hq hsb
      have hstst : st' = st := by
        rw [hfst'] at hst
        injection hst
      subst hstst
      obtain ⟨stns, hstns⟩ := findF_exists_of_mem (preT_subset_preF ht' hnst')
      have hpe : (g ns).prevEl = some (lastA st') := by
        rw [hgp ns, reprH_prevEl hstns, rootF_eq hnd ht' hnst']
        exact hpred
      rw [hpe] at hok
      dsimp only [] at hok
      injection hok with hok
      exact ⟨i, rfl, hok.symm⟩
    | none =>
      rw [hsb] at hok
      dsimp only [] at hok
      match hld : lastDescDown g fuel n with
      | none =>
        rw [hld] at hok
        exact Option.noConfusion hok
      | some r =>
        rw [hld] at hok
        have hr : r = lastA st :=
          lastDescDown_correct hnd hto g fuel n st hst (fun j hj => hgsub j hj) r hld
        injection hok with hok
        refine ⟨i, rfl, ?_⟩
        rw [← hok, hr]

/-- Dissection of `extract` on the heap image, detached case: no `contents`
deletion happens and the result is the link surgery on the image itself. -/
theorem hExtract_detached_eq {F : List ATree} (hwf : wfForest F = true)
    {fuel n : Nat} {st : ATree} (hst : findF n F = some st)
    (hq : parF n F = none) {h1 : Heap}
    (hok : hExtract fuel (reprH F) n none = some h1) :
    h1 = extractLinks (reprH F) n (lastA st) := by
  rw [wfForest, Bool.and_eq_true] at hwf
  have hnd : (preF F).Nodup := (nodupB_iff _).mp hwf.1
  have hto : tagOkF F = true := hwf.2
  unfold hExtract at hok
  simp only [bind, Option.bind] at hok
  rw [reprH_parent hst, hq] at hok
  dsimp only [] at hok
  have hns : (reprH F n).nextSib = none := by
    rw [reprH_nextSib hst, hq]
    rfl
  rw [hns] at hok
  match hld : lastDescDown (reprH F) fuel n with
  | none =>
    rw [hld] at hok
    exact Option.noConfusion hok
  | some r =>
    rw [hld] at hok
    have hr : r = lastA st :=
      lastDescDown_correct hnd hto (reprH F) fuel n st hst (fun j _ => rfl) r hld
    injection hok with hok
    rw [← hok, hr]

theorem predIn_head_none {l : List Nat} {x : Nat} (hnd : l.Nodup)
    (hh : l.head? = some x) : predIn l x = none := by
  match l with
  | [] => exact Option.noConfusion hh
  | a :: tl =>
    injection hh with hh
    subst hh
    unfold predIn
    have hx : a ∉ tl.reverse := by
      simpa using (List.nodup_cons.mp hnd).1
    rw [List.reverse_cons, succIn_append_not_mem hx]
    rfl

/-- On a root node, the link surgery of `extract` changes no field value:
every pointer it would redirect or clear is already clear. -/
theorem extract_links_root_noop {F : List ATree} (hnd : (preF F).Nodup)
    {n : Nat} {st : ATree} (hst : findF n F = some st) (hq : parF n F = none)
    (j : Nat) : extractLinks (reprH F) n (lastA st) j = reprH F j := by
  obtain ⟨u, hu, hau⟩ := root_of_parF_none (findF_mem hst) hq
  have hust : st = u := by
    have hx := findF_self_of_mem hnd hu
    rw [hau, hst] at hx
    injection hx with hx
  subst hust
  have hstF : st ∈ F := hu
  have haidst : aid st = n := hau
  have hnst : n ∈ preT st := haidst ▸ aid_mem_preT st
  have hndst : (preT st).Nodup := (preT_infix_preF hstF).sublist.nodup hnd
  have hpar : (reprH F n).parent = none := by rw [reprH_parent hst, hq]
  have hpe : (reprH F n).prevEl = none := by
    rw [reprH_prevEl_chain hnd hstF hnst]
    refine predIn_head_none hndst ?_
    rw [head_preT, haidst]
  have hne : (reprH F (lastA st)).nextEl = none := by
    rw [reprH_nextEl_chain hnd hstF (lastA_mem st)]
    exact succIn_getLast_none hndst (preT_getLast st)
  have hps : (reprH F n).prevSib = none := by rw [reprH_prevSib hst, hq]; rfl
  have hnsib : (reprH F n).nextSib = none := by rw [reprH_nextSib hst, hq]; rfl
  refine hnode_ext (extractLinks_dataEq _ _ _ j).1 (extractLinks_dataEq _ _ _ j).2.1
    (extractLinks_dataEq _ _ _ j).2.2.1 (extractLinks_dataEq _ _ _ j).2.2.2.1
    (extractLinks_dataEq _ _ _ j).2.2.2.2 ?_ ?_ ?_ ?_ ?_
    (extractLinks_decomposed _ _ _ j)
  · rw [extractLinks_parent]
    by_cases hjn : j = n
    · rw [if_pos hjn, hjn, hpar]
    · rw [if_neg hjn]
  · rw [extractLinks_prevSib_at]
    by_cases hjn : j = n
    · rw [if_pos hjn, hjn, hps]
    · rw [if_neg hjn, if_neg (fun hc => by
        rw [hnsib] at hc
        exact Option.noConfusion hc.1)]
  · rw [extractLinks_nextSib_at]
    by_cases hjn : j = n
    · rw [if_pos hjn, hjn, hnsib]
    · rw [if_neg hjn, if_neg (fun hc => by
        rw [hps] at hc
        exact Option.noConfusion hc.1)]
  · rw [extractLinks_prevEl_at]
    by_cases hjn : j = n
    · rw [if_pos hjn, hjn, hpe]
    · rw [if_neg hjn, if_neg (fun hc => by
        rw [hne] at hc
        exact Option.noConfusion hc.1)]
  · rw [extractLinks_nextEl_at]
    by_cases hjl : j = lastA st
    · rw [if_pos hjl, hjl, hne]
    · rw [if_neg hjl, if_neg (fun hc => by
        rw [hpe] at hc
        exact Option.noConfusion hc.1)]

/-- On an attached node, the abstract extraction detaches its subtree. -/
theorem aExtract_attached {F : List ATree} (hnd : (preF F).Nodup) {n q : Nat}
    {st : ATree} (hst : findF n F = some st) (hq : parF n F = some q) :
    aExtract F n = removeF n F ++ [st] := by
  unfold aExtract
  have hany : ¬ F.any (fun t => aid t = n) = true := by
    intro hc
    obtain ⟨u, hu, hau⟩ := List.any_eq_true.mp hc
    have hz := parF_root_none hnd hu
    rw [of_decide_eq_true hau, hq] at hz
    exact Option.noConfusion hz
  rw [if_neg hany, hst]

/-- Extracting a node that is already a root leaves the forest unchanged. -/
theorem aExtract_root {F : List ATree} {n : Nat} {u : ATree} (hu : u ∈ F)
    (hau : aid u = n) : aExtract F n = F := by
  unfold aExtract
  have hany : F.any (fun t => aid t = n) = true :=
    List.any_eq_true.mpr ⟨u, hu, decide_eq_true hau⟩
  rw [if_pos hany]

/-- EXT-SIM: a successful `extract` on the heap image of a well-formed
forest produces exactly the heap image of the abstract extraction. -/
theorem ext_sim {F : List ATree} (hwf : wfForest F = true) {fuel n : Nat}
    {st : ATree} (hst : findF n F = some st) {h1 : Heap}
    (hok : hExtract fuel (reprH F) n none = some h1) (j : Nat) :
    h1 j = reprH (aExtract F n) j := by
  have hnd : (preF F).Nodup := by
    rw [wfForest, Bool.and_eq_true] at hwf
    exact (nodupB_iff _).mp hwf.1
  match hq : parF n F with
  | some q =>
    obtain ⟨i, hidx, heq⟩ := hExtract_attached_eq hwf hst hq hok
    rw [heq, aExtract_attached hnd hst hq]
    by_cases hj : j ∈ preT st
    · exact extract_sim_in hwf hst hq hidx j hj
    · exact extract_sim_out hwf hst hq hidx j hj
  | none =>
    obtain ⟨u, hu, hau⟩ := root_of_parF_none (findF_mem hst) hq
    rw [hExtract_detached_eq hwf hst hq hok, aExtract_root hu hau]
    exact extract_links_root_noop hnd hst hq j

/-- The pre-order of a well-formed forest is invariant, up to permutation,
under abstract extraction. -/
theorem preF_aExtract_perm {F : List ATree} (hnd : (preF F).Nodup) (n : Nat) :
    (preF (aExtract F n)).Perm (preF F) := by
  unfold aExtract
  by_cases hany : F.any (fun t => aid t = n) = true
  · rw [if_pos hany]
  · rw [if_neg hany]
    match hf : findF n F with
    | none =>
      exact List.Perm.refl _
    | some st =>
      show (preF (removeF n F ++ [st])).Perm (preF F)
      obtain ⟨X, Y, h1, h2⟩ := preF_removeF hnd hf
      have hsingle : preF [st] = preT st := by rw [preF, preF, List.append_nil]
      rw [preF_append, h2, hsingle, h1, List.append_assoc, List.append_assoc]
      exact List.Perm.append_left X List.perm_append_comm

theorem tagOkF_append (A B : List ATree) :
    tagOkF (A ++ B) = (tagOkF A && tagOkF B) := by
  induction A with
  | nil => rw [List.nil_append, tagOkF, Bool.true_and]
  | cons t ts ih => rw [List.cons_append, tagOkF, tagOkF, ih, Bool.and_assoc]

/-- Abstract extraction preserves well-formedness. -/
theorem wfForest_aExtract {F : List ATree} (hwf : wfForest F = true) (n : Nat) :
    wfForest (aExtract F n) = true := by
  rw [wfForest, Bool.and_eq_true] at hwf
  have hnd : (preF F).Nodup := (nodupB_iff _).mp hwf.1
  rw [wfForest, Bool.and_eq_true]
  refine ⟨(nodupB_iff _).mpr ((preF_aExtract_perm hnd n).nodup_iff.mpr hnd), ?_⟩
  unfold aExtract
  by_cases hany : F.any (fun t => aid t = n) = true
  · rw [if_pos hany]
    exact hwf.2
  · rw [if_neg hany]
    match hf : findF n F with
    | none =>
      exact hwf.2
    | some st =>
      show tagOkF (removeF n F ++ [st]) = true
      rw [tagOkF_append, Bool.and_eq_true]
      refine ⟨tagOk_removeF hwf.2, ?_⟩
      rw [tagOkF, tagOkF, Bool.and_true]
      exact tagOk_findF hwf.2 hf

/-! ## Abstract attach library -/

theorem insAt_eq (x : Nat) : ∀ (k : Nat) (l : List Nat),
    insAt k x l = l.take k ++ x :: l.drop k
  | 0, _ => rfl
  | _ + 1, [] => rfl
  | k + 1, a :: l => by rw [insAt, insAt_eq x k l]; rfl

theorem insATree_eq (S : ATree) : ∀ (k : Nat) (cs : List ATree),
    insATree k S cs = cs.take k ++ S :: cs.drop k
  | 0, _ => rfl
  | _ + 1, [] => rfl
  | k + 1, a :: cs => by rw [insATree, insATree_eq S k cs]; rfl

theorem aid_attachT (p k : Nat) (S t : ATree) : aid (attachT p k S t) = aid t := by
  rcases t with ⟨i, d, cs⟩
  rw [attachT]
  by_cases hip : i = p
  · rw [if_pos hip]; rfl
  · rw [if_neg hip]; rfl

theorem adata_attachT (p k : Nat) (S t : ATree) : adata (attachT p k S t) = adata t := by
  rcases t with ⟨i, d, cs⟩
  rw [attachT]
  by_cases hip : i = p
  · rw [if_pos hip]; rfl
  · rw [if_neg hip]; rfl

theorem map_aid_attachF (p k : Nat) (S : ATree) : ∀ (cs : List ATree),
    (attachF p k S cs).map aid = cs.map aid
  | [] => rfl
  | t :: ts => by
    rw [attachF, List.map_cons, List.map_cons, aid_attachT, map_aid_attachF p k S ts]

theorem any_aid_attachF2 (p k j : Nat) (S : ATree) : ∀ (cs : List ATree),
    (attachF p k S cs).any (fun t => aid t = j) = cs.any (fun t => aid t = j)
  | [] => rfl
  | t :: ts => by
    rw [attachF, List.any_cons, List.any_cons, aid_attachT,
      any_aid_attachF2 p k j S ts]

theorem any_aid_insATree {j : Nat} {S : ATree} (hS : ¬ aid S = j) (k : Nat)
    (cs : List ATree) :
    (insATree k S cs).any (fun t => aid t = j) = cs.any (fun t => aid t = j) := by
  rw [insATree_eq S k cs, List.any_append, List.any_cons, decide_eq_false hS,
    Bool.false_or, ← List.any_append, List.take_append_drop]

theorem any_aid_insATree_self (S : ATree) (k : Nat) (cs : List ATree) :
    (insATree k S cs).any (fun t => aid t = aid S) = true := by
  refine List.any_eq_true.mpr ⟨S, ?_, decide_eq_true rfl⟩
  rw [insATree_eq]
  exact List.mem_append.mpr (Or.inr (List.mem_cons_self S _))

mutual
theorem attachT_id {p k : Nat} {S : ATree} : ∀ {t : ATree}, p ∉ preT t →
    attachT p k S t = t
  | .mk i d cs, h => by
    rw [preT_eq] at h
    rw [attachT,
      if_neg (fun hip : i = p => h (by rw [hip]; exact List.mem_cons_self p (preF cs))),
      attachF_id (fun hm => h (List.mem_cons_of_mem i hm))]

theorem attachF_id {p k : Nat} {S : ATree} : ∀ {ts : List ATree}, p ∉ preF ts →
    attachF p k S ts = ts
  | [], _ => rfl
  | t :: ts, h => by
    rw [preF] at h
    rw [attachF, attachT_id (fun hm => h (List.mem_append.mpr (Or.inl hm))),
      attachF_id (fun hm => h (List.mem_append.mpr (Or.inr hm)))]
end

theorem mem_preF_take {j k : Nat} {cs : List ATree} (hm : j ∈ preF (cs.take k)) :
    j ∈ preF cs := by
  obtain ⟨ct, hct, hjct⟩ := exists_root hm
  exact preT_subset_preF (List.take_subset k cs hct) hjct

theorem mem_preF_drop {j k : Nat} {cs : List ATree} (hm : j ∈ preF (cs.drop k)) :
    j ∈ preF cs := by
  obtain ⟨ct, hct, hjct⟩ := exists_root hm
  exact preT_subset_preF (List.drop_subset k cs hct) hjct

theorem preF_ins_split (S : ATree) (k : Nat) (cs : List ATree) :
    preF (cs.take k ++ S :: cs.drop k)
      = preF (cs.take k) ++ (preT S ++ preF (cs.drop k)) := by
  rw [preF_append, preF]

mutual
theorem mem_preT_attachT {p k j : Nat} {S : ATree} (hj : j ∉ preT S) :
    ∀ (t : ATree), j ∈ preT (attachT p k S t) ↔ j ∈ preT t
  | .mk i d cs => by
    rw [attachT]
    by_cases hip : i = p
    · rw [if_pos hip, preT_eq, preT_eq, insATree_eq, preF_ins_split]
      constructor
      · intro hm
        rcases List.mem_cons.mp hm with hm | hm
        · rw [hm]; exact List.mem_cons_self i _
        · refine List.mem_cons_of_mem i ?_
          rw [← List.take_append_drop k cs, preF_append]
          rcases List.mem_append.mp hm with hm | hm
          · exact List.mem_append.mpr (Or.inl hm)
          · rcases List.mem_append.mp hm with hm | hm
            · exact absurd hm hj
            · exact List.mem_append.mpr (Or.inr hm)
      · intro hm
        rcases List.mem_cons.mp hm with hm | hm
        · rw [hm]; exact List.mem_cons_self i _
        · rw [← List.take_append_drop k cs, preF_append] at hm
          refine List.mem_cons_of_mem i ?_
          rcases List.mem_append.mp hm with hm | hm
          · exact List.mem_append.mpr (Or.inl hm)
          · exact List.mem_append.mpr (Or.inr (List.mem_append.mpr (Or.inr hm)))
    · rw [if_neg hip, preT_eq, preT_eq]
      constructor
      · intro hm
        rcases List.mem_cons.mp hm with hm | hm
        · rw [hm]; exact List.mem_cons_self i _
        · exact List.mem_cons_of_mem i ((mem_preF_attachF hj cs).mp hm)
      · intro hm
        rcases List.mem_cons.mp hm with hm | hm
        · rw [hm]; exact List.mem_cons_self i _
        · exact List.mem_cons_of_mem i ((mem_preF_attachF hj cs).mpr hm)

theorem mem_preF_attachF {p k j : Nat} {S : ATree} (hj : j ∉ preT S) :
    ∀ (ts : List ATree), j ∈ preF (attachF p k S ts) ↔ j ∈ preF ts
  | [] => Iff.rfl
  | t :: ts => by
    rw [attachF, preF, preF]
    constructor
    · intro hm
      rcases List.mem_append.mp hm with hm | hm
      · exact List.mem_append.mpr (Or.inl ((mem_preT_attachT hj t).mp hm))
      · exact List.mem_append.mpr (Or.inr ((mem_preF_attachF hj ts).mp hm))
    · intro hm
      rcases List.mem_append.mp hm with hm | hm
      · exact List.mem_append.mpr (Or.inl ((mem_preT_attachT hj t).mpr hm))
      · exact List.mem_append.mpr (Or.inr ((mem_preF_attachF hj ts).mpr hm))
end

mutual
theorem memS_preT_attachT {p k j : Nat} {S : ATree} (hj : j ∈ preT S) :
    ∀ {t : ATree}, p ∈ preT t → j ∈ preT (attachT p k S t)
  | .mk i d cs, hp => by
    rw [attachT]
    by_cases hip : i = p
    · rw [if_pos hip, preT_eq, insATree_eq, preF_ins_split]
      exact List.mem_cons_of_mem i
        (List.mem_append.mpr (Or.inr (List.mem_append.mpr (Or.inl hj))))
    · rw [if_neg hip, preT_eq]
      rw [preT_eq] at hp
      rcases List.mem_cons.mp hp with hp | hp
      · exact absurd hp.symm hip
      · exact List.mem_cons_of_mem i (memS_preF_attachF hj hp)

theorem memS_preF_attachF {p k j : Nat} {S : ATree} (hj : j ∈ preT S) :
    ∀ {ts : List ATree}, p ∈ preF ts → j ∈ preF (attachF p k S ts)
  | [], hp => absurd hp (List.not_mem_nil p)
  | t :: ts, hp => by
    rw [attachF, preF]
    rw [preF] at hp
    rcases List.mem_append.mp hp with hp | hp
    · exact List.mem_append.mpr (Or.inl (memS_preT_attachT hj hp))
    · exact List.mem_append.mpr (Or.inr (memS_preF_attachF hj hp))
end

mutual
/-- Attaching a subtree rewrites exactly the pre-order segment of the
target node. -/
theorem preT_attachT_seg {p k : Nat} {S : ATree} {t stp : ATree}
    (hnd : (preT t).Nodup) (hx : findT p t = some stp) :
    ∃ A B, preT t = A ++ preT stp ++ B ∧
      preT (attachT p k S t) = A ++ preT (attachT p k S stp) ++ B := by
  match t with
  | .mk i d cs =>
    rw [findT] at hx
    by_cases hip : i = p
    · rw [if_pos hip] at hx
      injection hx with hx
      refine ⟨[], [], ?_, ?_⟩
      · rw [← hx]; simp
      · rw [← hx]; simp
    · rw [if_neg hip] at hx
      rw [preT_eq] at hnd
      obtain ⟨A, B, h1, h2⟩ := preF_attachF_seg (List.nodup_cons.mp hnd).2 hx
      refine ⟨i :: A, B, ?_, ?_⟩
      · rw [preT_eq, h1]; simp
      · rw [attachT, if_neg hip, preT_eq, h2]; rfl

theorem preF_attachF_seg {p k : Nat} {S : ATree} {ts : List ATree} {stp : ATree}
    (hnd : (preF ts).Nodup) (hx : findF p ts = some stp) :
    ∃ A B, preF ts = A ++ preT stp ++ B ∧
      preF (attachF p k S ts) = A ++ preT (attachT p k S stp) ++ B := by
  match ts with
  | [] => exact Option.noConfusion hx
  | t :: ts =>
    rw [findF] at hx
    rw [preF] at hnd
    have hdisj := List.disjoint_of_nodup_append hnd
    match hy : findT p t with
    | some r =>
      rw [hy] at hx
      injection hx with hx
      subst hx
      obtain ⟨A, B, h1, h2⟩ := preT_attachT_seg hnd.of_append_left hy
      have hpts : p ∉ preF ts := fun hm => hdisj (findT_mem hy) hm
      refine ⟨A, B ++ preF ts, ?_, ?_⟩
      · rw [preF, h1]; simp
      · rw [attachF, preF, h2, attachF_id hpts]; simp
    | none =>
      rw [hy] at hx
      have hpt : p ∉ preT t := fun hm => by
        have hs := (findT_isSome_iff p t).mpr hm
        rw [hy] at hs
        exact Bool.noConfusion hs
      obtain ⟨A, B, h1, h2⟩ := preF_attachF_seg hnd.of_append_right hx
      refine ⟨preT t ++ A, B, ?_, ?_⟩
      · rw [preF, h1]; simp
      · rw [attachF, preF, h2, attachT_id hpt]; simp
end

mutual
/-- Searching outside the attached subtree commutes with attachment. -/
theorem findT_attachT_out {p k j : Nat} {S : ATree} {t : ATree}
    (hnd : (preT t).Nodup) (hj : j ∉ preT S) :
    findT j (attachT p k S t) = (findT j t).map (attachT p k S) := by
  match t with
  | .mk i d cs =>
    rw [preT_eq] at hnd
    by_cases hip : i = p
    · rw [attachT, if_pos hip, findT, findT]
      by_cases hij : i = j
      · rw [if_pos hij, if_pos hij]
        show some (ATree.mk i d (insATree k S cs))
          = some (attachT p k S (ATree.mk i d cs))
        rw [attachT, if_pos hip]
      · rw [if_neg hij, if_neg hij]
        have hift : findF j (insATree k S cs) = findF j cs := by
          rw [insATree_eq]
          conv_rhs => rw [← List.take_append_drop k cs]
          rw [findF_append, findF_append]
          match findF j (cs.take k) with
          | some r => rfl
          | none => rw [findF, findT_not_mem hj]
        rw [hift]
        match hz : findF j cs with
        | none => rfl
        | some r =>
          have hpr : p ∉ preT r := fun hm =>
            (List.nodup_cons.mp hnd).1 (by
              rw [hip]
              exact (findF_seg hz).subset hm)
          show some r = some (attachT p k S r)
          rw [attachT_id hpr]
    · rw [attachT, if_neg hip, findT, findT]
      by_cases hij : i = j
      · rw [if_pos hij, if_pos hij]
        show some (ATree.mk i d (attachF p k S cs))
          = some (attachT p k S (ATree.mk i d cs))
        rw [attachT, if_neg hip]
      · rw [if_neg hij, if_neg hij]
        exact findF_attachF_out (List.nodup_cons.mp hnd).2 hj

theorem findF_attachF_out {p k j : Nat} {S : ATree} {ts : List ATree}
    (hnd : (preF ts).Nodup) (hj : j ∉ preT S) :
    findF j (attachF p k S ts) = (findF j ts).map (attachT p k S) := by
  match ts with
  | [] => rfl
  | t :: ts =>
    rw [preF] at hnd
    rw [attachF, findF, findF, findT_attachT_out hnd.of_append_left hj]
    match findT j t with
    | some r => rfl
    | none => exact findF_attachF_out hnd.of_append_right hj
end

mutual
/-- Searching inside the attached subtree finds its nodes. -/
theorem findT_attachT_in {p k j : Nat} {S : ATree} {t : ATree}
    (hp : p ∈ preT t) (hj : j ∈ preT S) (hdisj : ∀ x ∈ preT S, x ∉ preT t) :
    findT j (attachT p k S t) = findT j S := by
  match t with
  | .mk i d cs =>
    have hij : ¬ i = j := fun hij =>
      hdisj j hj (by rw [← hij, preT_eq]; exact List.mem_cons_self i _)
    by_cases hip : i = p
    · rw [attachT, if_pos hip, findT, if_neg hij, insATree_eq, findF_append]
      have hjtake : findF j (cs.take k) = none :=
        findF_not_mem (fun hm =>
          hdisj j hj (by
            rw [preT_eq]
            exact List.mem_cons_of_mem i (mem_preF_take hm)))
      rw [hjtake, findF]
      match hz : findT j S with
      | some r => rfl
      | none =>
        exfalso
        have hs := (findT_isSome_iff j S).mpr hj
        rw [hz] at hs
        exact Bool.noConfusion hs
    · rw [attachT, if_neg hip, findT, if_neg hij]
      have hpcs : p ∈ preF cs := by
        rw [preT_eq] at hp
        rcases List.mem_cons.mp hp with hp | hp
        · exact absurd hp.symm hip
        · exact hp
      exact findF_attachF_in hpcs hj (fun x hx hm =>
        hdisj x hx (by rw [preT_eq]; exact List.mem_cons_of_mem i hm))

theorem findF_attachF_in {p k j : Nat} {S : ATree} {ts : List ATree}
    (hp : p ∈ preF ts) (hj : j ∈ preT S) (hdisj : ∀ x ∈ preT S, x ∉ preF ts) :
    findF j (attachF p k S ts) = findT j S := by
  match ts with
  | [] => exact absurd hp (List.not_mem_nil p)
  | t :: ts =>
    rw [attachF, findF]
    by_cases hpt : p ∈ preT t
    · rw [findT_attachT_in hpt hj (fun x hx hm =>
        hdisj x hx (by rw [preF]; exact List.mem_append.mpr (Or.inl hm)))]
      match hz : findT j S with
      | some r => rfl
      | none =>
        exfalso
        have hs := (findT_isSome_iff j S).mpr hj
        rw [hz] at hs
        exact Bool.noConfusion hs
    · have hpts : p ∈ preF ts := by
        rw [preF] at hp
        rcases List.mem_append.mp hp with hp | hp
        · exact absurd hp hpt
        · exact hp
      rw [attachT_id hpt, findT_not_mem (fun hm =>
        hdisj j hj (by rw [preF]; exact List.mem_append.mpr (Or.inl hm)))]
      exact findF_attachF_in hpts hj (fun x hx hm =>
        hdisj x hx (by rw [preF]; exact List.mem_append.mpr (Or.inr hm)))
end

mutual
theorem parT_attachT_out {p k j : Nat} {S : ATree} (hj : j ∉ preT S) :
    ∀ (t : ATree), parT j (attachT p k S t) = parT j t
  | .mk i d cs => by
    by_cases hip : i = p
    · rw [attachT, if_pos hip, parT, parT]
      have hS : ¬ aid S = j := fun ha => hj (by rw [← ha]; exact aid_mem_preT S)
      rw [any_aid_insATree hS]
      by_cases hany : cs.any (fun c => aid c = j) = true
      · rw [if_pos hany, if_pos hany]
      · rw [if_neg hany, if_neg hany, insATree_eq]
        conv_rhs => rw [← List.take_append_drop k cs]
        rw [parF_append, parF_append]
        match parF j (cs.take k) with
        | some r => rfl
        | none => rw [parF, parT_not_mem hj]
    · rw [attachT, if_neg hip, parT, parT, any_aid_attachF2]
      by_cases hany : cs.any (fun c => aid c = j) = true
      · rw [if_pos hany, if_pos hany]
      · rw [if_neg hany, if_neg hany]
        exact parF_attachF_out hj cs

theorem parF_attachF_out {p k j : Nat} {S : ATree} (hj : j ∉ preT S) :
    ∀ (ts : List ATree), parF j (attachF p k S ts) = parF j ts
  | [] => rfl
  | t :: ts => by
    rw [attachF, parF, parF, parT_attachT_out hj t]
    match parT j t with
    | some r => rfl
    | none => exact parF_attachF_out hj ts
end

mutual
theorem parT_attachT_c {p k : Nat} {S : ATree} {t : ATree}
    (hp : p ∈ preT t) (hc : aid S ∉ preT t) :
    parT (aid S) (attachT p k S t) = some p := by
  match t with
  | .mk i d cs =>
    by_cases hip : i = p
    · rw [attachT, if_pos hip, parT, if_pos (any_aid_insATree_self S k cs), hip]
    · rw [attachT, if_neg hip, parT, any_aid_attachF2]
      have hpcs : p ∈ preF cs := by
        rw [preT_eq] at hp
        rcases List.mem_cons.mp hp with hp | hp
        · exact absurd hp.symm hip
        · exact hp
      have hanyf : ¬ cs.any (fun c => aid c = aid S) = true := by
        intro hx
        obtain ⟨u, hu, hau⟩ := List.any_eq_true.mp hx
        refine hc ?_
        rw [preT_eq]
        exact List.mem_cons_of_mem i
          (preT_subset_preF hu (of_decide_eq_true hau ▸ aid_mem_preT u))
      rw [if_neg hanyf]
      exact parF_attachF_c hpcs (fun hm => hc (by
        rw [preT_eq]; exact List.mem_cons_of_mem i hm))

theorem parF_attachF_c {p k : Nat} {S : ATree} {ts : List ATree}
    (hp : p ∈ preF ts) (hc : aid S ∉ preF ts) :
    parF (aid S) (attachF p k S ts) = some p := by
  match ts with
  | [] => exact absurd hp (List.not_mem_nil p)
  | t :: ts =>
    rw [attachF, parF]
    rw [preF] at hp hc
    by_cases hpt : p ∈ preT t
    · rw [parT_attachT_c hpt (fun hm => hc (List.mem_append.mpr (Or.inl hm)))]
    · have hpts : p ∈ preF ts := by
        rcases List.mem_append.mp hp with h | h
        · exact absurd h hpt
        · exact h
      rw [attachT_id hpt,
        parT_not_mem (fun hm => hc (List.mem_append.mpr (Or.inl hm)))]
      exact parF_attachF_c hpts (fun hm => hc (List.mem_append.mpr (Or.inr hm)))
end

mutual
theorem parT_attachT_inS {p k j : Nat} {S : ATree} {t : ATree}
    (hp : p ∈ preT t) (hj : j ∈ preT S) (hja : j ≠ aid S)
    (hdisj : ∀ x ∈ preT S, x ∉ preT t) :
    parT j (attachT p k S t) = parT j S := by
  match t with
  | .mk i d cs =>
    by_cases hip : i = p
    · rw [attachT, if_pos hip, parT]
      have hanyf : ¬ (insATree k S cs).any (fun c => aid c = j) = true := by
        intro hx
        obtain ⟨u, hu, hau⟩ := List.any_eq_true.mp hx
        rw [insATree_eq] at hu
        have hju := of_decide_eq_true hau
        rcases List.mem_append.mp hu with hu | hu
        · exact hdisj j hj (by
            rw [preT_eq]
            exact List.mem_cons_of_mem i
              (mem_preF_take (preT_subset_preF hu (hju ▸ aid_mem_preT u))))
        · rcases List.mem_cons.mp hu with hu | hu
          · exact hja (by rw [← hju, hu])
          · exact hdisj j hj (by
              rw [preT_eq]
              exact List.mem_cons_of_mem i
                (mem_preF_drop (preT_subset_preF hu (hju ▸ aid_mem_preT u))))
      rw [if_neg hanyf, insATree_eq, parF_append]
      have hjtake : parF j (cs.take k) = none :=
        parF_not_mem (fun hm => hdisj j hj (by
          rw [preT_eq]; exact List.mem_cons_of_mem i (mem_preF_take hm)))
      rw [hjtake, parF]
      match hz : parT j S with
      | some r => rfl
      | none =>
        exfalso
        have hs := parT_isSome hj hja
        rw [hz] at hs
        exact Bool.noConfusion hs
    · rw [attachT, if_neg hip, parT]
      have hanyf : ¬ (attachF p k S cs).any (fun c => aid c = j) = true := by
        rw [any_aid_attachF2]
        intro hx
        obtain ⟨u, hu, hau⟩ := List.any_eq_true.mp hx
        exact hdisj j hj (by
          rw [preT_eq]
          exact List.mem_cons_of_mem i
            (preT_subset_preF hu (of_decide_eq_true hau ▸ aid_mem_preT u)))
      rw [if_neg hanyf]
      have hpcs : p ∈ preF cs := by
        rw [preT_eq] at hp
        rcases List.mem_cons.mp hp with hp | hp
        · exact absurd hp.symm hip
        · exact hp
      exact parF_attachF_inS hpcs hj hja (fun x hx hm =>
        hdisj x hx (by rw [preT_eq]; exact List.mem_cons_of_mem i hm))

theorem parF_attachF_inS {p k j : Nat} {S : ATree} {ts : List ATree}
    (hp : p ∈ preF ts) (hj : j ∈ preT S) (hja : j ≠ aid S)
    (hdisj : ∀ x ∈ preT S, x ∉ preF ts) :
    parF j (attachF p k S ts) = parT j S := by
  match ts with
  | [] => exact absurd hp (List.not_mem_nil p)
  | t :: ts =>
    rw [attachF, parF]
    by_cases hpt : p ∈ preT t
    · rw [parT_attachT_inS hpt hj hja (fun x hx hm =>
        hdisj x hx (by rw [preF]; exact List.mem_append.mpr (Or.inl hm)))]
      match hz : parT j S with
      | some r => rfl
      | none =>
        exfalso
        have hs := parT_isSome hj hja
        rw [hz] at hs
        exact Bool.noConfusion hs
    · have hpts : p ∈ preF ts := by
        rw [preF] at hp
        rcases List.mem_append.mp hp with h | h
        · exact absurd h hpt
        · exact h
      rw [attachT_id hpt, parT_not_mem (fun hm =>
        hdisj j hj (by rw [preF]; exact List.mem_append.mpr (Or.inl hm)))]
      exact parF_attachF_inS hpts hj hja (fun x hx hm =>
        hdisj x hx (by rw [preF]; exact List.mem_append.mpr (Or.inr hm)))
end

theorem rootF_attachF_out {p k j : Nat} {S : ATree} (hj : j ∉ preT S) :
    ∀ (ts : List ATree),
      rootF j (attachF p k S ts) = (rootF j ts).map (attachT p k S)
  | [] => rfl
  | t :: ts => by
    rw [attachF]
    unfold rootF
    have hiff := @mem_preT_attachT p k j S hj t
    by_cases hm : j ∈ preT t
    · rw [List.find?_cons_of_pos _ (by simpa using hiff.mpr hm),
        List.find?_cons_of_pos _ (by simpa using hm)]
      rfl
    · rw [List.find?_cons_of_neg _ (by simpa using fun hx => hm (hiff.mp hx)),
        List.find?_cons_of_neg _ (by simpa using hm)]
      exact rootF_attachF_out hj ts

theorem rootF_attachF_inS {p k j : Nat} {S : ATree} : ∀ {ts : List ATree},
    (preF ts).Nodup → j ∈ preT S → (∀ x ∈ preT S, x ∉ preF ts) →
    ∀ {u : ATree}, u ∈ ts → p ∈ preT u →
    rootF j (attachF p k S ts) = some (attachT p k S u)
  | [], _, _, _, _, hu, _ => absurd hu (List.not_mem_nil _)
  | t :: ts, hnd, hj, hdisj, u, hu, hpu => by
    rw [attachF]
    by_cases hpt : p ∈ preT t
    · have hut : u = t := members_unique hnd hu (List.mem_cons_self t ts) hpu hpt
      rw [hut]
      unfold rootF
      rw [List.find?_cons_of_pos _ (by simpa using memS_preT_attachT hj hpt)]
    · have hut : u ≠ t := fun he => hpt (he ▸ hpu)
      have huts : u ∈ ts := by
        rcases List.mem_cons.mp hu with h | h
        · exact absurd h hut
        · exact h
      rw [attachT_id hpt]
      unfold rootF
      rw [List.find?_cons_of_neg _ (by simpa using (fun hm => hdisj j hj (by
        rw [preF]; exact List.mem_append.mpr (Or.inl hm))))]
      refine rootF_attachF_inS ?_ hj (fun x hx hm => hdisj x hx (by
        rw [preF]; exact List.mem_append.mpr (Or.inr hm))) huts hpu
      rw [preF] at hnd
      exact hnd.of_append_right

mutual
theorem tagOk_attachT {p k : Nat} {S : ATree} {t : ATree}
    (hnd : (preT t).Nodup) (h : tagOkT t = true) (hS : tagOkT S = true)
    (hp : ∀ st, findT p t = some st → (adata st).isTag = true) :
    tagOkT (attachT p k S t) = true := by
  match t with
  | .mk i d cs =>
    rw [tagOkT, Bool.and_eq_true] at h
    by_cases hip : i = p
    · have hdt : d.isTag = true := hp (ATree.mk i d cs) (by rw [findT, if_pos hip])
      rw [attachT, if_pos hip, tagOkT, Bool.and_eq_true]
      constructor
      · rw [Bool.or_eq_true]
        exact Or.inl hdt
      · rw [insATree_eq]
        have hcs : tagOkF (cs.take k) = true ∧ tagOkF (cs.drop k) = true := by
          have h2 := h.2
          rw [← List.take_append_drop k cs, tagOkF_append, Bool.and_eq_true] at h2
          exact h2
        rw [tagOkF_append, Bool.and_eq_true]
        refine ⟨hcs.1, ?_⟩
        rw [tagOkF, Bool.and_eq_true]
        exact ⟨hS, hcs.2⟩
    · rw [attachT, if_neg hip, tagOkT, Bool.and_eq_true]
      rw [preT_eq] at hnd
      constructor
      · rw [Bool.or_eq_true]
        have h1b := h.1
        rw [Bool.or_eq_true] at h1b
        rcases h1b with hh | hh
        · exact Or.inl hh
        · right
          have hcs : cs = [] := by
            cases cs with
            | nil => rfl
            | cons a l => exact Bool.noConfusion hh
          subst hcs
          rfl
      · exact tagOk_attachF (List.nodup_cons.mp hnd).2 h.2 hS
          (fun st hst => hp st (by rw [findT, if_neg hip]; exact hst))

theorem tagOk_attachF {p k : Nat} {S : ATree} {ts : List ATree}
    (hnd : (preF ts).Nodup) (h : tagOkF ts = true) (hS : tagOkT S = true)
    (hp : ∀ st, findF p ts = some st → (adata st).isTag = true) :
    tagOkF (attachF p k S ts) = true := by
  match ts with
  | [] => rfl
  | t :: ts =>
    rw [tagOkF, Bool.and_eq_true] at h
    rw [preF] at hnd
    have hdisj := List.disjoint_of_nodup_append hnd
    rw [attachF, tagOkF, Bool.and_eq_true]
    by_cases hpt : p ∈ preT t
    · have hns : p ∉ preF ts := fun hm => hdisj hpt hm
      refine ⟨?_, by rw [attachF_id hns]; exact h.2⟩
      refine tagOk_attachT hnd.of_append_left h.1 hS ?_
      intro st hst
      refine hp st ?_
      rw [findF, hst]
    · refine ⟨by rw [attachT_id hpt]; exact h.1, ?_⟩
      refine tagOk_attachF hnd.of_append_right h.2 hS ?_
      intro st hst
      refine hp st ?_
      rw [findF, findT_not_mem hpt]
      exact hst
end

theorem preF_attachF_perm {p k : Nat} {S : ATree} {ts : List ATree} {stp : ATree}
    (hnd : (preF ts).Nodup) (hx : findF p ts = some stp) :
    (preF (attachF p k S ts)).Perm (preF ts ++ preT S) := by
  obtain ⟨A, B, h1, h2⟩ := preF_attachF_seg hnd hx
  rw [h2, h1]
  have hstp : aid stp = p := findF_aid hx
  rcases stp with ⟨i, d, cs⟩
  rw [aid] at hstp
  subst hstp
  have hatt : attachT i k S (ATree.mk i d cs) = ATree.mk i d (insATree k S cs) := by
    rw [attachT, if_pos rfl]
  rw [hatt, preT_eq, preT_eq, insATree_eq, preF_ins_split]
  have hsplit : preF cs = preF (cs.take k) ++ preF (cs.drop k) := by
    conv_lhs => rw [← List.take_append_drop k cs]
    rw [preF_append]
  rw [hsplit]
  simp only [List.append_assoc, List.cons_append]
  refine List.Perm.append_left A ?_
  refine List.Perm.cons i ?_
  refine List.Perm.append_left (preF (cs.take k)) ?_
  have hcomm : (preT S ++ (preF (cs.drop k) ++ B)).Perm
      ((preF (cs.drop k) ++ B) ++ preT S) := List.perm_append_comm
  simpa [List.append_assoc] using hcomm

theorem preT_sub_of_mem {G : List ATree} (hnd : (preF G).Nodup) {q y : Nat}
    {stq sty : ATree} (hq : findF q G = some stq) (hy : findF y G = some sty)
    (hqy : q ∈ preT sty) : preT stq ⊆ preT sty := by
  match hz : findT q sty with
  | some r =>
    have hf2 : findF q G = some r := findF_trans hnd hy hz
    rw [hq] at hf2
    injection hf2 with hf2
    rw [hf2]
    exact (findT_seg hz).subset
  | none =>
    exfalso
    have hs := (findT_isSome_iff q sty).mpr hqy
    rw [hz] at hs
    exact Bool.noConfusion hs

/-- `_last_descendant`, on any heap agreeing with the forest image on
`contents` and `isTag` over the subtree, reaches the subtree's last
pre-order node. -/
theorem lastDescDown_correct_data {F : List ATree} (hnd : (preF F).Nodup)
    (hok : tagOkF F = true) (g : Heap) :
    ∀ (fuel n : Nat) (st : ATree), findF n F = some st →
      (∀ j ∈ preT st, (g j).contents = (reprH F j).contents ∧
        (g j).isTag = (reprH F j).isTag) →
      ∀ r : Nat, lastDescDown g fuel n = some r → r = lastA st := by
  intro fuel
  induction fuel with
  | zero =>
    intro n st _ _ r h
    exact Option.noConfusion h
  | succ fuel ih =>
    intro n st hx hg r h
    have hmem : n ∈ preT st := findF_aid hx ▸ aid_mem_preT st
    have hgn := hg n hmem
    rw [lastDescDown, hgn.1, hgn.2, reprH_contents hx, reprH_isTag hx] at h
    rcases st with ⟨i, d, cs⟩
    simp only [akids, adata] at h
    match hgl : (cs.map aid).getLast? with
    | none =>
      rw [hgl] at h
      injection h with h
      have hcs : cs = [] := List.map_eq_nil_iff.mp (List.getLast?_eq_none_iff.mp hgl)
      subst hcs
      have hin : (aid (ATree.mk i d []) : Nat) = n := findF_aid hx
      rw [← h, ← hin]
      rfl
    | some cval =>
      rw [hgl] at h
      by_cases hit : d.isTag = true
      · have h2 : (if d.isTag = true then lastDescDown g fuel cval else some n)
            = some r := h
        rw [if_pos hit] at h2
        obtain ⟨ck, hckl, hcka⟩ := getLast_of_map_aid hgl
        have hckm : ck ∈ cs := mem_of_getLast_some hckl
        have hfck : findF cval F = some ck :=
          hcka ▸ findF_child hnd hx (show ck ∈ akids (ATree.mk i d cs) from hckm)
        have hsub : ∀ j ∈ preT ck, (g j).contents = (reprH F j).contents ∧
            (g j).isTag = (reprH F j).isTag := fun j hj =>
          hg j (by
            rw [preT_eq]
            exact List.mem_cons_of_mem i ((preT_infix_preF hckm).subset hj))
        rw [ih cval ck hfck hsub r h2, lastA_last_kid hckl]
      · exfalso
        have hokT := tagOk_findF hok hx
        rw [tagOkT, Bool.and_eq_true] at hokT
        have hor := hokT.1
        rw [Bool.or_eq_true] at hor
        rcases hor with hor | hor
        · exact hit hor
        · have hcs : cs = [] := by
            cases cs with
            | nil => rfl
            | cons a l => exact Bool.noConfusion hor
          subst hcs
          exact Option.noConfusion hgl

/-- The ancestor walk of `Tag.insert`, on any heap agreeing with the forest
image on `next_sibling` and `parent` along the ancestor chain, finds the
pre-order successor of the last node of the starting subtree. -/
theorem upNextSib_correct {G : List ATree} (hnd : (preF G).Nodup) {u : ATree}
    (hu : u ∈ G) (h : Heap) :
    ∀ (fuel : Nat) (x : Nat) (stx : ATree), x ∈ preT u → findF x G = some stx →
      (∀ y sty, findF y G = some sty → x ∈ preT sty →
        (h y).nextSib = (reprH G y).nextSib ∧ (h y).parent = (reprH G y).parent) →
      ∀ r, upNextSib h fuel x = some r → r = succIn (preT u) (lastA stx) := by
  intro fuel
  induction fuel with
  | zero =>
    intro x stx _ _ _ r hr
    exact Option.noConfusion hr
  | succ fuel ih =>
    intro x stx hxu hstx hag r hr
    have hagx := hag x stx hstx (findF_aid hstx ▸ aid_mem_preT stx)
    match hq : parF x G with
    | some q =>
      have hns2 : (reprH G x).nextSib = succIn (childIds G q) x := by
        rw [reprH_nextSib hstx, hq]
        rfl
      rw [upNextSib, hagx.1, hns2] at hr
      match hsx : succIn (childIds G q) x with
      | some ns =>
        rw [hsx] at hr
        dsimp only [] at hr
        injection hr with hr
        obtain ⟨t, ht, st, hfst, hxt, hnst, _, _, hsucc⟩ := sib_last hnd hq hsx
        have htu : t = u := members_unique hnd ht hu hxt hxu
        have hstx2 := hstx
        rw [hfst] at hstx2
        injection hstx2 with he
        have hfin : succIn (preT u) (lastA stx) = some ns := by
          rw [← htu, ← he]
          exact hsucc
        rw [hfin]
        exact hr.symm
      | none =>
        rw [hsx] at hr
        dsimp only [] at hr
        have hp2 : (h x).parent = some q := by
          rw [hagx.2, reprH_parent hstx, hq]
        rw [hp2] at hr
        dsimp only [] at hr
        obtain ⟨stq, hstq, hxk⟩ := parF_char hnd hq
        have hK : childIds G q = (akids stq).map aid := by
          unfold childIds
          rw [hstq]
        rw [hK] at hsx
        have hxlast : ((akids stq).map aid).getLast? = some x := by
          by_contra hc
          have hs := succIn_isSome_of_ne_last hxk hc
          rw [hsx] at hs
          exact Bool.noConfusion hs
        obtain ⟨ck, hckl, hcka⟩ := getLast_of_map_aid hxlast
        have hfck : findF x G = some ck :=
          hcka ▸ findF_child hnd hstq (mem_of_getLast_some hckl)
        have hckstx : ck = stx := by
          have hstx2 := hstx
          rw [hfck] at hstx2
          injection hstx2 with he
        have hxstq : x ∈ preT stq := mem_kids_mem_preT hxk
        have hqu : q ∈ preT u := by
          obtain ⟨t2, ht2, hqt2⟩ := exists_root (findF_mem hstq)
          have hxt2 : x ∈ preT t2 :=
            preT_sub_of_mem hnd hstq (findF_self_of_mem hnd ht2) hqt2 hxstq
          have ht2u : t2 = u := members_unique hnd ht2 hu hxt2 hxu
          rw [← ht2u]
          exact hqt2
        have hagq : ∀ y sty, findF y G = some sty → q ∈ preT sty →
            (h y).nextSib = (reprH G y).nextSib ∧
            (h y).parent = (reprH G y).parent := fun y sty hfy hqsty =>
          hag y sty hfy (preT_sub_of_mem hnd hstq hfy hqsty hxstq)
        have hres := ih q stq hqu hstq hagq r hr
        rcases stq with ⟨i3, d3, cs3⟩
        rw [akids] at hckl
        have hlq : lastA (ATree.mk i3 d3 cs3) = lastA stx := by
          rw [lastA_last_kid hckl, hckstx]
        rw [hres, hlq]
    | none =>
      have hns2 : (reprH G x).nextSib = none := by
        rw [reprH_nextSib hstx, hq]
        rfl
      rw [upNextSib, hagx.1, hns2] at hr
      dsimp only [] at hr
      have hp2 : (h x).parent = none := by
        rw [hagx.2, reprH_parent hstx, hq]
      rw [hp2] at hr
      dsimp only [] at hr
      injection hr with hr
      obtain ⟨w, hw, haw⟩ := root_of_parF_none (findF_mem hstx) hq
      have hwu : w = u := members_unique hnd hw hu (haw ▸ aid_mem_preT w) hxu
      have hstxu : stx = u := by
        have hx2 := findF_self_of_mem hnd hw
        rw [haw, hstx] at hx2
        injection hx2 with hx2
        rw [hx2, hwu]
      rw [← hr, hstxu]
      exact (succIn_getLast_none ((preT_infix_preF hu).sublist.nodup hnd)
        (preT_getLast u)).symm

theorem bridgeBack_prevEl (h6 : Heap) (o : Option Nat) (lastE j : Nat) :
    (bridgeBack h6 o lastE j).prevEl
      = if some j = o then some lastE else (h6 j).prevEl := by
  match o with
  | none => rw [bridgeBack, if_neg (fun hc => Option.noConfusion hc)]
  | some ne =>
    rw [bridgeBack]
    by_cases hj : j = ne
    · rw [hj, setF_apply_self, if_pos rfl]
    · rw [setF_apply_ne _ _ _ _ hj,
        if_neg (fun hc : some j = some ne => hj (Option.some.inj hc))]

theorem bridgeBack_same (h6 : Heap) (o : Option Nat) (lastE j : Nat) :
    (bridgeBack h6 o lastE j).isTag = (h6 j).isTag ∧
    (bridgeBack h6 o lastE j).name = (h6 j).name ∧
    (bridgeBack h6 o lastE j).attrs = (h6 j).attrs ∧
    (bridgeBack h6 o lastE j).text = (h6 j).text ∧
    (bridgeBack h6 o lastE j).contents = (h6 j).contents ∧
    (bridgeBack h6 o lastE j).parent = (h6 j).parent ∧
    (bridgeBack h6 o lastE j).prevSib = (h6 j).prevSib ∧
    (bridgeBack h6 o lastE j).nextSib = (h6 j).nextSib ∧
    (bridgeBack h6 o lastE j).nextEl = (h6 j).nextEl ∧
    (bridgeBack h6 o lastE j).decomposed = (h6 j).decomposed := by
  match o with
  | none => exact ⟨rfl, rfl, rfl, rfl, rfl, rfl, rfl, rfl, rfl, rfl⟩
  | some ne =>
    rw [bridgeBack]
    by_cases hj : j = ne
    · rw [hj, setF_apply_self]
      exact ⟨rfl, rfl, rfl, rfl, rfl, rfl, rfl, rfl, rfl, rfl⟩
    · rw [setF_apply_ne _ _ _ _ hj]
      exact ⟨rfl, rfl, rfl, rfl, rfl, rfl, rfl, rfl, rfl, rfl⟩

theorem take_getLast_get {l : List Nat} : ∀ {k : Nat}, 1 ≤ k → k ≤ l.length →
    (l.take k).getLast? = l.get? (k - 1) := by
  induction l with
  | nil =>
    intro k _ h2
    simp at h2
    omega
  | cons a as ih =>
    intro k h1 h2
    match k, h1 with
    | 1, _ =>
      match as with
      | [] => rfl
      | b :: bs => rfl
    | k + 2, _ =>
      match as with
      | [] =>
        rw [List.length_cons, List.length_nil] at h2
        omega
      | b :: bs =>
        have h2' : k + 1 ≤ (b :: bs).length := by
          rw [List.length_cons] at h2
          omega
        have hih := ih (show 1 ≤ k + 1 by omega) h2'
        show ((a :: b :: bs).take (k + 2)).getLast? = (a :: b :: bs).get? (k + 1)
        have ht : (a :: b :: bs).take (k + 2) = a :: b :: bs.take k := rfl
        rw [ht, List.getLast?_cons_cons]
        have ht2 : (b :: bs).take (k + 1) = b :: bs.take k := rfl
        rw [ht2] at hih
        exact hih

theorem head_drop_get {l : List Nat} : ∀ {k : Nat}, (l.drop k).head? = l.get? k := by
  induction l with
  | nil => intro k; rw [List.drop_nil]; cases k <;> rfl
  | cons a as ih =>
    intro k
    match k with
    | 0 => rfl
    | k + 1 =>
      rw [List.drop_succ_cons]
      exact ih

theorem succIn_val_mem {l : List Nat} {j v : Nat} (h : succIn l j = some v) : v ∈ l := by
  obtain ⟨l1, l2, he, _⟩ := succIn_eq_some_split h
  rw [he]
  simp

theorem root_not_in_kids {p : Nat} {stp : ATree} (hnd2 : (preT stp).Nodup)
    (ha : aid stp = p) : p ∉ preF (akids stp) := by
  rcases stp with ⟨i, d, cs⟩
  rw [aid] at ha
  rw [preT_eq] at hnd2
  rw [akids]
  intro hm
  exact (List.nodup_cons.mp hnd2).1 (ha.symm ▸ hm)

/-- Dissection of the attachment phase of `Tag.insert` on the heap image of
a forest: a successful run realises the field table for some effective
index `k`. -/
theorem hAttach_table {G : List ATree} (hwf : wfForest G = true)
    {p c : Nat} {stp : ATree} (hstp : findF p G = some stp)
    {S : ATree} (hS : S ∈ G) (hSc : aid S = c) (hpS : p ∉ preT S)
    {u : ATree} (hu : u ∈ G) (hpu : p ∈ preT u)
    {fuel : Nat} {pos : Int} {h' : Heap}
    (hok : hAttach fuel (reprH G) p pos c = Except.ok h') :
    ∃ k pe nxt, AttachTable G p c S stp u k pe nxt h' := by
  have hwf2 := hwf
  rw [wfForest, Bool.and_eq_true] at hwf2
  have hnd : (preF G).Nodup := (nodupB_iff _).mp hwf2.1
  have hto : tagOkF G = true := hwf2.2
  have hfc : findF c G = some S := by
    have hx := findF_self_of_mem hnd hS
    rw [hSc] at hx
    exact hx
  have hcp : ¬ c = p := fun he => hpS (by rw [← he, ← hSc]; exact aid_mem_preT S)
  have hpc' : ¬ p = c := fun he => hcp he.symm
  have hKrepr : ((reprH G) p).contents = childIds G p := by
    rw [reprH_contents hstp]
    unfold childIds
    rw [hstp]
  have haidstp : aid stp = p := findF_aid hstp
  have hpstp : p ∈ preT stp := haidstp ▸ aid_mem_preT stp
  have hstpu : preT stp ⊆ preT u :=
    preT_sub_of_mem hnd hstp (findF_self_of_mem hnd hu) hpu
  have hSU : ∀ x ∈ preT S, x ∉ preT u := fun x hxS hxu =>
    hpS ((members_unique hnd hS hu hxS hxu).symm ▸ hpu)
  have hcu : c ∉ preT u := fun hcu2 => hSU c (hSc ▸ aid_mem_preT S) hcu2
  have hKsub : ∀ x ∈ childIds G p, x ∈ preT stp := by
    intro x hx
    unfold childIds at hx
    rw [hstp] at hx
    exact mem_kids_mem_preT hx
  have hcK : c ∉ childIds G p := fun hm => hcu (hstpu (hKsub c hm))
  have hndstp : (preT stp).Nodup := (findF_seg hstp).sublist.nodup hnd
  have hpkids : p ∉ preF (akids stp) := root_not_in_kids hndstp haidstp
  have hpK : p ∉ childIds G p := by
    intro hm
    unfold childIds at hm
    rw [hstp] at hm
    exact hpkids ((map_aid_sublist (akids stp)).subset hm)
  have hlaS : lastA S ∈ preT S := lastA_mem S
  have hlaSu : lastA S ∉ preT u := hSU _ hlaS
  have hplaS : ¬ p = lastA S := fun he => hlaSu (he ▸ hpu)
  have hlaSK : lastA S ∉ childIds G p := fun hm => hlaSu (hstpu (hKsub _ hm))
  unfold hAttach at hok
  simp only [bind, Except.bind, pure, Except.pure, throw, throwThe,
    MonadExceptOf.throw] at hok
  split at hok
  next hp0 =>
    subst hp0
    simp only [setF_apply_self] at hok
    split at hok
    next lastE hld =>
      have hlastE : lastE = lastA S := by
        refine lastDescDown_correct_data hnd hto _ fuel c S hfc ?_ lastE hld
        intro j hj
        constructor
        · simp [setF, apply_ite (HNode.contents)]
        · simp [setF, apply_ite (HNode.isTag)]
      subst hlastE
      split at hok
      next hlen =>
        simp only [setF, apply_ite (HNode.contents), ite_self] at hlen
        rw [hKrepr] at hlen
        have hK0 : childIds G p = [] := by
          have hl0 : (childIds G p).length = 0 := by omega
          exact List.length_eq_zero.mp hl0
        split at hok
        next hup => exact Except.noConfusion hok
        next pns hup =>
          have hnsval : pns = succIn (preT u) (lastA stp) := by
            refine upNextSib_correct hnd hu _ fuel p stp hpu hstp ?_ pns hup
            intro y sty hfy hpsty
            have hyc : ¬ y = c := by
              intro he
              subst he
              rw [hfc] at hfy
              injection hfy with hfy
              rw [← hfy] at hpsty
              exact hpS hpsty
            constructor
            · simp [setF, apply_ite (HNode.nextSib), hyc]
            · simp [setF, apply_ite (HNode.parent), hyc]
          split at hok
          next ne =>
            injection hok with hok
            subst hok
            have hneu : ne ∈ preT u := succIn_val_mem hnsval.symm
            have hnec : ¬ ne = c := fun he => hcu (he ▸ hneu)
            have hcne : ¬ c = ne := fun he => hnec he.symm
            refine ⟨0, p, some ne, Nat.zero_le _, Or.inl ⟨rfl, rfl⟩,
              Or.inl ⟨by rw [List.drop_zero, hK0], hnsval⟩, ?_, ?_, ?_, ?_, ?_, ?_, ?_⟩
            · intro j
              by_cases hjp : j = p
              · subst hjp
                simp [setF, apply_ite (HNode.contents), hpc', hK0, hKrepr,
                  pyInsertAt, insAt]
              · simp [setF, apply_ite (HNode.contents), hjp]
            · intro j
              simp [setF, apply_ite (HNode.isTag), apply_ite (HNode.name),
                apply_ite (HNode.attrs), apply_ite (HNode.text),
                apply_ite (HNode.decomposed)]
            · intro j
              by_cases hjc : j = c
              · subst hjc
                simp [setF, apply_ite (HNode.parent)]
              · simp [setF, apply_ite (HNode.parent), hjc]
            · intro j
              by_cases hjc : j = c
              · subst hjc
                simp [setF, apply_ite (HNode.prevSib), hK0]
              · simp [setF, apply_ite (HNode.prevSib), hjc, hK0]
            · intro j
              by_cases hjc : j = c
              · subst hjc
                simp [setF, apply_ite (HNode.nextSib), hK0]
              · simp [setF, apply_ite (HNode.nextSib), hjc, hK0]
            · intro j
              by_cases hjc : j = c
              · subst hjc
                simp [setF, apply_ite (HNode.prevEl), hcne]
              · by_cases hjne : j = ne
                · subst hjne
                  simp [setF, apply_ite (HNode.prevEl), hnec]
                · simp [setF, apply_ite (HNode.prevEl), hjc, hjne]
            · intro j
              by_cases hjp : j = p
              · subst hjp
                simp [setF, apply_ite (HNode.nextEl), hplaS]
              · by_cases hjlaS : j = lastA S
                · subst hjlaS
                  simp [setF, apply_ite (HNode.nextEl), hjp]
                · simp [setF, apply_ite (HNode.nextEl), hjp, hjlaS]
          next =>
            injection hok with hok
            subst hok
            refine ⟨0, p, none, Nat.zero_le _, Or.inl ⟨rfl, rfl⟩,
              Or.inl ⟨by rw [List.drop_zero, hK0], hnsval⟩, ?_, ?_, ?_, ?_, ?_, ?_, ?_⟩
            · intro j
              by_cases hjp : j = p
              · subst hjp
                simp [setF, apply_ite (HNode.contents), hpc', hK0, hKrepr,
                  pyInsertAt, insAt]
              · simp [setF, apply_ite (HNode.contents), hjp]
            · intro j
              simp [setF, apply_ite (HNode.isTag), apply_ite (HNode.name),
                apply_ite (HNode.attrs), apply_ite (HNode.text),
                apply_ite (HNode.decomposed)]
            · intro j
              by_cases hjc : j = c
              · subst hjc
                simp [setF, apply_ite (HNode.parent)]
              · simp [setF, apply_ite (HNode.parent), hjc]
            · intro j
              by_cases hjc : j = c
              · subst hjc
                simp [setF, apply_ite (HNode.prevSib), hK0]
              · simp [setF, apply_ite (HNode.prevSib), hjc, hK0]
            · intro j
              by_cases hjc : j = c
              · subst hjc
                simp [setF, apply_ite (HNode.nextSib), hK0]
              · simp [setF, apply_ite (HNode.nextSib), hjc, hK0]
            · intro j
              by_cases hjc : j = c
              · subst hjc
                simp [setF, apply_ite (HNode.prevEl)]
              · simp [setF, apply_ite (HNode.prevEl), hjc]
            · intro j
              by_cases hjp : j = p
              · subst hjp
                simp [setF, apply_ite (HNode.nextEl), hplaS]
              · by_cases hjlaS : j = lastA S
                · subst hjlaS
                  simp [setF, apply_ite (HNode.nextEl), hjp]
                · simp [setF, apply_ite (HNode.nextEl), hjp, hjlaS]
      next hlen =>
        simp only [setF, apply_ite (HNode.contents), ite_self] at hlen
        rw [hKrepr] at hlen
        split at hok
        next hnc => exact Except.noConfusion hok
        next nc hnc =>
          simp only [setF, apply_ite (HNode.contents), ite_self] at hnc
          rw [hKrepr] at hnc
          unfold pyGet at hnc
          rw [if_pos (le_refl (0:Int))] at hnc
          have hheadK : (childIds G p).head? = some nc := by
            have h1 := @head_drop_get (childIds G p) 0
            rw [List.drop_zero] at h1
            rw [h1]
            exact hnc
          have hncK : nc ∈ childIds G p := List.get?_mem hnc
          have hncc : ¬ nc = c := fun he => hcK (he ▸ hncK)
          have hcnc : ¬ c = nc := fun he => hncc he.symm
          have hncp : ¬ nc = p := fun he => hpK (he ▸ hncK)
          injection hok with hok
          subst hok
          refine ⟨0, p, some nc, Nat.zero_le _, Or.inl ⟨rfl, rfl⟩,
            Or.inr ⟨nc, by rw [List.drop_zero]; exact hheadK, rfl⟩,
            ?_, ?_, ?_, ?_, ?_, ?_, ?_⟩
          · intro j
            by_cases hjp : j = p
            · subst hjp
              simp [setF, apply_ite (HNode.contents), hpc', hKrepr,
                pyInsertAt, insAt]
            · simp [setF, apply_ite (HNode.contents), hjp]
          · intro j
            simp [setF, apply_ite (HNode.isTag), apply_ite (HNode.name),
              apply_ite (HNode.attrs), apply_ite (HNode.text),
              apply_ite (HNode.decomposed)]
          · intro j
            by_cases hjc : j = c
            · subst hjc
              simp [setF, apply_ite (HNode.parent)]
            · simp [setF, apply_ite (HNode.parent), hjc]
          · intro j
            by_cases hjc : j = c
            · subst hjc
              simp [setF, apply_ite (HNode.prevSib), hcnc]
            · by_cases hjnc : j = nc
              · subst hjnc
                simp [setF, apply_ite (HNode.prevSib), hncc, List.drop_zero, hheadK]
              · simp [setF, apply_ite (HNode.prevSib), hjc, hjnc, List.drop_zero,
                  hheadK]
          · intro j
            by_cases hjc : j = c
            · subst hjc
              simp [setF, apply_ite (HNode.nextSib), List.drop_zero, hheadK]
            · simp [setF, apply_ite (HNode.nextSib), hjc]
          · intro j
            by_cases hjc : j = c
            · subst hjc
              simp [setF, apply_ite (HNode.prevEl), hcnc]
            · by_cases hjnc : j = nc
              · subst hjnc
                simp [setF, apply_ite (HNode.prevEl), hncc]
              · simp [setF, apply_ite (HNode.prevEl), hjc, hjnc]
          · intro j
            by_cases hjp : j = p
            · subst hjp
              simp [setF, apply_ite (HNode.nextEl), hplaS]
            · by_cases hjlaS : j = lastA S
              · subst hjlaS
                simp [setF, apply_ite (HNode.nextEl), hjp]
              · simp [setF, apply_ite (HNode.nextEl), hjp, hjlaS]
    next => exact Except.noConfusion hok
  next hp0 =>
    split at hok
    next hpc => exact Except.noConfusion hok
    next pc hpc =>
      simp only [setF, apply_ite (HNode.contents), ite_self] at hpc
      rw [hKrepr] at hpc
      have hpcK : pc ∈ childIds G p := by
        unfold pyGet at hpc
        by_cases h0 : (0:Int) ≤ pos - 1
        · rw [if_pos h0] at hpc
          exact List.get?_mem hpc
        · rw [if_neg h0] at hpc
          by_cases h1 : (0:Int) ≤ pos - 1 + (childIds G p).length
          · rw [if_pos h1] at hpc
            exact List.get?_mem hpc
          · rw [if_neg h1] at hpc
            exact Option.noConfusion hpc
      have hpcK2 := hpcK
      unfold childIds at hpcK2
      rw [hstp] at hpcK2
      obtain ⟨ck, hck, hcka⟩ := List.mem_map.mp hpcK2
      have hfpc : findF pc G = some ck := hcka ▸ findF_child hnd hstp hck
      have hpcu : pc ∈ preT u := hstpu (hKsub pc hpcK)
      have hpcc : ¬ pc = c := fun he => hcK (he ▸ hpcK)
      have hpcp : ¬ pc = p := fun he => hpK (he ▸ hpcK)
      have hpck : p ∉ preT ck := fun hm => hpkids ((preT_infix_preF hck).subset hm)
      have hcku : preT ck ⊆ preT u := fun x hx =>
        preT_sub_of_mem hnd hfpc (findF_self_of_mem hnd hu) hpcu hx
      split at hok
      next hld1 => exact Except.noConfusion hok
      next ld hld1 =>
        have hldval : ld = lastA ck := by
          refine lastDescDown_correct_data hnd hto _ fuel pc ck hfpc ?_ ld hld1
          intro j hj
          constructor
          · simp [setF, apply_ite (HNode.contents)]
          · simp [setF, apply_ite (HNode.isTag)]
        subst hldval
        have hldu : lastA ck ∈ preT u := hcku (lastA_mem ck)
        have hldc : ¬ lastA ck = c := fun he => hcu (he ▸ hldu)
        have hcld : ¬ c = lastA ck := fun he => hldc he.symm
        have hldlaS : ¬ lastA ck = lastA S := fun he => hlaSu (he ▸ hldu)
        have hlaSld : ¬ lastA S = lastA ck := fun he => hldlaS he.symm
        simp only [setF_apply_self] at hok
        split at hok
        next lastE hld =>
          have hlastE : lastE = lastA S := by
            refine lastDescDown_correct_data hnd hto _ fuel c S hfc ?_ lastE hld
            intro j hj
            constructor
            · simp [setF, apply_ite (HNode.contents)]
            · simp [setF, apply_ite (HNode.isTag)]
          subst hlastE
          split at hok
          next hlen =>
            simp only [setF, apply_ite (HNode.contents), ite_self] at hlen
            rw [hKrepr] at hlen
            have h0 : (0:Int) ≤ pos - 1 := by omega
            unfold pyGet at hpc
            rw [if_pos h0] at hpc
            have hlt : (pos - 1).toNat < (childIds G p).length := by
              by_contra hge
              rw [List.get?_eq_none.mpr (by omega)] at hpc
              exact Option.noConfusion hpc
            have hposlen : pos = ((childIds G p).length : Int) := by omega
            have hlen1 : 1 ≤ (childIds G p).length := by omega
            have hglK : (childIds G p).getLast? = some pc := by
              have ht := take_getLast_get hlen1 (le_refl (childIds G p).length)
              rw [List.take_length] at ht
              rw [ht]
              have he : (pos - 1).toNat = (childIds G p).length - 1 := by omega
              rw [← he]
              exact hpc
            split at hok
            next hup => exact Except.noConfusion hok
            next pns hup =>
              have hnsval : pns = succIn (preT u) (lastA stp) := by
                refine upNextSib_correct hnd hu _ fuel p stp hpu hstp ?_ pns hup
                intro y sty hfy hpsty
                have hyc : ¬ y = c := by
                  intro he
                  subst he
                  rw [hfc] at hfy
                  injection hfy with hfy
                  rw [← hfy] at hpsty
                  exact hpS hpsty
                have hypc : ¬ y = pc := by
                  intro he
                  subst he
                  rw [hfpc] at hfy
                  injection hfy with hfy
                  rw [← hfy] at hpsty
                  exact hpck hpsty
                constructor
                · simp [setF, apply_ite (HNode.nextSib), hyc, hypc]
                · simp [setF, apply_ite (HNode.parent), hyc, hypc]
              have hpyins : pyInsertAt (childIds G p) pos c
                  = (childIds G p).take (childIds G p).length ++ c ::
                    (childIds G p).drop (childIds G p).length := by
                unfold pyInsertAt
                rw [if_pos (by omega), insAt_eq]
                have he : pos.toNat = (childIds G p).length := by omega
                rw [he]
              split at hok
              next ne =>
                injection hok with hok
                subst hok
                have hneu : ne ∈ preT u := succIn_val_mem hnsval.symm
                have hnec : ¬ ne = c := fun he => hcu (he ▸ hneu)
                have hcne : ¬ c = ne := fun he => hnec he.symm
                refine ⟨(childIds G p).length, lastA ck, some ne, le_refl _,
                  Or.inr ⟨pc, ck, by rw [List.take_length]; exact hglK, hfpc, rfl⟩,
                  Or.inl ⟨by rw [List.drop_length], hnsval⟩,
                  ?_, ?_, ?_, ?_, ?_, ?_, ?_⟩
                · intro j
                  by_cases hjp : j = p
                  · subst hjp
                    simp [setF, apply_ite (HNode.contents), hKrepr, hpyins]
                  · simp [setF, apply_ite (HNode.contents), hjp]
                · intro j
                  simp [setF, apply_ite (HNode.isTag), apply_ite (HNode.name),
                    apply_ite (HNode.attrs), apply_ite (HNode.text),
                    apply_ite (HNode.decomposed)]
                · intro j
                  by_cases hjc : j = c
                  · subst hjc
                    simp [setF, apply_ite (HNode.parent)]
                  · simp [setF, apply_ite (HNode.parent), hjc]
                · intro j
                  by_cases hjc : j = c
                  · subst hjc
                    simp [setF, apply_ite (HNode.prevSib), List.take_length, hglK]
                  · simp [setF, apply_ite (HNode.prevSib), hjc, List.drop_length]
                · intro j
                  by_cases hjc : j = c
                  · subst hjc
                    simp [setF, apply_ite (HNode.nextSib), List.drop_length]
                  · by_cases hjpc : j = pc
                    · subst hjpc
                      simp [setF, apply_ite (HNode.nextSib), hpcc,
                        List.take_length, hglK]
                    · simp [setF, apply_ite (HNode.nextSib), hjc, hjpc,
                        List.take_length, hglK]
                · intro j
                  by_cases hjc : j = c
                  · subst hjc
                    simp [setF, apply_ite (HNode.prevEl), hcne]
                  · by_cases hjne : j = ne
                    · subst hjne
                      simp [setF, apply_ite (HNode.prevEl), hnec]
                    · simp [setF, apply_ite (HNode.prevEl), hjc, hjne]
                · intro j
                  by_cases hjld : j = lastA ck
                  · subst hjld
                    simp [setF, apply_ite (HNode.nextEl), hldlaS]
                  · by_cases hjlaS : j = lastA S
                    · subst hjlaS
                      simp [setF, apply_ite (HNode.nextEl), hlaSld]
                    · simp [setF, apply_ite (HNode.nextEl), hjld, hjlaS]
              next =>
                injection hok with hok
                subst hok
                refine ⟨(childIds G p).length, lastA ck, none, le_refl _,
                  Or.inr ⟨pc, ck, by rw [List.take_length]; exact hglK, hfpc, rfl⟩,
                  Or.inl ⟨by rw [List.drop_length], hnsval⟩,
                  ?_, ?_, ?_, ?_, ?_, ?_, ?_⟩
                · intro j
                  by_cases hjp : j = p
                  · subst hjp
                    simp [setF, apply_ite (HNode.contents), hKrepr, hpyins]
                  · simp [setF, apply_ite (HNode.contents), hjp]
                · intro j
                  simp [setF, apply_ite (HNode.isTag), apply_ite (HNode.name),
                    apply_ite (HNode.attrs), apply_ite (HNode.text),
                    apply_ite (HNode.decomposed)]
                · intro j
                  by_cases hjc : j = c
                  · subst hjc
                    simp [setF, apply_ite (HNode.parent)]
                  · simp [setF, apply_ite (HNode.parent), hjc]
                · intro j
                  by_cases hjc : j = c
                  · subst hjc
                    simp [setF, apply_ite (HNode.prevSib), List.take_length, hglK]
                  · simp [setF, apply_ite (HNode.prevSib), hjc, List.drop_length]
                · intro j
                  by_cases hjc : j = c
                  · subst hjc
                    simp [setF, apply_ite (HNode.nextSib), List.drop_length]
                  · by_cases hjpc : j = pc
                    · subst hjpc
                      simp [setF, apply_ite (HNode.nextSib), hpcc,
                        List.take_length, hglK]
                    · simp [setF, apply_ite (HNode.nextSib), hjc, hjpc,
                        List.take_length, hglK]
                · intro j
                  by_cases hjc : j = c
                  · subst hjc
                    simp [setF, apply_ite (HNode.prevEl)]
                  · simp [setF, apply_ite (HNode.prevEl), hjc]
                · intro j
                  by_cases hjld : j = lastA ck
                  · subst hjld
                    simp [setF, apply_ite (HNode.nextEl), hldlaS]
                  · by_cases hjlaS : j = lastA S
                    · subst hjlaS
                      simp [setF, apply_ite (HNode.nextEl), hlaSld]
                    · simp [setF, apply_ite (HNode.nextEl), hjld, hjlaS]
          next hlen =>
            simp only [setF, apply_ite (HNode.contents), ite_self] at hlen
            rw [hKrepr] at hlen
            split at hok
            next hnc => exact Except.noConfusion hok
            next nc hnc =>
              simp only [setF, apply_ite (HNode.contents), ite_self] at hnc
              rw [hKrepr] at hnc
              have hfacts : ∃ k, 1 ≤ k ∧ k ≤ (childIds G p).length ∧
                  ((childIds G p).take k).getLast? = some pc ∧
                  ((childIds G p).drop k).head? = some nc ∧
                  pyInsertAt (childIds G p) pos c
                    = (childIds G p).take k ++ c :: (childIds G p).drop k := by
                by_cases h0 : (0:Int) ≤ pos - 1
                · unfold pyGet at hpc hnc
                  rw [if_pos h0] at hpc
                  rw [if_pos (by omega)] at hnc
                  have hlt : (pos - 1).toNat < (childIds G p).length := by
                    by_contra hge
                    rw [List.get?_eq_none.mpr (by omega)] at hpc
                    exact Option.noConfusion hpc
                  refine ⟨pos.toNat, by omega, by omega, ?_, ?_, ?_⟩
                  · rw [take_getLast_get (by omega) (by omega)]
                    have he : pos.toNat - 1 = (pos - 1).toNat := by omega
                    rw [he]
                    exact hpc
                  · rw [head_drop_get]
                    exact hnc
                  · unfold pyInsertAt
                    rw [if_pos (by omega), insAt_eq]
                · have hposneg : pos < 0 := by
                    by_contra hge
                    exact hp0 (by omega)
                  unfold pyGet at hpc hnc
                  rw [if_neg h0] at hpc
                  rw [if_neg (by omega)] at hnc
                  by_cases h1 : (0:Int) ≤ pos - 1 + (childIds G p).length
                  · rw [if_pos h1] at hpc
                    rw [if_pos (by omega)] at hnc
                    refine ⟨(pos + (childIds G p).length).toNat, by omega,
                      by omega, ?_, ?_, ?_⟩
                    · rw [take_getLast_get (by omega) (by omega)]
                      have he : (pos + (childIds G p).length).toNat - 1
                          = (pos - 1 + (childIds G p).length).toNat := by omega
                      rw [he]
                      exact hpc
                    · rw [head_drop_get]
                      exact hnc
                    · unfold pyInsertAt
                      rw [if_neg (by omega), insAt_eq]
                  · rw [if_neg h1] at hpc
                    exact Option.noConfusion hpc
              obtain ⟨k, hk1, hkK, hglK, hheadK, hpyins⟩ := hfacts
              have hncK : nc ∈ childIds G p :=
                List.drop_subset k (childIds G p) (mem_of_head_some hheadK)
              have hncc : ¬ nc = c := fun he => hcK (he ▸ hncK)
              have hcnc : ¬ c = nc := fun he => hncc he.symm
              have hncp : ¬ nc = p := fun he => hpK (he ▸ hncK)
              injection hok with hok
              subst hok
              refine ⟨k, lastA ck, some nc, hkK,
                Or.inr ⟨pc, ck, hglK, hfpc, rfl⟩,
                Or.inr ⟨nc, hheadK, rfl⟩, ?_, ?_, ?_, ?_, ?_, ?_, ?_⟩
              · intro j
                by_cases hjp : j = p
                · subst hjp
                  simp [setF, apply_ite (HNode.contents), hKrepr, hpyins]
                · simp [setF, apply_ite (HNode.contents), hjp]
              · intro j
                simp [setF, apply_ite (HNode.isTag), apply_ite (HNode.name),
                  apply_ite (HNode.attrs), apply_ite (HNode.text),
                  apply_ite (HNode.decomposed)]
              · intro j
                by_cases hjc : j = c
                · subst hjc
                  simp [setF, apply_ite (HNode.parent)]
                · simp [setF, apply_ite (HNode.parent), hjc]
              · intro j
                by_cases hjc : j = c
                · subst hjc
                  simp [setF, apply_ite (HNode.prevSib), hcnc, hglK]
                · by_cases hjnc : j = nc
                  · subst hjnc
                    simp [setF, apply_ite (HNode.prevSib), hncc, hheadK]
                  · simp [setF, apply_ite (HNode.prevSib), hjc, hjnc, hheadK]
              · intro j
                by_cases hjc : j = c
                · subst hjc
                  simp [setF, apply_ite (HNode.nextSib), hheadK]
                · by_cases hjpc : j = pc
                  · subst hjpc
                    simp [setF, apply_ite (HNode.nextSib), hpcc, hglK]
                  · simp [setF, apply_ite (HNode.nextSib), hjc, hjpc, hglK]
              · intro j
                by_cases hjc : j = c
                · subst hjc
                  simp [setF, apply_ite (HNode.prevEl), hcnc]
                · by_cases hjnc : j = nc
                  · subst hjnc
                    simp [setF, apply_ite (HNode.prevEl), hncc]
                  · simp [setF, apply_ite (HNode.prevEl), hjc, hjnc]
              · intro j
                by_cases hjld : j = lastA ck
                · subst hjld
                  simp [setF, apply_ite (HNode.nextEl), hldlaS]
                · by_cases hjlaS : j = lastA S
                  · subst hjlaS
                    simp [setF, apply_ite (HNode.nextEl), hlaSld]
                  · simp [setF, apply_ite (HNode.nextEl), hjld, hjlaS]
        next => exact Except.noConfusion hok

theorem preF_head (t : ATree) (ts : List ATree) :
    (preF (t :: ts)).head? = some (aid t) := by
  rw [preF]
  rcases t with ⟨i, d, cs⟩
  rw [preT_eq]
  rfl

theorem preF_getLast : ∀ {ks : List ATree} {ck : ATree},
    ks.getLast? = some ck → (preF ks).getLast? = some (lastA ck)
  | [], _, h => Option.noConfusion h
  | [t], ck, h => by
    injection h with h
    subst h
    rw [preF, preF, List.append_nil]
    exact preT_getLast t
  | t :: t2 :: ts, ck, h => by
    rw [List.getLast?_cons_cons] at h
    rw [preF, List.getLast?_append_of_ne_nil _ (preF_ne_nil (fun hc => List.noConfusion hc))]
    exact preF_getLast h

theorem filter_root_split {G : List ATree} (hnd : (preF G).Nodup) {S : ATree}
    (hS : S ∈ G) :
    ∃ P Q, G = P ++ S :: Q ∧
      G.filter (fun t => aid t ≠ aid S) = P ++ Q := by
  obtain ⟨P, Q, hPQ⟩ := List.append_of_mem hS
  refine ⟨P, Q, hPQ, ?_⟩
  subst hPQ
  rw [preF_append, preF] at hnd
  rw [List.filter_append, List.filter_cons]
  have hdec : (decide (aid S ≠ aid S)) = false := by simp
  rw [hdec, if_neg Bool.false_ne_true]
  have hP : P.filter (fun t => aid t ≠ aid S) = P := by
    rw [List.filter_eq_self]
    intro t ht
    refine decide_eq_true ?_
    intro he
    exact (List.disjoint_of_nodup_append hnd) (he ▸ aid_mem_preF ht)
      (List.mem_append.mpr (Or.inl (aid_mem_preT S)))
  have hQ : Q.filter (fun t => aid t ≠ aid S) = Q := by
    rw [List.filter_eq_self]
    intro t ht
    refine decide_eq_true ?_
    intro he
    have hnd2 := hnd.of_append_right
    exact (List.disjoint_of_nodup_append hnd2) (he ▸ aid_mem_preT S)
      (aid_mem_preF ht)
  rw [hP, hQ]

theorem findF_mid_skip {j : Nat} {S : ATree} (hj : j ∉ preT S)
    (P Q : List ATree) : findF j (P ++ Q) = findF j (P ++ S :: Q) := by
  rw [findF_append, findF_append]
  match findF j P with
  | some r => rfl
  | none =>
    rw [findF, findT_not_mem hj]

theorem parF_mid_skip {j : Nat} {S : ATree} (hj : j ∉ preT S)
    (P Q : List ATree) : parF j (P ++ Q) = parF j (P ++ S :: Q) := by
  rw [parF_append, parF_append]
  match parF j P with
  | some r => rfl
  | none =>
    rw [parF, parT_not_mem hj]

theorem rootF_mid_skip {j : Nat} {S : ATree} (hj : j ∉ preT S)
    (P Q : List ATree) : rootF j (P ++ Q) = rootF j (P ++ S :: Q) := by
  rw [rootF_append, rootF_append]
  match rootF j P with
  | some r => rfl
  | none =>
    unfold rootF
    rw [List.find?_cons_of_neg _ (by simpa using hj)]

theorem predIn_segment {X S Y : List Nat} {j : Nat} (hnd : (X ++ S ++ Y).Nodup)
    (hj : j ∈ S) (hne : S.head? ≠ some j) :
    predIn (X ++ S ++ Y) j = predIn S j := by
  unfold predIn
  have hrev : (X ++ S ++ Y).reverse = Y.reverse ++ S.reverse ++ X.reverse := by
    rw [List.reverse_append, List.reverse_append, List.append_assoc]
  rw [hrev]
  have hndr : (Y.reverse ++ S.reverse ++ X.reverse).Nodup := by
    rw [← hrev]
    exact List.nodup_reverse.mpr hnd
  have hlr : S.reverse.getLast? ≠ some j := by
    rw [List.getLast?_reverse]
    exact hne
  exact succIn_segment hndr (List.mem_reverse.mpr hj) hlr

theorem reprH_name {F : List ATree} {n : Nat} {st : ATree}
    (hx : findF n F = some st) : (reprH F n).name = (adata st).name := by
  unfold reprH
  rw [hx]

theorem reprH_attrs {F : List ATree} {n : Nat} {st : ATree}
    (hx : findF n F = some st) : (reprH F n).attrs = (adata st).attrs := by
  unfold reprH
  rw [hx]

theorem reprH_text {F : List ATree} {n : Nat} {st : ATree}
    (hx : findF n F = some st) : (reprH F n).text = (adata st).text := by
  unfold reprH
  rw [hx]

theorem attachT_self {p k : Nat} {S : ATree} {stp : ATree} (ha : aid stp = p) :
    attachT p k S stp = ATree.mk p (adata stp) (insATree k S (akids stp)) := by
  rcases stp with ⟨i, d, cs⟩
  rw [aid] at ha
  subst ha
  rw [attachT, if_pos rfl]
  rfl

theorem preT_akids (t : ATree) : preT t = aid t :: preF (akids t) := by
  rcases t with ⟨i, d, cs⟩
  rw [preT_eq]
  rfl

theorem attachF_mem {p k : Nat} {S t : ATree} : ∀ {ts : List ATree}, t ∈ ts →
    attachT p k S t ∈ attachF p k S ts
  | t2 :: ts, h => by
    rw [attachF]
    rcases List.mem_cons.mp h with h | h
    · subst h
      exact List.mem_cons_self _ _
    · exact List.mem_cons_of_mem _ (attachF_mem h)

theorem getLast?_cons_some {a : Nat} {l : List Nat} {x : Nat}
    (h : l.getLast? = some x) : (a :: l).getLast? = some x := by
  match l with
  | [] => exact Option.noConfusion h
  | b :: bs =>
    rw [List.getLast?_cons_cons]
    exact h

theorem head_append_some {l l2 : List Nat} {x : Nat} (h : l.head? = some x) :
    (l ++ l2).head? = some x := by
  match l with
  | [] => exact Option.noConfusion h
  | b :: bs => exact h

/-- Heap image of the attachment: inside the attached subtree. -/
theorem attach_sim_in {G : List ATree} (hwf : wfForest G = true)
    {p c : Nat} {stp : ATree} (hstp : findF p G = some stp)
    {S : ATree} (hS : S ∈ G) (hSc : aid S = c) (hpS : p ∉ preT S)
    {u : ATree} (hu : u ∈ G) (hpu : p ∈ preT u)
    {k pe : Nat} {nxt : Option Nat} {h' : Heap}
    (htab : AttachTable G p c S stp u k pe nxt h')
    (j : Nat) (hjS : j ∈ preT S) :
    h' j = reprH (attachF p k S (G.filter (fun t => aid t ≠ c))) j := by
  subst hSc
  obtain ⟨hk, hpe, hnxt, hcont, hdata, hpar, hps, hns, hpel, hnel⟩ := htab
  rw [wfForest, Bool.and_eq_true] at hwf
  have hnd : (preF G).Nodup := (nodupB_iff _).mp hwf.1
  obtain ⟨P, Q, hPQ, hfilt⟩ := filter_root_split hnd hS
  rw [hfilt]
  have hGsplit : preF G = preF P ++ (preT S ++ preF Q) := by
    rw [hPQ, preF_append, preF]
  have hndPQ : (preF (P ++ Q)).Nodup := by
    rw [preF_append]
    have hsub : List.Sublist (preF P ++ preF Q) (preF P ++ (preT S ++ preF Q)) :=
      List.Sublist.append_left (List.sublist_append_right _ _) (preF P)
    exact hsub.nodup (by rw [← hGsplit]; exact hnd)
  have hdisjPQ : ∀ x ∈ preT S, x ∉ preF (P ++ Q) := by
    intro x hx hm
    rw [preF_append] at hm
    have hnd2 : (preF P ++ (preT S ++ preF Q)).Nodup := by
      rw [← hGsplit]
      exact hnd
    rcases List.mem_append.mp hm with hm | hm
    · exact (List.disjoint_of_nodup_append hnd2) hm (List.mem_append.mpr (Or.inl hx))
    · exact (List.disjoint_of_nodup_append hnd2.of_append_right) hx hm
  have hpPQ : p ∈ preF (P ++ Q) := by
    have hpG : p ∈ preF G := preT_subset_preF hu hpu
    rw [hGsplit] at hpG
    rw [preF_append]
    rcases List.mem_append.mp hpG with hm | hm
    · exact List.mem_append.mpr (Or.inl hm)
    · rcases List.mem_append.mp hm with hm | hm
      · exact absurd hm hpS
      · exact List.mem_append.mpr (Or.inr hm)
  have hstp' : findF p (P ++ Q) = some stp := by
    rw [findF_mid_skip hpS P Q, ← hPQ]
    exact hstp
  have huS : u ≠ S := fun he => hpS (he ▸ hpu)
  have huPQ : u ∈ P ++ Q := by
    rw [hPQ] at hu
    rcases List.mem_append.mp hu with hm | hm
    · exact List.mem_append.mpr (Or.inl hm)
    · rcases List.mem_cons.mp hm with hm | hm
      · exact absurd hm huS
      · exact List.mem_append.mpr (Or.inr hm)
  have hndu : (preT u).Nodup := (preT_infix_preF hu).sublist.nodup hnd
  have hfindTpu : findT p u = some stp := by
    rw [← findF_eq_findT hnd hu hpu]
    exact hstp
  obtain ⟨A0, B0, hseg1, hseg2⟩ := @preT_attachT_seg p k S u stp hndu hfindTpu
  have haidstp : aid stp = p := findF_aid hstp
  have hattstp : attachT p k S stp
      = ATree.mk p (adata stp) (insATree k S (akids stp)) := attachT_self haidstp
  have hpreTstp : preT stp = p :: preF (akids stp) := by
    rw [preT_akids, haidstp]
  have hpreTstp2 : preT (attachT p k S stp)
      = p :: (preF ((akids stp).take k)
          ++ (preT S ++ preF ((akids stp).drop k))) := by
    rw [hattstp, preT_eq, insATree_eq, preF_ins_split]
  have hkssplit : preF (akids stp)
      = preF ((akids stp).take k) ++ preF ((akids stp).drop k) := by
    conv_lhs => rw [← List.take_append_drop k (akids stp)]
    rw [preF_append]
  have huold : preT u
      = (A0 ++ p :: preF ((akids stp).take k))
        ++ (preF ((akids stp).drop k) ++ B0) := by
    rw [hseg1, hpreTstp, hkssplit]
    simp [List.append_assoc]
  have hunew : preT (attachT p k S u)
      = (A0 ++ p :: preF ((akids stp).take k)) ++ preT S
        ++ (preF ((akids stp).drop k) ++ B0) := by
    rw [hseg2, hpreTstp2]
    simp [List.append_assoc]
  have hpermA : (preF (attachF p k S (P ++ Q))).Perm (preF (P ++ Q) ++ preT S) :=
    preF_attachF_perm hndPQ hstp'
  have hperm2 : (preF (P ++ Q) ++ preT S).Perm (preF G) := by
    rw [hGsplit, preF_append, List.append_assoc]
    refine List.Perm.append_left (preF P) ?_
    exact List.perm_append_comm
  have hndA : (preF (attachF p k S (P ++ Q))).Nodup :=
    ((hpermA.trans hperm2).nodup_iff).mpr hnd
  have hndu2 : (preT (attachT p k S u)).Nodup := by
    have hmem : attachT p k S u ∈ attachF p k S (P ++ Q) := attachF_mem huPQ
    exact (preT_infix_preF hmem).sublist.nodup hndA
  have hfc : findF (aid S) G = some S := findF_self_of_mem hnd hS
  have hfjS : findF j G = findT j S := findF_eq_findT hnd hS hjS
  obtain ⟨rj, hrj⟩ : ∃ rj, findT j S = some rj := by
    match hz : findT j S with
    | some r => exact ⟨r, rfl⟩
    | none =>
      exfalso
      have hs := (findT_isSome_iff j S).mpr hjS
      rw [hz] at hs
      exact Bool.noConfusion hs
  have hfjG : findF j G = some rj := by
    rw [hfjS]
    exact hrj
  have hfjA : findF j (attachF p k S (P ++ Q)) = some rj := by
    rw [findF_attachF_in hpPQ hjS hdisjPQ]
    exact hrj
  have hjp : ¬ j = p := fun he => hpS (he ▸ hjS)
  have hSU : ∀ x ∈ preT S, x ∉ preT u := fun x hxS hxu =>
    hpS ((members_unique hnd hS hu hxS hxu).symm ▸ hpu)
  have hju : j ∉ preT u := hSU j hjS
  have hKids : childIds G p = (akids stp).map aid := by
    unfold childIds
    rw [hstp]
  have hKu : ∀ x ∈ childIds G p, x ∈ preT u := by
    intro x hx
    refine (preT_sub_of_mem hnd hstp (findF_self_of_mem hnd hu) hpu) ?_
    unfold childIds at hx
    rw [hstp] at hx
    exact mem_kids_mem_preT hx
  have hcu : aid S ∉ preT u := hSU _ (aid_mem_preT S)
  have hcK : aid S ∉ childIds G p := fun hm => hcu (hKu _ hm)
  have hnxtu : ∀ v, nxt = some v → v ∈ preT u := by
    intro v hv
    rcases hnxt with ⟨_, hval⟩ | ⟨nc, hh, hval⟩
    · rw [hval] at hv
      exact succIn_val_mem hv
    · rw [hval] at hv
      injection hv with hv
      rw [← hv]
      exact hKu nc (List.drop_subset _ _ (mem_of_head_some hh))
  have hpeu : pe ∈ preT u := by
    rcases hpe with ⟨_, hval⟩ | ⟨pc, stpc, hgl, hfpc, hval⟩
    · rw [hval]
      exact hpu
    · have hpcK : pc ∈ childIds G p :=
        List.take_subset _ _ (mem_of_getLast_some hgl)
      have hsub : preT stpc ⊆ preT u :=
        preT_sub_of_mem hnd hfpc (findF_self_of_mem hnd hu) (hKu pc hpcK)
      rw [hval]
      exact hsub (lastA_mem stpc)
  have hjpe : ¬ j = pe := fun he => hju (he ▸ hpeu)
  have hchSA : ∀ q ∈ preT S,
      childIds (attachF p k S (P ++ Q)) q = childIds G q := by
    intro q hq
    unfold childIds
    rw [findF_attachF_in hpPQ hq hdisjPQ, findF_eq_findT hnd hS hq]
  have hrootGj : rootF j G = some S := rootF_eq hnd hS hjS
  have hrootAj : rootF j (attachF p k S (P ++ Q)) = some (attachT p k S u) :=
    rootF_attachF_inS hndPQ hjS hdisjPQ huPQ hpu
  have hndarr : ((A0 ++ p :: preF ((akids stp).take k)) ++ preT S
      ++ (preF ((akids stp).drop k) ++ B0)).Nodup := by
    rw [← hunew]
    exact hndu2
  refine hnode_ext ?_ ?_ ?_ ?_ ?_ ?_ ?_ ?_ ?_ ?_ ?_
  · rw [(hdata j).1, reprH_isTag hfjG, reprH_isTag hfjA]
  · rw [(hdata j).2.1, reprH_name hfjG, reprH_name hfjA]
  · rw [(hdata j).2.2.1, reprH_attrs hfjG, reprH_attrs hfjA]
  · rw [(hdata j).2.2.2.1, reprH_text hfjG, reprH_text hfjA]
  · rw [hcont j, if_neg hjp, reprH_contents hfjG, reprH_contents hfjA]
  · by_cases hjc : j = aid S
    · subst hjc
      rw [hpar (aid S), if_pos rfl, reprH_parent hfjA]
      exact (parF_attachF_c hpPQ (fun hm => hdisjPQ _ (aid_mem_preT S) hm)).symm
    · rw [hpar j, if_neg hjc, reprH_parent hfjG, reprH_parent hfjA,
        parF_attachF_inS hpPQ hjS hjc hdisjPQ, parF_sub hnd hfc hjS hjc]
  · by_cases hjc : j = aid S
    · subst hjc
      rw [hps (aid S), if_pos rfl, reprH_prevSib hfjA,
        parF_attachF_c hpPQ (fun hm => hdisjPQ _ (aid_mem_preT S) hm)]
      show ((childIds G p).take k).getLast?
        = predIn (childIds (attachF p k S (P ++ Q)) p) (aid S)
      have hchAp : childIds (attachF p k S (P ++ Q)) p
          = (childIds G p).take k ++ aid S :: (childIds G p).drop k := by
        have h1 : findF p (attachF p k S (P ++ Q))
            = some (attachT p k S stp) := by
          rw [findF_attachF_out hndPQ hpS, hstp']
          rfl
        have h2 : childIds (attachF p k S (P ++ Q)) p
            = (akids (attachT p k S stp)).map aid := by
          unfold childIds
          rw [h1]
        rw [h2, hattstp]
        show (insATree k S (akids stp)).map aid = _
        rw [insATree_eq, List.map_append, List.map_cons, List.map_take,
          List.map_drop, hKids]
      rw [hchAp,
        predIn_middle (fun hm => hcK (List.drop_subset _ _ hm))]
    · have hjK2 : ¬ some j = ((childIds G p).drop k).head? := by
        intro he
        exact hju (hKu j (List.drop_subset _ _ (mem_of_head_some he.symm)))
      rw [hps j, if_neg hjc, if_neg hjK2, reprH_prevSib hfjG, reprH_prevSib hfjA,
        parF_attachF_inS hpPQ hjS hjc hdisjPQ, parF_sub hnd hfc hjS hjc]
      match hq : parT j S with
      | none => rfl
      | some q =>
        show predIn (childIds G q) j = predIn (childIds (attachF p k S (P ++ Q)) q) j
        rw [hchSA q (parT_parent_mem hq)]
  · by_cases hjc : j = aid S
    · subst hjc
      rw [hns (aid S), if_pos rfl, reprH_nextSib hfjA,
        parF_attachF_c hpPQ (fun hm => hdisjPQ _ (aid_mem_preT S) hm)]
      show ((childIds G p).drop k).head?
        = succIn (childIds (attachF p k S (P ++ Q)) p) (aid S)
      have hchAp : childIds (attachF p k S (P ++ Q)) p
          = (childIds G p).take k ++ aid S :: (childIds G p).drop k := by
        have h1 : findF p (attachF p k S (P ++ Q))
            = some (attachT p k S stp) := by
          rw [findF_attachF_out hndPQ hpS, hstp']
          rfl
        have h2 : childIds (attachF p k S (P ++ Q)) p
            = (akids (attachT p k S stp)).map aid := by
          unfold childIds
          rw [h1]
        rw [h2, hattstp]
        show (insATree k S (akids stp)).map aid = _
        rw [insATree_eq, List.map_append, List.map_cons, List.map_take,
          List.map_drop, hKids]
      rw [hchAp,
        succIn_middle (fun hm => hcK (List.take_subset _ _ hm))]
    · have hjK1 : ¬ some j = ((childIds G p).take k).getLast? := by
        intro he
        exact hju (hKu j (List.take_subset _ _ (mem_of_getLast_some he.symm)))
      rw [hns j, if_neg hjc, if_neg hjK1, reprH_nextSib hfjG, reprH_nextSib hfjA,
        parF_attachF_inS hpPQ hjS hjc hdisjPQ, parF_sub hnd hfc hjS hjc]
      match hq : parT j S with
      | none => rfl
      | some q =>
        show succIn (childIds G q) j = succIn (childIds (attachF p k S (P ++ Q)) q) j
        rw [hchSA q (parT_parent_mem hq)]
  · by_cases hjc : j = aid S
    · subst hjc
      rw [hpel (aid S), if_pos rfl, reprH_prevEl hfjA, hrootAj]
      show some pe = predIn (preT (attachT p k S u)) (aid S)
      rw [hunew]
      obtain ⟨Stl, hStl⟩ : ∃ tl, preT S = aid S :: tl :=
        ⟨preF (akids S), preT_akids S⟩
      have harr : (A0 ++ p :: preF ((akids stp).take k)) ++ preT S
          ++ (preF ((akids stp).drop k) ++ B0)
          = (A0 ++ p :: preF ((akids stp).take k))
            ++ aid S :: (Stl ++ (preF ((akids stp).drop k) ++ B0)) := by
        rw [hStl]
        simp [List.append_assoc]
      have hnm : aid S ∉ Stl ++ (preF ((akids stp).drop k) ++ B0) := by
        have hnd3 := hndarr
        rw [harr] at hnd3
        exact (List.nodup_cons.mp hnd3.of_append_right).1
      rw [harr, predIn_middle hnm]
      rcases hpe with ⟨hk0, hval⟩ | ⟨pc, stpc, hgl, hfpc, hval⟩
      · rw [hval, hk0]
        show some p = (A0 ++ p :: preF []).getLast?
        rw [List.getLast?_append_of_ne_nil _ (by simp)]
        rfl
      · subst hval
        rw [hKids, ← List.map_take] at hgl
        obtain ⟨ck, hckl, hcka⟩ := getLast_of_map_aid hgl
        have hfck : findF pc G = some ck := by
          refine hcka ▸ findF_child hnd hstp ?_
          exact List.take_subset _ _ (mem_of_getLast_some hckl)
        have hstpcck : stpc = ck := by
          rw [hfck] at hfpc
          exact (Option.some.inj hfpc).symm
        subst hstpcck
        rw [List.getLast?_append_of_ne_nil _ (by simp),
          getLast?_cons_some (preF_getLast hckl)]
    · have hjnxt : ¬ some j = nxt := fun he => hju (hnxtu j he.symm)
      rw [hpel j, if_neg hjc, if_neg hjnxt, reprH_prevEl hfjG, reprH_prevEl hfjA,
        hrootGj, hrootAj]
      show predIn (preT S) j = predIn (preT (attachT p k S u)) j
      have hd : (preT S).head? ≠ some j := by
        rw [head_preT]
        exact fun he => hjc (Option.some.inj he).symm
      rw [hunew, predIn_segment hndarr hjS hd]
  · by_cases hjlaS : j = lastA S
    · rw [hnel j, if_neg hjpe, if_pos hjlaS, reprH_nextEl hfjA, hrootAj]
      subst hjlaS
      show nxt = succIn (preT (attachT p k S u)) (lastA S)
      rw [hunew]
      obtain ⟨S0, hS0⟩ := getLast_split (preT_getLast S)
      have harr2 : (A0 ++ p :: preF ((akids stp).take k)) ++ preT S
          ++ (preF ((akids stp).drop k) ++ B0)
          = ((A0 ++ p :: preF ((akids stp).take k)) ++ S0)
            ++ lastA S :: (preF ((akids stp).drop k) ++ B0) := by
        rw [hS0]
        simp [List.append_assoc]
      have hnm2 : lastA S ∉ (A0 ++ p :: preF ((akids stp).take k)) ++ S0 := by
        have hnd3 := hndarr
        rw [harr2] at hnd3
        intro hm
        exact (List.disjoint_of_nodup_append hnd3) hm (List.mem_cons_self _ _)
      rw [harr2, succIn_middle hnm2]
      rcases hnxt with ⟨hK2nil, hval⟩ | ⟨nc, hh, hval⟩
      · subst hval
        rw [hKids, ← List.map_drop] at hK2nil
        have hks2nil : (akids stp).drop k = [] := List.map_eq_nil_iff.mp hK2nil
        rw [hks2nil]
        show succIn (preT u) (lastA stp) = B0.head?
        obtain ⟨S1, hS1⟩ := getLast_split (preT_getLast stp)
        have harr3 : preT u = (A0 ++ S1) ++ lastA stp :: B0 := by
          rw [hseg1, hS1]
          simp [List.append_assoc]
        have hnm3 : lastA stp ∉ A0 ++ S1 := by
          have hnd4 := hndu
          rw [harr3] at hnd4
          intro hm
          exact (List.disjoint_of_nodup_append hnd4) hm (List.mem_cons_self _ _)
        rw [harr3, succIn_middle hnm3]
      · subst hval
        rw [hKids, ← List.map_drop] at hh
        match hz : (akids stp).drop k with
        | [] =>
          rw [hz] at hh
          exact Option.noConfusion hh
        | t2 :: ts2 =>
          rw [hz] at hh
          have hh2 : aid t2 = nc := by
            rw [List.map_cons] at hh
            exact Option.some.inj hh
          rw [head_append_some (by rw [preF_head, hh2])]
    · rw [hnel j, if_neg hjpe, if_neg hjlaS, reprH_nextEl hfjG, reprH_nextEl hfjA,
        hrootGj, hrootAj]
      show succIn (preT S) j = succIn (preT (attachT p k S u)) j
      have hd : (preT S).getLast? ≠ some j := by
        rw [preT_getLast]
        exact fun he => hjlaS (Option.some.inj he).symm
      rw [hunew, succIn_segment hndarr hjS hd]
  · rw [(hdata j).2.2.2.2, reprH_decomposed hfjG, reprH_decomposed hfjA]

/-- C1 (amended).  The document-order invariant holds of every well-formed
tree state: in the heap image of any forest whose node ids are distinct and
whose non-tag nodes are childless, every node lies under a parentless root,
walking `next_element` from that root visits exactly the nodes of its tree,
once each, in the pre-order of the `contents` lists, and walking
`previous_element` from the last node yields exactly the reverse sequence.
The original claim — that this holds for every tree produced by ANY sequence
of `insert`/`extract` operations — is refuted by `c1_counterexample`:
`Tag.insert` rejects only `new_child is self`, not a proper descendant, so
inserting a node below its own descendant succeeds and breaks the walk. -/
theorem c1_amended_order_invariant (F : List ATree) (hwf : wfForest F = true)
    (ids : List Nat) (hids : ∀ i, i ∈ ids ↔ i ∈ preF F)
    (fuel : Nat) (hfuel : (preF F).length + 1 ≤ fuel) :
    OrderInvB (reprH F) ids fuel = true :=
  wf_order_invariant_gen F hwf ids hids fuel hfuel

/-- Witness for the amended C1: the invariant evaluated on the concrete
well-formed chain `a > b > c` of the counterexample, before the bad insert. -/
theorem c1_amended_witness :
    wfForest wForest1c = true ∧
    OrderInvB (reprH wForest1c) (preF wForest1c) ((preF wForest1c).length + 1) = true :=
  ⟨by decide, c1_amended_order_invariant wForest1c (by decide) (preF wForest1c)
    (fun i => Iff.rfl) ((preF wForest1c).length + 1) (le_refl _)⟩

end BS4
